import Mathlib

/-!
Inverted-Indexed-Search: a shallow embedding of the index core

The development follows `list.c`, `validate.c` and `database.c`.

Modelling conventions
* A C string (a NUL-terminated `char` array) is the list of its bytes before the
  terminator, `Str = List Nat`.  `word[0]` of the empty string is the terminator, 0.
  Documents and snapshots are text: the byte lists of the model hold no NUL byte.
* `int` fields are `Int`; no counter of the model wraps around (a document would need
  2^31 tokens to overflow a `wordCount`), and a number read by `%d` is taken to fit.
* File names handed to the program fit the 20-byte array `filename`.
* Linked lists (`FileList`, the `mainLink` chain of a bucket, the `subLink` chain of a
  word) are Lean lists in link order.  The table `HashTable hashTablle[MAX_HASH_SIZE]`
  is the list of its 28 bucket chains.
* `malloc` is assumed to succeed, `fopen(_, "w")` as well.
* The file system is a function from file names to contents (`none`: `fopen(_, "r")`
  returns `NULL`).
* Behaviour that C leaves undefined (a `NULL` stream, a `NULL` link followed, a table
  slot outside `0..27`, an unset local read, a field of a snapshot that does not fit its
  20-byte array) is reported as a `Fault`.
-/

namespace InvertedSearch

/-! ## Data model (`list.h`) -/

/-- A C string: the bytes before the terminating NUL. -/
abbrev Str := List Nat

/-- Bytes of a string literal, used to write examples readably. -/
def str (s : String) : Str := s.toList.map Char.toNat

def MAX_FILENAME_LENGTH : Nat := 20
def MAX_WORD_LENGTH : Nat := 20
def MAX_HASH_SIZE : Nat := 28

def SUCCESS : Int := 0
def FAILURE : Int := -1
def DUPLICATE : Int := -2

/-- The struct `SubNode`: a file name and the count of the word in that file;
`subLink` is the tail of the list the node sits in. -/
structure SubNode where
  filename : Str
  wordCount : Int
deriving DecidableEq, Repr

/-- The struct `MainNode`: a word, the number of files it appears in and the chain of
its `SubNode`s; `mainLink` is the tail of the bucket list the node sits in. -/
structure MainNode where
  word : Str
  fileCount : Int
  subLink : List SubNode
deriving DecidableEq, Repr

/-- The linked list `FileList` of input file names. -/
abbrev FileList := List Str

/-- The array `HashTable hashTablle[MAX_HASH_SIZE]`: entry `i` is the chain
`hashTablle[i].link`. -/
abbrev HashTable := List (List MainNode)

/-- What C leaves undefined, made observable. -/
inductive Fault where
  | nullStream
  | nullLink
  | outOfBounds
  | unset
  | overflow
  | fuel
deriving DecidableEq, Repr

deriving instance DecidableEq for Except

/-- The function `initialize_hashTable(hashTablle, MAX_HASH_SIZE)`: every link is `NULL`. -/
def initialize_hashTable (size : Nat) : HashTable := List.replicate size []

/-- The chain `hashTablle[i].link`. -/
def HashTable.link (ht : HashTable) (i : Nat) : List MainNode := ht.getD i []

/-- The function `create_subNode`. -/
def create_subNode (filename : Str) (wordCount : Int) : SubNode :=
  { filename := filename, wordCount := wordCount }

/-! ## Classifier (`validate.c`) -/

/-- The function `get_word_index`: the bucket of a word, from `word[0]`. -/
def get_word_index (word : Str) : Int :=
  let c := word.headD 0
  if 65 ≤ c ∧ c ≤ 90 then (c : Int) - 65
  else if 97 ≤ c ∧ c ≤ 122 then (c : Int) - 97
  else if 48 ≤ c ∧ c ≤ 57 then 26
  else 27

/-- The function `valid_file_name`: the name has at least four bytes and ends in `.txt`. -/
def valid_file_name (filename : Str) : Int :=
  let len := filename.length
  if len < 4 ∨ filename.drop (len - 4) ≠ [46, 116, 120, 116] then FAILURE else SUCCESS

/-! ## DocumentSet (`list.c`) -/

/-- The function `fileList_insert_last`: status and the list afterwards. -/
def fileList_insert_last : FileList → Str → Int × FileList
  | [], filename => (SUCCESS, [filename])
  | f :: rest, filename =>
    if f = filename then (DUPLICATE, f :: rest)
    else
      match rest with
      | [] => (SUCCESS, [f, filename])
      | _ :: _ =>
        let r := fileList_insert_last rest filename
        (r.1, f :: r.2)

/-- The function `delete_duplicate`: unlinks the first node holding `filename`. -/
def delete_duplicate : FileList → Str → Int × FileList
  | [], _ => (FAILURE, [])
  | f :: rest, filename =>
    if f = filename then (SUCCESS, rest)
    else
      let r := delete_duplicate rest filename
      (r.1, f :: r.2)

/-! ## Insertion into the index (`list.c`) -/

/-- The inner `while (curr_sub)` loop of `hashTable_insert_last`: the `SubNode` chain
afterwards, and whether a new `SubNode` was linked (then `fileCount` is incremented). -/
def insert_sub (filename : Str) : List SubNode → List SubNode × Bool
  | [] => ([create_subNode filename 1], true)
  | s :: rest =>
    if s.filename = filename then ({ s with wordCount := s.wordCount + 1 } :: rest, false)
    else
      let r := insert_sub filename rest
      (s :: r.1, r.2)

/-- The outer `while (curr_m)` loop of `hashTable_insert_last` on one bucket chain. -/
def insert_main (filename word : Str) : List MainNode → List MainNode
  | [] => [{ word := word, fileCount := 1, subLink := [create_subNode filename 1] }]
  | m :: rest =>
    if m.word = word then
      let r := insert_sub filename m.subLink
      { m with subLink := r.1, fileCount := if r.2 then m.fileCount + 1 else m.fileCount } :: rest
    else m :: insert_main filename word rest

/-- The function `hashTable_insert_last`: status and the table afterwards. -/
def hashTable_insert_last (ht : HashTable) (filename : Str) (index : Int) (word : Str) :
    Int × HashTable :=
  if index < 0 ∨ index ≥ MAX_HASH_SIZE then (FAILURE, ht)
  else (SUCCESS, ht.set index.toNat (insert_main filename word (ht.link index.toNat)))

/-! ## Indexer (`database.c`) -/

/-- The file system as `fopen(name, "r")` sees it: the bytes of a readable file, `none`
where `fopen` returns `NULL`. -/
abbrev FS := Str → Option (List Nat)

/-- The C library `isspace` in the "C" locale: space, `\t`, `\n`, `\v`, `\f`, `\r`. -/
def isspace (c : Nat) : Bool := c = 32 ∨ (9 ≤ c ∧ c ≤ 13)

/-- One call `fscanf(fp, "%19s", word)`: leading white space is skipped, then at most 19
bytes that are not white space are stored.  `none` when the call does not return 1 (end
of input); otherwise the word and the rest of the stream. -/
def scan_word (s : List Nat) : Option (Str × List Nat) :=
  let s1 := s.dropWhile isspace
  let w := (s1.takeWhile (fun c => !isspace c)).take (MAX_WORD_LENGTH - 1)
  if w = [] then none else some (w, s1.drop w.length)

/-- The words delivered by the loop `while (fscanf(fp, "%19s", word) == 1)`, in order. -/
def scan_words : Nat → List Nat → List Str
  | 0, _ => []
  | fuel + 1, s =>
    match scan_word s with
    | none => []
    | some (w, rest) => w :: scan_words fuel rest

/-- The body of the word loop of `create_database` for one word of file `filename`. -/
def index_word (filename : Str) (ht : HashTable) (word : Str) : HashTable :=
  let index := get_word_index word
  if index < 0 ∨ index ≥ MAX_HASH_SIZE then ht
  else (hashTable_insert_last ht filename index word).2

/-- The body of the file loop of `create_database`: a file that cannot be opened is
skipped, otherwise every word read from it is inserted. -/
def index_file (fs : FS) (ht : HashTable) (filename : Str) : HashTable :=
  match fs filename with
  | none => ht
  | some content => (scan_words (content.length + 1) content).foldl (index_word filename) ht

/-- The function `create_database`: status and the table afterwards. -/
def create_database (fs : FS) (filelist : FileList) (ht : HashTable) : Int × HashTable :=
  match filelist with
  | [] => (FAILURE, ht)
  | _ :: _ => (SUCCESS, filelist.foldl (index_file fs) ht)

/-! ## Search (`database.c`) -/

/-- The loop `for (j = 0; j < fileCount; j++) { ...temp_sub->...; temp_sub = temp_sub->subLink; }`
shared by `search_word`, `save_database` and `display_database`: the nodes it visits, or a
fault when it follows a `NULL` link. -/
def walk_subs : Nat → List SubNode → Except Fault (List SubNode)
  | 0, _ => .ok []
  | _ + 1, [] => .error .nullLink
  | j + 1, s :: rest =>
    match walk_subs j rest with
    | .error e => .error e
    | .ok visited => .ok (s :: visited)

/-- The scan of one bucket chain by `search_word`: one report per node whose word equals
`word`, holding the word, its `fileCount` and the (file, count) lines printed. -/
def search_bucket (word : Str) : List MainNode → Except Fault (List (Str × Int × List (Str × Int)))
  | [] => .ok []
  | m :: rest =>
    if m.word = word then
      match walk_subs m.fileCount.toNat m.subLink with
      | .error e => .error e
      | .ok visited =>
        match search_bucket word rest with
        | .error e => .error e
        | .ok reports => .ok ((m.word, m.fileCount, visited.map (fun s => (s.filename, s.wordCount))) :: reports)
    else search_bucket word rest

/-- The function `search_word`: the reports printed; the empty list is the
"not present in the DATABASE" message (`found == 0`). -/
def search_word (ht : HashTable) (word : Str) : Except Fault (List (Str × Int × List (Str × Int))) :=
  search_bucket word (ht.link (get_word_index word).toNat)

/-! ## Serializer (`database.c`) -/

/-- Decimal digits of a natural number, most significant first. -/
def decimalAux : Nat → Nat → List Nat → List Nat
  | 0, _, acc => acc
  | fuel + 1, n, acc =>
    if n / 10 = 0 then (48 + n % 10) :: acc
    else decimalAux fuel (n / 10) ((48 + n % 10) :: acc)

/-- The conversion `%d` of `fprintf`. -/
def print_d (n : Int) : List Nat :=
  if n < 0 then 45 :: decimalAux (n.natAbs + 1) n.natAbs []
  else decimalAux (n.natAbs + 1) n.natAbs []

/-- The text `fprintf(fp, "%s;%d;", ...)` writes for the nodes visited. -/
def save_subs : List SubNode → List Nat
  | [] => []
  | s :: rest => s.filename ++ [59] ++ print_d s.wordCount ++ [59] ++ save_subs rest

/-- The record written for one `MainNode` of bucket `i`. -/
def save_main (i : Nat) (m : MainNode) : Except Fault (List Nat) :=
  match walk_subs m.fileCount.toNat m.subLink with
  | .error e => .error e
  | .ok visited =>
    .ok ([35] ++ print_d i ++ [59] ++ m.word ++ [59] ++ print_d m.fileCount ++ [59]
          ++ save_subs visited ++ [35, 10])

/-- The loop `while (temp != NULL)` of `save_database` over the chain of bucket `i`. -/
def save_bucket (i : Nat) : List MainNode → Except Fault (List Nat)
  | [] => .ok []
  | m :: rest =>
    match save_main i m with
    | .error e => .error e
    | .ok t =>
      match save_bucket i rest with
      | .error e => .error e
      | .ok u => .ok (t ++ u)

/-- The loop `for (i = 0; i < MAX_HASH_SIZE; i++)` of `save_database`, from bucket `i`
for `n` buckets. -/
def save_buckets (ht : HashTable) : Nat → Nat → Except Fault (List Nat)
  | _, 0 => .ok []
  | i, n + 1 =>
    match save_bucket i (ht.link i) with
    | .error e => .error e
    | .ok t =>
      match save_buckets ht (i + 1) n with
      | .error e => .error e
      | .ok u => .ok (t ++ u)

/-- The header line written first by `save_database`. -/
def header_line : List Nat := str "#Index;Word;FileCount;FileName;wordCount;#\n"

/-- The bytes `save_database` writes to the stream it opened. -/
def save_text (ht : HashTable) : Except Fault (List Nat) :=
  match save_buckets ht 0 MAX_HASH_SIZE with
  | .error e => .error e
  | .ok t => .ok (header_line ++ t)

/-- Writing a file. -/
def FS.write (fs : FS) (name : Str) (text : List Nat) : FS :=
  fun n => if n = name then some text else fs n

/-- The function `save_database`: the file system afterwards. -/
def save_database (ht : HashTable) (backup : Str) (fs : FS) : Except Fault FS :=
  if valid_file_name backup = FAILURE then .ok fs
  else
    match save_text ht with
    | .error e => .error e
    | .ok text => .ok (fs.write backup text)

/-! ## Loader / Merger (`validate.c`, `database.c`) -/

/-- The function `valid_database` on the bytes of the stream: the first byte and the
byte at offset `size - 2` must be `#`.  With fewer than two bytes the `fseek` fails and
the second `fgetc` returns `EOF`. -/
def valid_database (content : List Nat) : Int :=
  if content.head? ≠ some 35 then FAILURE
  else if content.length < 2 then FAILURE
  else if content.get? (content.length - 2) ≠ some 35 then FAILURE
  else SUCCESS

def isdigit (c : Nat) : Bool := 48 ≤ c ∧ c ≤ 57

/-- Value of a run of decimal digits. -/
def digits_value (ds : List Nat) : Nat := ds.foldl (fun a d => a * 10 + (d - 48)) 0

/-- The conversion `%d` of `fscanf`: white space is skipped, an optional sign and the
digits are consumed.  The value is `none` on a matching or input failure. -/
def scan_d (s : List Nat) : Option Int × List Nat :=
  let s1 := s.dropWhile isspace
  let s2 := if s1.head? = some 45 ∨ s1.head? = some 43 then s1.tail else s1
  let ds := s2.takeWhile isdigit
  if ds = [] then (none, s2)
  else if s1.head? = some 45 then (some (-(digits_value ds : Int)), s2.dropWhile isdigit)
  else (some (digits_value ds : Int), s2.dropWhile isdigit)

/-- The conversion `%[^;]` of `fscanf`: the longest non-empty run of bytes other than `;`. -/
def scan_set (s : List Nat) : Option Str × List Nat :=
  let w := s.takeWhile (fun c => c ≠ 59)
  if w = [] then (none, s) else (some w, s.dropWhile (fun c => c ≠ 59))

/-- An ordinary character of a `fscanf` format: it must be the next byte. -/
def lit (c : Nat) (s : List Nat) : Option (List Nat) :=
  match s with
  | [] => none
  | d :: t => if d = c then some t else none

/-- The call `fscanf(fp, "#%d;%[^;];%d;", &index, word, &fileCount)`: the three values
and the rest of the stream when it returns 3, `none` otherwise.  The conversion `%[^;]`
has no width: a field of 20 bytes or more overruns `char word[MAX_WORD_LENGTH]`. -/
def scan_record (s : List Nat) : Except Fault (Option (Int × Str × Int × List Nat)) :=
  match lit 35 s with
  | none => .ok none
  | some s1 =>
    match scan_d s1 with
    | (none, _) => .ok none
    | (some index, s2) =>
      match lit 59 s2 with
      | none => .ok none
      | some s3 =>
        match scan_set s3 with
        | (none, _) => .ok none
        | (some word, s4) =>
          if MAX_WORD_LENGTH ≤ word.length then .error .overflow
          else
            match lit 59 s4 with
            | none => .ok none
            | some s5 =>
              match scan_d s5 with
              | (none, _) => .ok none
              | (some fileCount, s6) =>
                .ok (some (index, word, fileCount, (lit 59 s6).getD s6))

/-- The call `fscanf(fp, "%[^;];%d;", filename, &wordCount)`, whose return value the
loader ignores: a variable that is not assigned keeps what it held (`none`: never set).
A field of 20 bytes or more overruns `char filename[MAX_FILENAME_LENGTH]`. -/
def scan_pair (s : List Nat) (filename : Option Str) (wordCount : Option Int) :
    Except Fault (Option Str × Option Int × List Nat) :=
  match scan_set s with
  | (none, s0) => .ok (filename, wordCount, s0)
  | (some f, s1) =>
    if MAX_FILENAME_LENGTH ≤ f.length then .error .overflow
    else
      match lit 59 s1 with
      | none => .ok (some f, wordCount, s1)
      | some s2 =>
        match scan_d s2 with
        | (none, s3) => .ok (some f, wordCount, s3)
        | (some c, s3) => .ok (some f, some c, (lit 59 s3).getD s3)

/-- The call `fscanf(fp, "#\n")`: a `#`, then any white space. -/
def scan_end (s : List Nat) : List Nat :=
  match lit 35 s with
  | none => s
  | some t => t.dropWhile isspace

/-- The loop `for (i = 0; i < fileCount; i++)` of `update_database`: the stream, the
file list and the `SubNode` chain after `n` more rounds.  The locals `filename` and
`wordCount` are not initialised; a round that uses one before any `fscanf` has set it is
a fault. -/
def load_pairs : Nat → List Nat → FileList → Option Str → Option Int → List SubNode →
    Except Fault (List Nat × FileList × List SubNode)
  | 0, s, fl, _, _, subs => .ok (s, fl, subs)
  | n + 1, s, fl, filename, wordCount, subs =>
    match scan_pair s filename wordCount with
    | .error e => .error e
    | .ok (some f, some c, s1) =>
      load_pairs n s1 (delete_duplicate fl f).2 (some f) (some c) (subs ++ [create_subNode f c])
    | .ok (_, _, _) => .error .unset

/-- The loop `while (fscanf(fp, "#%d;%[^;];%d;", ...) == 3)` of `update_database`.  The
new node is linked at the tail of `hashTablle[index]`, then its `SubNode`s are read.
`create_mainNode` leaves `subLink` unset, and only the first round of the pair loop sets
it: a record with `fileCount <= 0` leaves an unset pointer in the table, which is reported
as a fault. -/
def load_records : Nat → List Nat → FileList → HashTable → Except Fault (FileList × HashTable)
  | 0, _, _, _ => .error .fuel
  | fuel + 1, s, fl, ht =>
    match scan_record s with
    | .error e => .error e
    | .ok none => .ok (fl, ht)
    | .ok (some (index, word, fileCount, s1)) =>
      if index < 0 ∨ index ≥ MAX_HASH_SIZE then .error .outOfBounds
      else
        match load_pairs fileCount.toNat s1 fl none none [] with
        | .error e => .error e
        | .ok (s2, fl2, subs) =>
          if fileCount ≤ 0 then .error .unset
          else
            let newMain : MainNode := { word := word, fileCount := fileCount, subLink := subs }
            load_records fuel (scan_end s2) fl2
              (ht.set index.toNat (ht.link index.toNat ++ [newMain]))

/-- The calls `fscanf(fp, "%*[^\n]"); fgetc(fp);`: the header line and its newline are
skipped. -/
def skip_line (s : List Nat) : List Nat := (s.dropWhile (fun c => c ≠ 10)).tail

/-- The function `update_database`: the file list and the table afterwards. -/
def update_database (fs : FS) (filelist : FileList) (ht : HashTable) (backup : Str) :
    Except Fault (FileList × HashTable) :=
  if valid_file_name backup = FAILURE then .ok (filelist, ht)
  else
    match fs backup with
    | none => .error .nullStream
    | some content =>
      if content.length = 0 then .ok (filelist, ht)
      else if valid_database content = FAILURE then .ok (filelist, ht)
      else
        let s := skip_line content
        match load_records (s.length + 1) s filelist ht with
        | .error e => .error e
        | .ok (fl, ht1) => .ok (fl, (create_database fs fl ht1).2)

/-! ## The index described from the sequence of insertions

An insertion is a pair (file, word).  The definitions below describe, from the sequence of
insertions alone, the index the code is expected to hold; the theorems compare the index
the code builds with them. -/

/-- The distinct elements of a list in order of first appearance. -/
def first_seen {α : Type} [DecidableEq α] : List α → List α
  | [] => []
  | a :: l => a :: (first_seen l).filter (fun b => b ≠ a)

/-- The files from which `w` was inserted, in order of first insertion. -/
def files_of (ops : List (Str × Str)) (w : Str) : List Str :=
  first_seen ((ops.filter (fun op => op.2 = w)).map Prod.fst)

/-- The words inserted that classify to bucket `i`, in order of first insertion. -/
def words_of (ops : List (Str × Str)) (i : Nat) : List Str :=
  first_seen ((ops.map Prod.snd).filter (fun w => (get_word_index w).toNat = i))

/-- The entry expected for word `w`: one occurrence per file in first-seen order, counting
the insertions of `w` from that file. -/
def spec_entry (ops : List (Str × Str)) (w : Str) : MainNode :=
  { word := w,
    fileCount := ((files_of ops w).length : Int),
    subLink := (files_of ops w).map
      (fun f => { filename := f, wordCount := ((ops.count (f, w) : Nat) : Int) }) }

/-- The chain expected in bucket `i`. -/
def spec_bucket (ops : List (Str × Str)) (i : Nat) : List MainNode :=
  (words_of ops i).map (spec_entry ops)

/-- The table expected after the insertions `ops` into the empty index. -/
def spec_table (ops : List (Str × Str)) : HashTable :=
  (List.range MAX_HASH_SIZE).map (spec_bucket ops)

/-- A sequence of calls `hashTable_insert_last(ht, file, get_word_index(word), word)`. -/
def insert_all (ops : List (Str × Str)) (ht : HashTable) : HashTable :=
  ops.foldl (fun t op => (hashTable_insert_last t op.1 (get_word_index op.2) op.2).2) ht

/-- The index holds the occurrence `(f, n)` under an entry for word `w`. -/
def holds (ht : HashTable) (w f : Str) (n : Int) : Prop :=
  ∃ b ∈ ht, ∃ m ∈ b, m.word = w ∧ ({ filename := f, wordCount := n } : SubNode) ∈ m.subLink

instance (ht : HashTable) (w f : Str) (n : Int) : Decidable (holds ht w f n) := by
  unfold holds
  infer_instance

/-- The insertions `create_database` performs for a file list: for each readable file,
in list order, one per word read. -/
def doc_ops (fs : FS) (filelist : FileList) : List (Str × Str) :=
  filelist.flatMap (fun f =>
    match fs f with
    | none => []
    | some content => (scan_words (content.length + 1) content).map (fun w => (f, w)))

/-- The white-space separated tokens of a text. -/
def tokens (content : List Nat) : List Str :=
  (content.splitOnP isspace).filter (fun t => t ≠ [])

/-! ## The loader loop, factored

The loop of `update_database` reads records and, as it goes, links nodes into the table
and unlinks names from the file list.  What it reads does not depend on the table or on
the file list; the definitions below separate the three, and `load_records_eq` shows
that the loop is their composition. -/

/-- The `SubNode`s the pair loop creates and the stream it leaves. -/
def parse_pairs : Nat → List Nat → Option Str → Option Int →
    Except Fault (List Nat × List SubNode)
  | 0, s, _, _ => .ok (s, [])
  | n + 1, s, filename, wordCount =>
    match scan_pair s filename wordCount with
    | .error e => .error e
    | .ok (some f, some c, s1) =>
      match parse_pairs n s1 (some f) (some c) with
      | .error e => .error e
      | .ok (s2, subs) => .ok (s2, create_subNode f c :: subs)
    | .ok (_, _, _) => .error .unset

/-- The records the loader loop reads: the bucket and the node linked into it. -/
def parse_records : Nat → List Nat → Except Fault (List (Nat × MainNode))
  | 0, _ => .error .fuel
  | fuel + 1, s =>
    match scan_record s with
    | .error e => .error e
    | .ok none => .ok []
    | .ok (some (index, word, fileCount, s1)) =>
      if index < 0 ∨ index ≥ MAX_HASH_SIZE then .error .outOfBounds
      else
        match parse_pairs fileCount.toNat s1 none none with
        | .error e => .error e
        | .ok (s2, subs) =>
          if fileCount ≤ 0 then .error .unset
          else
            match parse_records fuel (scan_end s2) with
            | .error e => .error e
            | .ok recs =>
              .ok ((index.toNat, { word := word, fileCount := fileCount, subLink := subs }) :: recs)

/-- Successive calls of `delete_duplicate`. -/
def remove_files (fl : FileList) (names : List Str) : FileList :=
  names.foldl (fun l f => (delete_duplicate l f).2) fl

/-- Linking each record at the tail of its bucket. -/
def append_records (ht : HashTable) (recs : List (Nat × MainNode)) : HashTable :=
  recs.foldl (fun t r => t.set r.1 (t.link r.1 ++ [r.2])) ht

/-- The file fields of a list of records, in reading order. -/
def record_files (recs : List (Nat × MainNode)) : List Str :=
  recs.flatMap (fun r => r.2.subLink.map SubNode.filename)

/-- The file names held in a table. -/
def table_files (ht : HashTable) : List Str :=
  ht.flatMap (fun b => b.flatMap (fun m => m.subLink.map SubNode.filename))

/-! ## Snapshots that can be read back -/

/-- The text of the record written for node `m` of bucket `i` when all its occurrences
are visited. -/
def record_text (i : Nat) (m : MainNode) : List Nat :=
  [35] ++ print_d i ++ [59] ++ m.word ++ [59] ++ print_d m.fileCount ++ [59]
    ++ save_subs m.subLink ++ [35, 10]

/-- The nodes of a table with their buckets, in the order `save_database` visits them. -/
def records_of (ht : HashTable) : List (Nat × MainNode) :=
  (List.range MAX_HASH_SIZE).flatMap (fun i => (ht.link i).map (fun m => (i, m)))

/-- The text of a list of records. -/
def records_text (recs : List (Nat × MainNode)) : List Nat :=
  recs.flatMap (fun r => record_text r.1 r.2)

/-- A string that can be a field of a snapshot: not empty, no `;`, and short enough for
its 20-byte array. -/
def Field (w : Str) : Prop := w ≠ [] ∧ 59 ∉ w ∧ w.length < 20

instance (w : Str) : Decidable (Field w) := by
  unfold Field
  infer_instance

/-- A node the snapshot format can carry: the word and the file names are fields, and
`fileCount` is the number of occurrences, at least one. -/
def Storable (m : MainNode) : Prop :=
  Field m.word ∧ m.fileCount = (m.subLink.length : Int) ∧ m.subLink ≠ [] ∧
    ∀ s ∈ m.subLink, Field s.filename

instance (m : MainNode) : Decidable (Storable m) := by
  unfold Storable
  infer_instance

/-- A table of 28 buckets whose nodes are all storable. -/
def Serializable (ht : HashTable) : Prop :=
  ht.length = MAX_HASH_SIZE ∧ ∀ b ∈ ht, ∀ m ∈ b, Storable m

instance (ht : HashTable) : Decidable (Serializable ht) := by
  unfold Serializable
  infer_instance

/-- Saving a table to `backup` and loading that file into the empty index with nothing
pending. -/
def save_then_load (fs : FS) (ht : HashTable) (backup : Str) : Except Fault (FileList × HashTable) :=
  match save_database ht backup fs with
  | .error e => .error e
  | .ok fs' => update_database fs' [] (initialize_hashTable MAX_HASH_SIZE) backup

/-! ## What the scans of `hashTable_insert_last` find -/

/-- The count of the first `SubNode` for file `f` in a chain, as the inner scan finds it. -/
def sub_lookup (f : Str) (subs : List SubNode) : Option Int :=
  (subs.find? (fun s => s.filename = f)).map SubNode.wordCount

/-- The count for file `f` under the first node for word `w` of a bucket chain. -/
def chain_lookup (w f : Str) (b : List MainNode) : Option Int :=
  (b.find? (fun m => m.word = w)).bind (fun m => sub_lookup f m.subLink)

/-- The count for `(w, f)` that an insertion of `w` from `f` would find. -/
def lookup (t : HashTable) (w f : Str) : Option Int :=
  chain_lookup w f (t.link (get_word_index w).toNat)

/-- File `f` is tidy in the chain of bucket `i`: every node that holds `f` has a word
that classifies to `i`, is the first node of its word (`seen` holds the words of the
nodes before the chain) and holds `f` once. -/
def Tidy (f : Str) (i : Nat) : List Str → List MainNode → Prop
  | _, [] => True
  | seen, m :: rest =>
    (f ∈ m.subLink.map SubNode.filename →
      (get_word_index m.word).toNat = i ∧ m.word ∉ seen ∧
        (m.subLink.map SubNode.filename).count f ≤ 1) ∧
    Tidy f i (m.word :: seen) rest

/-! ## Example data -/

/-- The two documents of the worked example: `doc1.txt` holds "Hello hello World" and
`doc2.txt` holds "World"; no other file can be opened. -/
def example_docs : FS := fun name =>
  if name = str "doc1.txt" then some (str "Hello hello World")
  else if name = str "doc2.txt" then some (str "World")
  else none

/-- A store with a snapshot `db.txt` that covers file `a.txt` only (word "x", twice) and a
document `b.txt` holding "x y". -/
def example_store : FS := fun name =>
  if name = str "db.txt" then some (header_line ++ str "#23;x;1;a.txt;2;#\n")
  else if name = str "b.txt" then some (str "x y")
  else none

/-- The table expected after updating from `db.txt` with `a.txt` and `b.txt` pending. -/
def example_updated : HashTable :=
  ((initialize_hashTable MAX_HASH_SIZE).set 23
    [{ word := str "x", fileCount := 2,
       subLink := [{ filename := str "a.txt", wordCount := 2 },
                   { filename := str "b.txt", wordCount := 1 }] }]).set 24
    [{ word := str "y", fileCount := 1, subLink := [{ filename := str "b.txt", wordCount := 1 }] }]

/-- A store whose only document, `d.txt`, holds the single token "a;b". -/
def semicolon_docs : FS := fun name =>
  if name = str "d.txt" then some (str "a;b") else none

/-- The index `create_database` builds from `d.txt`. -/
def semicolon_index : HashTable :=
  (create_database semicolon_docs [str "d.txt"] (initialize_hashTable MAX_HASH_SIZE)).2

/-- The table obtained by loading `db.txt` of `example_store` alone. -/
def example_loaded : HashTable :=
  (initialize_hashTable MAX_HASH_SIZE).set 23
    [{ word := str "x", fileCount := 1, subLink := [{ filename := str "a.txt", wordCount := 2 }] }]

/-- A store with the same snapshot `db.txt` and a document `b.txt` that holds one token of
20 bytes. -/
def long_token_store : FS := fun name =>
  if name = str "db.txt" then some (header_line ++ str "#23;x;1;a.txt;2;#\n")
  else if name = str "b.txt" then some (str "aaaaaaaaaaaaaaaaaaaa")
  else none

/-- The table `update_database` leaves for `long_token_store`. -/
def long_token_updated : HashTable :=
  ((initialize_hashTable MAX_HASH_SIZE).set 23
    [{ word := str "x", fileCount := 1,
       subLink := [{ filename := str "a.txt", wordCount := 2 }] }]).set 0
    [{ word := str "aaaaaaaaaaaaaaaaaaa", fileCount := 1,
       subLink := [{ filename := str "b.txt", wordCount := 1 }] },
     { word := str "a", fileCount := 1,
       subLink := [{ filename := str "b.txt", wordCount := 1 }] }]

/-- The index of the worked example: "Hello" and "hello" in bucket 7, "World" in
bucket 22. -/
def example_index : HashTable :=
  ((initialize_hashTable MAX_HASH_SIZE).set 7
    [{ word := str "Hello", fileCount := 1,
       subLink := [{ filename := str "doc1.txt", wordCount := 1 }] },
     { word := str "hello", fileCount := 1,
       subLink := [{ filename := str "doc1.txt", wordCount := 1 }] }]).set 22
    [{ word := str "World", fileCount := 2,
       subLink := [{ filename := str "doc1.txt", wordCount := 1 },
                   { filename := str "doc2.txt", wordCount := 1 }] }]

/-- A file list built by successive calls of `fileList_insert_last`, as
`read_and_validate_args` does. -/
def build_fileList (names : List Str) : FileList :=
  names.foldl (fun l x => (fileList_insert_last l x).2) []

/-! ## Invariants of the index -/

/-- Uniqueness: the words of every bucket are pairwise distinct and the file names of
every entry are pairwise distinct. -/
def Unique (ht : HashTable) : Prop :=
  ∀ b ∈ ht, (b.map MainNode.word).Nodup ∧ ∀ m ∈ b, (m.subLink.map SubNode.filename).Nodup

instance (ht : HashTable) : Decidable (Unique ht) := by
  unfold Unique
  infer_instance

/-- Counting: every entry's `fileCount` is the length of its occurrence list, which is
not empty, and every occurrence has a count of at least one. -/
def Counted (ht : HashTable) : Prop :=
  ∀ b ∈ ht, ∀ m ∈ b, m.fileCount = (m.subLink.length : Int) ∧ 1 ≤ m.subLink.length ∧
    ∀ s ∈ m.subLink, 1 ≤ s.wordCount

instance (ht : HashTable) : Decidable (Counted ht) := by
  unfold Counted
  infer_instance

/-- Classification: every entry of bucket `i` has a word that `get_word_index` maps to
`i`. -/
def Classified (ht : HashTable) : Prop :=
  ∀ i, ∀ m ∈ ht.link i, get_word_index m.word = (i : Int)

/-- A sequence of calls `hashTable_insert_last(ht, file, index, word)` with any index
arguments. -/
def insert_calls (calls : List (Str × Int × Str)) (ht : HashTable) : HashTable :=
  calls.foldl (fun t c => (hashTable_insert_last t c.1 c.2.1 c.2.2).2) ht

/-- The text of one `file;count;` pair. -/
def pair_text (s : SubNode) : List Nat := s.filename ++ [59] ++ print_d s.wordCount ++ [59]

/-- The record `#<bucket>;<word>;<fileCount>;<file_1>;<count_1>;...;<file_n>;<count_n>;#\n`
of an entry of bucket `i`, with the pairs in stored order. -/
def record_layout (i : Nat) (m : MainNode) : List Nat :=
  [35] ++ print_d i ++ [59] ++ m.word ++ [59] ++ print_d m.fileCount ++ [59]
    ++ m.subLink.flatMap pair_text ++ [35, 10]

/-- The successive pieces of at most `n` bytes of a string. -/
def pieces (n : Nat) : Nat → Str → List Str
  | 0, _ => []
  | fuel + 1, t => if t = [] then [] else t.take n :: pieces n fuel (t.drop n)

/-- The words `fscanf(fp, "%19s", word)` makes of one token: its successive pieces of 19
bytes, the last one holding what is left. -/
def token_words (t : Str) : List Str := pieces (MAX_WORD_LENGTH - 1) t.length t

/-- A store whose document `long.txt` holds one token of 20 bytes. -/
def long_docs : FS := fun name =>
  if name = str "long.txt" then some (str "aaaaaaaaaaaaaaaaaaaa") else none

/-- A store whose snapshot `db.txt` has a first record that announces two pairs and whose
second pair lacks its count, followed by a well-formed record. -/
def malformed_store : FS := fun name =>
  if name = str "db.txt" then
    some (header_line ++ str "#23;x;2;a.txt;1;b.txt;#\n#24;y;1;b.txt;1;#\n")
  else none

/-- A store whose snapshot `db.txt` has a single record that announces one pair and
holds two. -/
def surplus_store : FS := fun name =>
  if name = str "db.txt" then some (header_line ++ str "#23;x;1;a.txt;2;b.txt;3;#\n")
  else none

/-- The reports `search_word` prints when every loop over the occurrences visits the
whole list: one per entry of the bucket whose word is `word`, with all its occurrences. -/
def full_reports (b : List MainNode) (word : Str) : List (Str × Int × List (Str × Int)) :=
  (b.filter (fun m => m.word = word)).map
    (fun m => (m.word, m.fileCount, m.subLink.map (fun s => (s.filename, s.wordCount))))

/-- A store whose snapshot `db.txt` files the word "x" under bucket 5. -/
def misfiled_store : FS := fun name =>
  if name = str "db.txt" then some (header_line ++ str "#5;x;1;a.txt;1;#\n") else none

/-- The table `update_database` builds from `misfiled_store`. -/
def misfiled_index : HashTable :=
  (initialize_hashTable MAX_HASH_SIZE).set 5
    [{ word := str "x", fileCount := 1, subLink := [{ filename := str "a.txt", wordCount := 1 }] }]

/-- A store whose snapshot `db.txt` names bucket 99. -/
def out_of_range_store : FS := fun name =>
  if name = str "db.txt" then some (header_line ++ str "#99;x;1;a.txt;1;#\n") else none

/-- A store whose snapshot `db.txt` names bucket -1. -/
def negative_bucket_store : FS := fun name =>
  if name = str "db.txt" then some (header_line ++ str "#-1;x;1;a.txt;1;#\n") else none

/-- Building the index from `[a]`, saving it under `backup`, and updating the empty index
from that file with `[a, b]` pending. -/
def update_after_save (fs : FS) (a b backup : Str) : Except Fault (FileList × HashTable) :=
  match save_database (create_database fs [a] (initialize_hashTable MAX_HASH_SIZE)).2 backup fs with
  | .error e => .error e
  | .ok fs' => update_database fs' [a, b] (initialize_hashTable MAX_HASH_SIZE) backup

/-- A store whose document `a.txt` holds the tokens "a" and "a;b" and whose document
`b.txt` holds "c". -/
def semicolon_pair_docs : FS := fun name =>
  if name = str "a.txt" then some (str "a a;b")
  else if name = str "b.txt" then some (str "c")
  else none

/-! ## Basic facts: the table as an array of chains -/

theorem link_set_self (ht : HashTable) (i : Nat) (b : List MainNode) (h : i < ht.length) :
    HashTable.link (ht.set i b) i = b := by
  simp [HashTable.link, List.getD_eq_getElem?_getD, List.getElem?_set, h]

theorem link_set_ne (ht : HashTable) (i j : Nat) (b : List MainNode) (h : i ≠ j) :
    HashTable.link (ht.set i b) j = ht.link j := by
  simp [HashTable.link, List.getD_eq_getElem?_getD, List.getElem?_set, h]

theorem link_eq_nil_of_le (ht : HashTable) (i : Nat) (h : ht.length ≤ i) : ht.link i = [] := by
  simp [HashTable.link, List.getD_eq_getElem?_getD, List.getElem?_eq_none h]

theorem lt_length_of_mem_link (ht : HashTable) (i : Nat) (m : MainNode) (h : m ∈ ht.link i) :
    i < ht.length := by
  by_contra hc
  rw [link_eq_nil_of_le ht i (by omega)] at h
  simp at h

/-! ## The classifier -/

theorem get_word_index_nonneg (word : Str) : 0 ≤ get_word_index word := by
  unfold get_word_index
  simp only
  split_ifs <;> omega

theorem get_word_index_le (word : Str) : get_word_index word ≤ 27 := by
  unfold get_word_index
  simp only
  split_ifs <;> omega

theorem get_word_index_toNat_lt (word : Str) : (get_word_index word).toNat < MAX_HASH_SIZE := by
  have h1 := get_word_index_nonneg word
  have h2 := get_word_index_le word
  unfold MAX_HASH_SIZE
  omega

/-- C3: `get_word_index` returns a bucket in 0..27 that is a function of the first
character only (the NUL terminator for the empty word): letters go to 0..25 with both
cases of a letter in the same bucket, digits go to 26 and every other first character,
the terminator included, goes to 27. -/
theorem get_word_index_classifies :
    (∀ word : Str, 0 ≤ get_word_index word ∧ get_word_index word ≤ 27) ∧
    (∀ w1 w2 : Str, w1.headD 0 = w2.headD 0 → get_word_index w1 = get_word_index w2) ∧
    (∀ (c : Nat) (t : Str), 65 ≤ c → c ≤ 90 → get_word_index (c :: t) = (c : Int) - 65) ∧
    (∀ (c : Nat) (t : Str), 97 ≤ c → c ≤ 122 → get_word_index (c :: t) = (c : Int) - 97) ∧
    (∀ (c : Nat) (t u : Str), 65 ≤ c → c ≤ 90 →
      get_word_index (c :: t) = get_word_index ((c + 32) :: u)) ∧
    (∀ (c : Nat) (t : Str), 48 ≤ c → c ≤ 57 → get_word_index (c :: t) = 26) ∧
    (∀ (c : Nat) (t : Str), ¬ (65 ≤ c ∧ c ≤ 90) → ¬ (97 ≤ c ∧ c ≤ 122) → ¬ (48 ≤ c ∧ c ≤ 57) →
      get_word_index (c :: t) = 27) ∧
    get_word_index [] = 27 := by
  refine ⟨fun w => ⟨get_word_index_nonneg w, get_word_index_le w⟩, ?_, ?_, ?_, ?_, ?_, ?_, ?_⟩
  · intro w1 w2 h
    unfold get_word_index
    rw [h]
  · intro c t h1 h2
    simp [get_word_index, h1, h2]
  · intro c t h1 h2
    have h3 : ¬ (65 ≤ c ∧ c ≤ 90) := by omega
    simp [get_word_index, h1, h2, h3]
  · intro c t u h1 h2
    have h3 : ¬ (65 ≤ c + 32 ∧ c + 32 ≤ 90) := by omega
    have h4 : 97 ≤ c + 32 ∧ c + 32 ≤ 122 := by omega
    simp only [get_word_index, List.headD_cons, h1, h2, h3, h4, and_self, if_true, if_false]
    push_cast
    omega
  · intro c t h1 h2
    have h3 : ¬ (65 ≤ c ∧ c ≤ 90) := by omega
    have h4 : ¬ (97 ≤ c ∧ c ≤ 122) := by omega
    simp [get_word_index, h1, h2, h3, h4]
  · intro c t h1 h2 h3
    simp only [get_word_index, List.headD_cons, h1, h2, h3, if_false]
  · decide

theorem get_word_index_classifies_witness :
    get_word_index (str "Hello") = 7 ∧ get_word_index (str "hello") = 7 ∧
    get_word_index (str "Hello") = get_word_index (str "hello") ∧
    get_word_index (str "42") = 26 ∧ get_word_index (str "_x") = 27 := by
  obtain ⟨_, _, hU, hL, hUL, hD, hO, _⟩ := get_word_index_classifies
  refine ⟨?_, ?_, ?_, ?_, ?_⟩
  · exact hU 72 (str "ello") (by decide) (by decide)
  · exact hL 104 (str "ello") (by decide) (by decide)
  · exact hUL 72 (str "ello") (str "ello") (by decide) (by decide)
  · exact hD 52 (str "2") (by decide) (by decide)
  · exact hO 95 (str "x") (by decide) (by decide) (by decide)

/-! ## Insertion: what the two scans of `hashTable_insert_last` do -/

theorem insert_sub_found (f : Str) (sp sq : List SubNode) (s : SubNode)
    (hsp : ∀ x ∈ sp, x.filename ≠ f) (hs : s.filename = f) :
    insert_sub f (sp ++ s :: sq) = (sp ++ { s with wordCount := s.wordCount + 1 } :: sq, false) := by
  induction sp with
  | nil => simp [insert_sub, hs]
  | cons x sp ih =>
    have hx : x.filename ≠ f := hsp x (by simp)
    have ih2 := ih (fun y hy => hsp y (by simp [hy]))
    simp [insert_sub, hx, ih2]

theorem insert_sub_new (f : Str) (subs : List SubNode) (h : ∀ x ∈ subs, x.filename ≠ f) :
    insert_sub f subs = (subs ++ [create_subNode f 1], true) := by
  induction subs with
  | nil => simp [insert_sub]
  | cons x subs ih =>
    have hx : x.filename ≠ f := h x (by simp)
    have ih2 := ih (fun y hy => h y (by simp [hy]))
    simp [insert_sub, hx, ih2]

theorem insert_main_found (f w : Str) (pre post : List MainNode) (m : MainNode)
    (hpre : ∀ x ∈ pre, x.word ≠ w) (hm : m.word = w) :
    insert_main f w (pre ++ m :: post) =
      pre ++ { m with subLink := (insert_sub f m.subLink).1,
                      fileCount := if (insert_sub f m.subLink).2 then m.fileCount + 1
                                   else m.fileCount } :: post := by
  induction pre with
  | nil => simp [insert_main, hm]
  | cons x pre ih =>
    have hx : x.word ≠ w := hpre x (by simp)
    have ih2 := ih (fun y hy => hpre y (by simp [hy]))
    simp [insert_main, hx, ih2]

theorem insert_main_new (f w : Str) (b : List MainNode) (h : ∀ x ∈ b, x.word ≠ w) :
    insert_main f w b = b ++ [{ word := w, fileCount := 1, subLink := [create_subNode f 1] }] := by
  induction b with
  | nil => simp [insert_main]
  | cons x b ih =>
    have hx : x.word ≠ w := h x (by simp)
    have ih2 := ih (fun y hy => h y (by simp [hy]))
    simp [insert_main, hx, ih2]

/-- A member of a list whose keys are pairwise distinct splits the list into the part
before it and the part after it, neither holding its key. -/
theorem split_of_nodup_key {α β : Type} (key : α → β) (l : List α) (a : α)
    (hnd : (l.map key).Nodup) (ha : a ∈ l) :
    ∃ pre post, l = pre ++ a :: post ∧ (∀ x ∈ pre, key x ≠ key a) ∧ (∀ x ∈ post, key x ≠ key a) := by
  obtain ⟨pre, post, rfl⟩ := List.append_of_mem ha
  refine ⟨pre, post, rfl, ?_, ?_⟩
  · intro x hx heq
    rw [List.map_append, List.map_cons, List.nodup_append] at hnd
    exact hnd.2.2 (List.mem_map_of_mem key hx) (by simp [heq])
  · intro x hx heq
    rw [List.map_append, List.map_cons, List.nodup_append, List.nodup_cons] at hnd
    exact hnd.2.1.1 (by rw [← heq]; exact List.mem_map_of_mem key hx)

theorem hashTable_insert_last_in_range (ht : HashTable) (f w : Str) :
    hashTable_insert_last ht f (get_word_index w) w =
      (SUCCESS, ht.set (get_word_index w).toNat
        (insert_main f w (ht.link (get_word_index w).toNat))) := by
  have h1 := get_word_index_nonneg w
  have h2 := get_word_index_le w
  have h3 : ¬ (get_word_index w < 0 ∨ get_word_index w ≥ (MAX_HASH_SIZE : Int)) := by
    unfold MAX_HASH_SIZE
    push_cast
    omega
  simp only [hashTable_insert_last, h3, if_false]

/-- A list in which exactly one element satisfies `p` splits around that element. -/
theorem split_of_filter_singleton {α : Type} (p : α → Bool) (l : List α) (a : α)
    (h : l.filter p = [a]) :
    ∃ pre post, l = pre ++ a :: post ∧ (∀ x ∈ pre, p x = false) ∧ (∀ x ∈ post, p x = false) ∧
      p a = true := by
  induction l with
  | nil => simp at h
  | cons x l ih =>
    by_cases hx : p x = true
    · rw [List.filter_cons_of_pos hx] at h
      simp only [List.cons.injEq] at h
      obtain ⟨hxa, hnil⟩ := h
      subst hxa
      refine ⟨[], l, rfl, by simp, ?_, hx⟩
      intro y hy
      have := List.filter_eq_nil_iff.1 hnil y hy
      simpa using this
    · rw [List.filter_cons_of_neg hx] at h
      obtain ⟨pre, post, hl, hpre, hpost, ha⟩ := ih h
      refine ⟨x :: pre, post, by rw [hl]; rfl, ?_, hpost, ha⟩
      intro y hy
      rcases List.mem_cons.1 hy with h1 | h1
      · rw [h1]
        simpa using hx
      · exact hpre y h1

theorem filter_singleton_of_split {α : Type} (p : α → Bool) (pre post : List α) (a : α)
    (hpre : ∀ x ∈ pre, p x = false) (hpost : ∀ x ∈ post, p x = false) (ha : p a = true) :
    (pre ++ a :: post).filter p = [a] := by
  have h1 : pre.filter p = [] := by
    rw [List.filter_eq_nil_iff]
    intro x hx
    simp [hpre x hx]
  have h2 : post.filter p = [] := by
    rw [List.filter_eq_nil_iff]
    intro x hx
    simp [hpost x hx]
  rw [List.filter_append, List.filter_cons_of_pos ha, h1, h2]
  rfl

/-- C4: when, in an index, bucket `get_word_index w` holds exactly one entry `m` for word
`w` and `m` holds exactly one occurrence for file `f`, with count `c`, then inserting `w`
from `f` into that bucket returns SUCCESS; the bucket still holds exactly one entry for
`w`, in its old place; that entry holds exactly one occurrence for `f`, now `(f, c + 1)`,
in its old place among unchanged occurrences; its `fileCount` and the length of its
occurrence list are unchanged.  Inserting "x" twice from one file into the empty index
gives one entry with `fileCount` 1 and the single occurrence `(f, 2)`. -/
theorem insert_repeated_word_same_file :
    (∀ (ht : HashTable) (f w : Str) (c : Int) (m : MainNode),
      (ht.link (get_word_index w).toNat).filter (fun x => x.word = w) = [m] →
      m.subLink.filter (fun s => s.filename = f) = [{ filename := f, wordCount := c }] →
      (hashTable_insert_last ht f (get_word_index w) w).1 = SUCCESS ∧
      ∃ (m' : MainNode) (pre post : List MainNode) (sp sq : List SubNode),
        ht.link (get_word_index w).toNat = pre ++ m :: post ∧
        (hashTable_insert_last ht f (get_word_index w) w).2.link (get_word_index w).toNat
          = pre ++ m' :: post ∧
        ((hashTable_insert_last ht f (get_word_index w) w).2.link
          (get_word_index w).toNat).filter (fun x => x.word = w) = [m'] ∧
        m'.word = w ∧
        m.subLink = sp ++ { filename := f, wordCount := c } :: sq ∧
        m'.subLink = sp ++ { filename := f, wordCount := c + 1 } :: sq ∧
        m'.subLink.filter (fun s => s.filename = f) = [{ filename := f, wordCount := c + 1 }] ∧
        m'.fileCount = m.fileCount ∧
        m'.subLink.length = m.subLink.length) ∧
    (∀ f : Str,
      hashTable_insert_last
        (hashTable_insert_last (initialize_hashTable MAX_HASH_SIZE) f
          (get_word_index (str "x")) (str "x")).2 f (get_word_index (str "x")) (str "x")
        = (SUCCESS, (initialize_hashTable MAX_HASH_SIZE).set 23
            [{ word := str "x", fileCount := 1, subLink := [{ filename := f, wordCount := 2 }] }])) := by
  constructor
  · intro ht f w c m hone hocc
    obtain ⟨pre, post, hb, hpre, hpost, hw⟩ := split_of_filter_singleton _ _ m hone
    obtain ⟨sp, sq, hsub, hsp, hsq, _⟩ := split_of_filter_singleton _ _ _ hocc
    simp only [decide_eq_false_iff_not, decide_eq_true_eq] at hpre hpost hw hsp hsq
    have hm : m ∈ ht.link (get_word_index w).toNat := by
      rw [hb]
      simp
    have hlt := lt_length_of_mem_link ht _ m hm
    have hins := insert_sub_found f sp sq ⟨f, c⟩ hsp rfl
    rw [← hsub] at hins
    have hmain := insert_main_found f w pre post m hpre hw
    rw [hins] at hmain
    simp only [Bool.false_eq_true, if_false] at hmain
    rw [hashTable_insert_last_in_range]
    refine ⟨rfl, ⟨m.word, m.fileCount, sp ++ ⟨f, c + 1⟩ :: sq⟩, pre, post, sp, sq, hb, ?_, ?_,
      hw, hsub, rfl, ?_, rfl, ?_⟩
    · rw [link_set_self _ _ _ hlt, hb, hmain]
    · rw [link_set_self _ _ _ hlt, hb, hmain]
      exact filter_singleton_of_split _ pre post _ (by simpa using hpre) (by simpa using hpost)
        (by simpa using hw)
    · exact filter_singleton_of_split _ sp sq _ (by simpa using hsp) (by simpa using hsq)
        (by simp)
    · simp [hsub]
  · intro f
    have hx : get_word_index (str "x") = 23 := by decide
    rw [hashTable_insert_last_in_range, hashTable_insert_last_in_range, hx]
    simp [initialize_hashTable, MAX_HASH_SIZE, HashTable.link, insert_main, insert_sub,
      create_subNode]

theorem insert_repeated_word_same_file_witness :
    (hashTable_insert_last
      [[], [], [], [], [], [], [], [], [], [], [], [], [], [], [], [], [], [], [], [], [], [], [],
        [⟨str "x", 1, [⟨str "f.txt", 5⟩]⟩], [], [], [], []]
      (str "f.txt") (get_word_index (str "x")) (str "x")).1 = SUCCESS := by
  exact (insert_repeated_word_same_file.1
    [[], [], [], [], [], [], [], [], [], [], [], [], [], [], [], [], [], [], [], [], [], [], [],
        [⟨str "x", 1, [⟨str "f.txt", 5⟩]⟩], [], [], [], []]
    (str "f.txt") (str "x") 5 ⟨str "x", 1, [⟨str "f.txt", 5⟩]⟩
    (by decide) (by decide)).1

/-- C5: when, in an index, bucket `get_word_index w` holds exactly one entry `m` for word
`w` and `m` has no occurrence for file `f`, then inserting `w` from `f` returns SUCCESS,
appends `(f, 1)` after the earlier occurrences, which are unchanged and keep their order,
and increases the entry's `fileCount` by one; the entry stays in its place, the bucket
holds the same words as before and still exactly one entry for `w`, so no second entry is
created.  Inserting "x" from file A and then from a different file B into the empty index
gives one entry with `fileCount` 2 and occurrences `[(A, 1), (B, 1)]`. -/
theorem insert_known_word_new_file :
    (∀ (ht : HashTable) (f w : Str) (m : MainNode),
      (ht.link (get_word_index w).toNat).filter (fun x => x.word = w) = [m] →
      (∀ s ∈ m.subLink, s.filename ≠ f) →
      (hashTable_insert_last ht f (get_word_index w) w).1 = SUCCESS ∧
      ∃ (pre post : List MainNode),
        ht.link (get_word_index w).toNat = pre ++ m :: post ∧
        (hashTable_insert_last ht f (get_word_index w) w).2.link (get_word_index w).toNat
          = pre ++ { word := w, fileCount := m.fileCount + 1,
                     subLink := m.subLink ++ [{ filename := f, wordCount := 1 }] } :: post ∧
        ((hashTable_insert_last ht f (get_word_index w) w).2.link
            (get_word_index w).toNat).filter (fun x => x.word = w)
          = [{ word := w, fileCount := m.fileCount + 1,
               subLink := m.subLink ++ [{ filename := f, wordCount := 1 }] }] ∧
        ((hashTable_insert_last ht f (get_word_index w) w).2.link
            (get_word_index w).toNat).map MainNode.word
          = (ht.link (get_word_index w).toNat).map MainNode.word) ∧
    (∀ fA fB : Str, fA ≠ fB →
      hashTable_insert_last
        (hashTable_insert_last (initialize_hashTable MAX_HASH_SIZE) fA
          (get_word_index (str "x")) (str "x")).2 fB (get_word_index (str "x")) (str "x")
        = (SUCCESS, (initialize_hashTable MAX_HASH_SIZE).set 23
            [{ word := str "x", fileCount := 2,
               subLink := [{ filename := fA, wordCount := 1 }, { filename := fB, wordCount := 1 }] }])) := by
  constructor
  · intro ht f w m hone hs
    obtain ⟨pre, post, hb, hpre, hpost, hw⟩ := split_of_filter_singleton _ _ m hone
    simp only [decide_eq_false_iff_not, decide_eq_true_eq] at hpre hpost hw
    have hm : m ∈ ht.link (get_word_index w).toNat := by
      rw [hb]
      simp
    have hlt := lt_length_of_mem_link ht _ m hm
    have hmain := insert_main_found f w pre post m hpre hw
    rw [insert_sub_new f m.subLink hs] at hmain
    simp only [if_true] at hmain
    rw [hashTable_insert_last_in_range]
    refine ⟨rfl, pre, post, hb, ?_, ?_, ?_⟩
    · rw [link_set_self _ _ _ hlt, hb, hmain, hw]
      rfl
    · rw [link_set_self _ _ _ hlt, hb, hmain, hw]
      exact filter_singleton_of_split _ pre post _ (by simpa using hpre) (by simpa using hpost)
        (by simp)
    · rw [link_set_self _ _ _ hlt, hb, hmain]
      simp
  · intro fA fB hne
    have hx : get_word_index (str "x") = 23 := by decide
    rw [hashTable_insert_last_in_range, hashTable_insert_last_in_range, hx]
    simp [initialize_hashTable, MAX_HASH_SIZE, HashTable.link, insert_main, insert_sub,
      create_subNode, hne]

theorem insert_known_word_new_file_witness :
    (hashTable_insert_last
      [[], [], [], [], [], [], [], [], [], [], [], [], [], [], [], [], [], [], [], [], [], [], [],
        [⟨str "x", 1, [⟨str "a.txt", 5⟩]⟩], [], [], [], []]
      (str "b.txt") (get_word_index (str "x")) (str "x")).1 = SUCCESS := by
  exact (insert_known_word_new_file.1
    [[], [], [], [], [], [], [], [], [], [], [], [], [], [], [], [], [], [], [], [], [], [], [],
        [⟨str "x", 1, [⟨str "a.txt", 5⟩]⟩], [], [], [], []]
    (str "b.txt") (str "x") ⟨str "x", 1, [⟨str "a.txt", 5⟩]⟩
    (by decide) (by decide)).1

/-- C6: when bucket `get_word_index w` of a 28-bucket index holds no entry for `w`,
inserting `w` from `f` returns SUCCESS and the bucket becomes the old chain, unchanged and
in order, followed by a new entry for `w` with `fileCount` 1 and the single occurrence
`(f, 1)`. -/
theorem insert_new_word (ht : HashTable) (f w : Str)
    (hlen : ht.length = MAX_HASH_SIZE)
    (hnew : ∀ x ∈ ht.link (get_word_index w).toNat, x.word ≠ w) :
    (hashTable_insert_last ht f (get_word_index w) w).1 = SUCCESS ∧
    (hashTable_insert_last ht f (get_word_index w) w).2.link (get_word_index w).toNat
      = ht.link (get_word_index w).toNat
          ++ [{ word := w, fileCount := 1, subLink := [{ filename := f, wordCount := 1 }] }] := by
  have hlt : (get_word_index w).toNat < ht.length := by
    rw [hlen]
    exact get_word_index_toNat_lt w
  rw [hashTable_insert_last_in_range]
  refine ⟨rfl, ?_⟩
  rw [link_set_self _ _ _ hlt, insert_main_new f w _ hnew]
  rfl

theorem insert_new_word_witness :
    (hashTable_insert_last
      [[], [], [], [], [], [], [], [], [], [], [], [], [], [], [], [], [], [], [], [], [], [], [],
        [⟨str "x", 1, [⟨str "a.txt", 5⟩]⟩], [], [], [], []]
      (str "b.txt") (get_word_index (str "xy")) (str "xy")).2.link (get_word_index (str "xy")).toNat
      = [⟨str "x", 1, [⟨str "a.txt", 5⟩]⟩, ⟨str "xy", 1, [⟨str "b.txt", 1⟩]⟩] := by
  exact (insert_new_word
    [[], [], [], [], [], [], [], [], [], [], [], [], [], [], [], [], [], [], [], [], [], [], [],
        [⟨str "x", 1, [⟨str "a.txt", 5⟩]⟩], [], [], [], []]
    (str "b.txt") (str "xy") (by decide) (by decide)).2

/-! ## First-seen order -/

theorem mem_first_seen {α : Type} [DecidableEq α] (l : List α) (a : α) :
    a ∈ first_seen l ↔ a ∈ l := by
  induction l with
  | nil => simp [first_seen]
  | cons b l ih =>
    simp only [first_seen, List.mem_cons, List.mem_filter, ih]
    by_cases h : a = b <;> simp [h]

theorem nodup_first_seen {α : Type} [DecidableEq α] (l : List α) : (first_seen l).Nodup := by
  induction l with
  | nil => simp [first_seen]
  | cons b l ih =>
    simp only [first_seen, List.nodup_cons, List.mem_filter]
    exact ⟨by simp, ih.filter _⟩

theorem first_seen_snoc {α : Type} [DecidableEq α] (l : List α) (a : α) :
    first_seen (l ++ [a]) = if a ∈ l then first_seen l else first_seen l ++ [a] := by
  induction l with
  | nil => simp [first_seen]
  | cons b l ih =>
    rw [List.cons_append, first_seen, first_seen, ih]
    by_cases hab : a = b
    · subst hab
      by_cases hal : a ∈ l <;> simp [hal, List.filter_append]
    · by_cases hal : a ∈ l <;> simp [hal, hab, List.filter_append]

/-! ## One more insertion, seen from the description -/

theorem files_of_snoc_same (ops : List (Str × Str)) (f w : Str) :
    files_of (ops ++ [(f, w)]) w
      = if f ∈ files_of ops w then files_of ops w else files_of ops w ++ [f] := by
  unfold files_of
  rw [List.filter_append]
  simp only [List.filter_cons, decide_True, if_true, List.filter_nil, List.map_append,
    List.map_cons, List.map_nil]
  rw [first_seen_snoc]
  simp only [mem_first_seen]
  split_ifs <;> rfl

theorem files_of_snoc_other (ops : List (Str × Str)) (f w v : Str) (h : w ≠ v) :
    files_of (ops ++ [(f, w)]) v = files_of ops v := by
  unfold files_of
  rw [List.filter_append]
  simp [h]

theorem mem_files_of (ops : List (Str × Str)) (f w : Str) :
    f ∈ files_of ops w ↔ (f, w) ∈ ops := by
  unfold files_of
  rw [mem_first_seen]
  simp only [List.mem_map, List.mem_filter, decide_eq_true_eq]
  constructor
  · rintro ⟨⟨g, v⟩, ⟨hmem, hv⟩, hg⟩
    simp only at hv hg
    subst hv hg
    exact hmem
  · intro h
    exact ⟨(f, w), ⟨h, rfl⟩, rfl⟩

theorem count_snoc (ops : List (Str × Str)) (f w g v : Str) :
    (ops ++ [(f, w)]).count (g, v) = ops.count (g, v) + if g = f ∧ v = w then 1 else 0 := by
  rw [List.count_append, List.count_singleton]
  by_cases h : g = f ∧ v = w
  · obtain ⟨h1, h2⟩ := h
    subst h1 h2
    simp
  · have h2 : ¬ ((f, w) = (g, v)) := by
      intro heq
      apply h
      simp only [Prod.mk.injEq] at heq
      exact ⟨heq.1.symm, heq.2.symm⟩
    simp [h, h2]

theorem spec_entry_snoc_other (ops : List (Str × Str)) (f w v : Str) (h : w ≠ v) :
    spec_entry (ops ++ [(f, w)]) v = spec_entry ops v := by
  unfold spec_entry
  rw [files_of_snoc_other ops f w v h]
  congr 1
  apply List.map_congr_left
  intro g _
  rw [count_snoc]
  have h2 : ¬ (g = f ∧ v = w) := fun hh => h hh.2.symm
  simp [h2]

theorem spec_entry_snoc_same (ops : List (Str × Str)) (f w : Str) :
    spec_entry (ops ++ [(f, w)]) w
      = { word := w,
          fileCount := if (insert_sub f (spec_entry ops w).subLink).2
                       then (spec_entry ops w).fileCount + 1 else (spec_entry ops w).fileCount,
          subLink := (insert_sub f (spec_entry ops w).subLink).1 } := by
  by_cases hf : f ∈ files_of ops w
  · -- the file is known: its count is incremented in place
    obtain ⟨p, q, hpq, hp, hq⟩ :=
      split_of_nodup_key (fun g : Str => g) (files_of ops w) f
        (by simpa using nodup_first_seen _) hf
    have hins := insert_sub_found f
      (p.map (fun g => ({ filename := g, wordCount := ((ops.count (g, w) : Nat) : Int) } : SubNode)))
      (q.map (fun g => ({ filename := g, wordCount := ((ops.count (g, w) : Nat) : Int) } : SubNode)))
      { filename := f, wordCount := ((ops.count (f, w) : Nat) : Int) }
      (by
        intro x hx
        obtain ⟨g, hg, rfl⟩ := List.mem_map.1 hx
        exact hp g hg) rfl
    have hsub : (spec_entry ops w).subLink
        = p.map (fun g => ({ filename := g, wordCount := ((ops.count (g, w) : Nat) : Int) } : SubNode))
          ++ { filename := f, wordCount := ((ops.count (f, w) : Nat) : Int) }
          :: q.map (fun g => ({ filename := g, wordCount := ((ops.count (g, w) : Nat) : Int) } : SubNode)) := by
      simp [spec_entry, hpq]
    rw [hsub, hins]
    simp only [Bool.false_eq_true, if_false]
    unfold spec_entry
    rw [files_of_snoc_same, if_pos hf, hpq]
    simp only [List.map_append, List.map_cons, MainNode.mk.injEq, true_and]
    refine congrArg₂ _ ?_ (congrArg₂ _ ?_ ?_)
    · apply List.map_congr_left
      intro g hg
      rw [count_snoc]
      simp [hp g hg]
    · rw [count_snoc]
      simp
    · apply List.map_congr_left
      intro g hg
      rw [count_snoc]
      simp [hq g hg]
  · -- a new file: one more occurrence with count 1
    have hins := insert_sub_new f (spec_entry ops w).subLink
      (by
        intro x hx
        simp only [spec_entry] at hx
        obtain ⟨g, hg, rfl⟩ := List.mem_map.1 hx
        intro heq
        simp only at heq
        exact hf (heq ▸ hg))
    rw [hins]
    simp only [if_true]
    have hzero : ops.count (f, w) = 0 := by
      rw [List.count_eq_zero]
      exact fun hmem => hf ((mem_files_of ops f w).2 hmem)
    unfold spec_entry
    rw [files_of_snoc_same, if_neg hf]
    simp only [List.map_append, List.map_cons, List.map_nil, List.length_append,
      List.length_singleton, MainNode.mk.injEq, true_and]
    refine ⟨by push_cast; rfl, congrArg₂ _ ?_ ?_⟩
    · apply List.map_congr_left
      intro g hg
      rw [count_snoc]
      have hne : g ≠ f := fun heq => hf (heq ▸ hg)
      simp [hne]
    · rw [count_snoc, hzero]
      simp [create_subNode]

theorem words_of_snoc_same (ops : List (Str × Str)) (f w : Str) :
    words_of (ops ++ [(f, w)]) (get_word_index w).toNat
      = if w ∈ words_of ops (get_word_index w).toNat then words_of ops (get_word_index w).toNat
        else words_of ops (get_word_index w).toNat ++ [w] := by
  unfold words_of
  rw [List.map_append, List.filter_append]
  simp only [List.map_cons, List.map_nil, List.filter_cons, decide_True, if_true,
    List.filter_nil]
  rw [first_seen_snoc]
  simp only [mem_first_seen]
  split_ifs <;> rfl

theorem words_of_snoc_other (ops : List (Str × Str)) (f w : Str) (i : Nat)
    (h : (get_word_index w).toNat ≠ i) :
    words_of (ops ++ [(f, w)]) i = words_of ops i := by
  unfold words_of
  rw [List.map_append, List.filter_append]
  simp [h]

theorem mem_words_of (ops : List (Str × Str)) (w : Str) (i : Nat) :
    w ∈ words_of ops i ↔ (get_word_index w).toNat = i ∧ ∃ f, (f, w) ∈ ops := by
  unfold words_of
  rw [mem_first_seen]
  simp only [List.mem_filter, List.mem_map, decide_eq_true_eq]
  constructor
  · rintro ⟨⟨⟨g, v⟩, hmem, hv⟩, hi⟩
    simp only at hv
    subst hv
    exact ⟨hi, g, hmem⟩
  · rintro ⟨hi, g, hmem⟩
    exact ⟨⟨(g, w), hmem, rfl⟩, hi⟩

theorem spec_bucket_snoc_other (ops : List (Str × Str)) (f w : Str) (i : Nat)
    (h : (get_word_index w).toNat ≠ i) :
    spec_bucket (ops ++ [(f, w)]) i = spec_bucket ops i := by
  unfold spec_bucket
  rw [words_of_snoc_other ops f w i h]
  apply List.map_congr_left
  intro v hv
  have hvi := ((mem_words_of ops v i).1 hv).1
  apply spec_entry_snoc_other
  intro heq
  subst heq
  exact h hvi

theorem files_of_eq_nil (ops : List (Str × Str)) (w : Str) (h : ∀ f, (f, w) ∉ ops) :
    files_of ops w = [] := by
  apply List.eq_nil_iff_forall_not_mem.2
  intro f hf
  exact h f ((mem_files_of ops f w).1 hf)

theorem spec_bucket_snoc_same (ops : List (Str × Str)) (f w : Str) :
    spec_bucket (ops ++ [(f, w)]) (get_word_index w).toNat
      = insert_main f w (spec_bucket ops (get_word_index w).toNat) := by
  unfold spec_bucket
  rw [words_of_snoc_same]
  by_cases hw : w ∈ words_of ops (get_word_index w).toNat
  · rw [if_pos hw]
    obtain ⟨p, q, hpq, hp, hq⟩ :=
      split_of_nodup_key (fun g : Str => g) (words_of ops (get_word_index w).toNat) w
        (by simpa [words_of] using nodup_first_seen _) hw
    rw [hpq, List.map_append, List.map_cons, List.map_append, List.map_cons]
    rw [insert_main_found f w (p.map (spec_entry ops)) (q.map (spec_entry ops)) (spec_entry ops w)
      (by
        intro x hx
        obtain ⟨v, hv, rfl⟩ := List.mem_map.1 hx
        exact hp v hv) rfl]
    refine congrArg₂ _ ?_ (congrArg₂ _ ?_ ?_)
    · apply List.map_congr_left
      intro v hv
      exact spec_entry_snoc_other ops f w v (fun heq => hp v hv heq.symm)
    · rw [spec_entry_snoc_same]
      rfl
    · apply List.map_congr_left
      intro v hv
      exact spec_entry_snoc_other ops f w v (fun heq => hq v hv heq.symm)
  · rw [if_neg hw, List.map_append, List.map_cons, List.map_nil]
    have hnone : ∀ g, (g, w) ∉ ops := by
      intro g hg
      exact hw ((mem_words_of ops w _).2 ⟨rfl, g, hg⟩)
    rw [insert_main_new f w _ (by
        intro x hx
        obtain ⟨v, hv, rfl⟩ := List.mem_map.1 hx
        intro heq
        simp only [spec_entry] at heq
        exact hw (heq ▸ hv))]
    refine congrArg₂ _ ?_ ?_
    · apply List.map_congr_left
      intro v hv
      exact spec_entry_snoc_other ops f w v (fun heq => hw (heq ▸ hv))
    · rw [spec_entry_snoc_same]
      have hnil : (spec_entry ops w).subLink = [] := by
        simp [spec_entry, files_of_eq_nil ops w hnone]
      have hfc : (spec_entry ops w).fileCount = 0 := by
        simp [spec_entry, files_of_eq_nil ops w hnone]
      rw [hnil, hfc]
      simp [insert_sub]

theorem spec_table_length (ops : List (Str × Str)) : (spec_table ops).length = MAX_HASH_SIZE := by
  simp [spec_table]

theorem spec_table_link (ops : List (Str × Str)) (i : Nat) (h : i < MAX_HASH_SIZE) :
    (spec_table ops).link i = spec_bucket ops i := by
  simp [spec_table, HashTable.link, List.getD_eq_getElem?_getD, List.getElem?_map,
    List.getElem?_range h]

theorem table_ext (t u : HashTable) (ht : t.length = MAX_HASH_SIZE) (hu : u.length = MAX_HASH_SIZE)
    (h : ∀ i, i < MAX_HASH_SIZE → t.link i = u.link i) : t = u := by
  apply List.ext_getElem (by rw [ht, hu])
  intro i h1 h2
  have := h i (by rw [← ht]; exact h1)
  simpa [HashTable.link, List.getD_eq_getElem?_getD, List.getElem?_eq_getElem h1,
    List.getElem?_eq_getElem h2] using this

theorem spec_table_snoc (ops : List (Str × Str)) (f w : Str) :
    spec_table (ops ++ [(f, w)]) = (hashTable_insert_last (spec_table ops) f (get_word_index w) w).2 := by
  rw [hashTable_insert_last_in_range]
  apply table_ext _ _ (spec_table_length _) (by simp [spec_table_length])
  intro i hi
  rw [spec_table_link _ i hi]
  by_cases h : (get_word_index w).toNat = i
  · subst h
    rw [link_set_self _ _ _ (by rw [spec_table_length]; exact hi), spec_table_link _ _ hi]
    exact spec_bucket_snoc_same ops f w
  · rw [link_set_ne _ _ _ _ h, spec_table_link _ i hi]
    exact spec_bucket_snoc_other ops f w i h

/-- The index built by a sequence of insertions into the empty index is the index described
from that sequence. -/
theorem insert_all_eq_spec (ops : List (Str × Str)) :
    insert_all ops (initialize_hashTable MAX_HASH_SIZE) = spec_table ops := by
  induction ops using List.reverseRecOn with
  | nil => decide
  | append_singleton ops op ih =>
    obtain ⟨f, w⟩ := op
    unfold insert_all at ih ⊢
    rw [List.foldl_append, ih]
    simp only [List.foldl_cons, List.foldl_nil]
    exact (spec_table_snoc ops f w).symm

/-! ## Search -/

theorem walk_subs_length (subs : List SubNode) : walk_subs subs.length subs = .ok subs := by
  induction subs with
  | nil => rfl
  | cons x subs ih => simp [walk_subs, ih]

theorem search_bucket_absent (w : Str) (b : List MainNode) (h : ∀ m ∈ b, m.word ≠ w) :
    search_bucket w b = .ok [] := by
  induction b with
  | nil => rfl
  | cons x b ih =>
    have hx : x.word ≠ w := h x (by simp)
    simp [search_bucket, hx, ih (fun y hy => h y (by simp [hy]))]

theorem search_bucket_skip (w : Str) (pre rest : List MainNode) (h : ∀ m ∈ pre, m.word ≠ w) :
    search_bucket w (pre ++ rest) = search_bucket w rest := by
  induction pre with
  | nil => rfl
  | cons x pre ih =>
    have hx : x.word ≠ w := h x (by simp)
    simp [search_bucket, hx, ih (fun y hy => h y (by simp [hy]))]

theorem mem_ops_words (ops : List (Str × Str)) (w : Str) :
    w ∈ ops.map Prod.snd ↔ ∃ f, (f, w) ∈ ops := by
  simp only [List.mem_map]
  constructor
  · rintro ⟨⟨g, v⟩, hmem, hv⟩
    simp only at hv
    subst hv
    exact ⟨g, hmem⟩
  · rintro ⟨g, hmem⟩
    exact ⟨(g, w), hmem, rfl⟩

theorem search_word_spec_table (ops : List (Str × Str)) (w : Str) :
    search_word (spec_table ops) w
      = .ok (if w ∈ ops.map Prod.snd then
          [(w, (spec_entry ops w).fileCount,
            (spec_entry ops w).subLink.map (fun s => (s.filename, s.wordCount)))]
        else []) := by
  unfold search_word
  rw [spec_table_link _ _ (get_word_index_toNat_lt w)]
  by_cases hw : w ∈ ops.map Prod.snd
  · rw [if_pos hw]
    have hw2 : w ∈ words_of ops (get_word_index w).toNat :=
      (mem_words_of ops w _).2 ⟨rfl, (mem_ops_words ops w).1 hw⟩
    obtain ⟨p, q, hpq, hp, hq⟩ :=
      split_of_nodup_key (fun g : Str => g) (words_of ops (get_word_index w).toNat) w
        (by simpa [words_of] using nodup_first_seen _) hw2
    unfold spec_bucket
    rw [hpq, List.map_append, List.map_cons]
    rw [search_bucket_skip w _ _ (by
      intro x hx
      obtain ⟨v, hv, rfl⟩ := List.mem_map.1 hx
      exact hp v hv)]
    have hwalk : walk_subs (spec_entry ops w).fileCount.toNat (spec_entry ops w).subLink
        = .ok (spec_entry ops w).subLink := by
      have hlen : (spec_entry ops w).fileCount.toNat = (spec_entry ops w).subLink.length := by
        simp [spec_entry]
      rw [hlen]
      exact walk_subs_length _
    have hrest : search_bucket w (q.map (spec_entry ops)) = .ok [] := by
      apply search_bucket_absent
      intro x hx
      obtain ⟨v, hv, rfl⟩ := List.mem_map.1 hx
      exact hq v hv
    have hword : (spec_entry ops w).word = w := rfl
    simp only [search_bucket, hword, if_true, hwalk, hrest]
  · rw [if_neg hw]
    apply search_bucket_absent
    intro x hx
    unfold spec_bucket at hx
    obtain ⟨v, hv, rfl⟩ := List.mem_map.1 hx
    intro heq
    simp only [spec_entry] at heq
    subst heq
    exact hw ((mem_ops_words ops v).2 ((mem_words_of ops v _).1 hv).2)

/-- C10: on the index built from the empty index by the insertions `ops` (pairs of file and
word, each inserted into bucket `get_word_index word`), `search_word w` returns normally;
it reports something exactly when some insertion was for a word equal to `w`; in that case
it prints one report, for the entry stored for `w`, listing that entry's occurrences in
stored order, which is the order in which the files were first seen with `w`, each with the
number of insertions of `w` from that file; for a word never inserted it reports nothing. -/
theorem search_word_sound_complete (ops : List (Str × Str)) (w : Str) :
    ∃ reports, search_word (insert_all ops (initialize_hashTable MAX_HASH_SIZE)) w = .ok reports ∧
      (reports ≠ [] ↔ ∃ op ∈ ops, op.2 = w) ∧
      ((∀ op ∈ ops, op.2 ≠ w) → reports = []) ∧
      ((∃ op ∈ ops, op.2 = w) →
        ∃ m ∈ (insert_all ops (initialize_hashTable MAX_HASH_SIZE)).link (get_word_index w).toNat,
          m.word = w ∧
          reports = [(w, m.fileCount, m.subLink.map (fun s => (s.filename, s.wordCount)))] ∧
          m.subLink.map (fun s => (s.filename, s.wordCount))
            = (files_of ops w).map (fun f => (f, ((ops.count (f, w) : Nat) : Int)))) := by
  rw [insert_all_eq_spec]
  have hiff : (∃ op ∈ ops, op.2 = w) ↔ w ∈ ops.map Prod.snd := by
    simp [List.mem_map]
  refine ⟨_, search_word_spec_table ops w, ?_, ?_, ?_⟩
  · rw [hiff]
    by_cases hw : w ∈ ops.map Prod.snd <;> simp [hw]
  · intro h
    have hw : w ∉ ops.map Prod.snd := by
      rw [← hiff]
      rintro ⟨op, hop, heq⟩
      exact h op hop heq
    rw [if_neg hw]
  · intro h
    have hw : w ∈ ops.map Prod.snd := hiff.1 h
    rw [if_pos hw]
    refine ⟨spec_entry ops w, ?_, rfl, rfl, ?_⟩
    · rw [spec_table_link _ _ (get_word_index_toNat_lt w)]
      unfold spec_bucket
      exact List.mem_map_of_mem _ ((mem_words_of ops w _).2 ⟨rfl, (mem_ops_words ops w).1 hw⟩)
    · simp [spec_entry]

theorem search_word_sound_complete_witness :
    ∃ reports,
      search_word (insert_all [(str "a.txt", str "x"), (str "b.txt", str "x"), (str "a.txt", str "x")]
        (initialize_hashTable MAX_HASH_SIZE)) (str "x") = .ok reports ∧
      reports = [(str "x", 2, [(str "a.txt", 2), (str "b.txt", 1)])] := by
  obtain ⟨reports, hr, _, _, hfound⟩ := search_word_sound_complete
    [(str "a.txt", str "x"), (str "b.txt", str "x"), (str "a.txt", str "x")] (str "x")
  obtain ⟨m, _, _, hrep, _⟩ := hfound ⟨(str "a.txt", str "x"), by decide, by decide⟩
  refine ⟨reports, hr, ?_⟩
  have hdec : search_word (insert_all [(str "a.txt", str "x"), (str "b.txt", str "x"), (str "a.txt", str "x")]
        (initialize_hashTable MAX_HASH_SIZE)) (str "x")
      = .ok [(str "x", 2, [(str "a.txt", 2), (str "b.txt", 1)])] := by decide
  rw [hdec] at hr
  exact (Except.ok.inj hr).symm

/-! ## The word scanner and white-space separated tokens -/

theorem splitOnP_eq_takeWhile (p : Nat → Bool) (s : List Nat) :
    s.splitOnP p = s.takeWhile (fun c => !p c) ::
      (match s.dropWhile (fun c => !p c) with
        | [] => []
        | _ :: r => r.splitOnP p) := by
  induction s with
  | nil => simp
  | cons c s ih =>
    rw [List.splitOnP_cons]
    by_cases hc : p c = true
    · simp [hc]
    · have hc2 : p c = false := by simpa using hc
      rw [if_neg hc, ih]
      simp [List.modifyHead, hc2]

theorem tokens_nil : tokens [] = [] := by
  simp [tokens]

theorem tokens_space (c : Nat) (s : List Nat) (h : isspace c = true) : tokens (c :: s) = tokens s := by
  unfold tokens
  rw [List.splitOnP_cons, if_pos h]
  simp

theorem tokens_dropWhile_space (s : List Nat) : tokens (s.dropWhile isspace) = tokens s := by
  induction s with
  | nil => rfl
  | cons c s ih =>
    by_cases hc : isspace c = true
    · rw [List.dropWhile_cons_of_pos hc, ih, tokens_space c s hc]
    · rw [List.dropWhile_cons_of_neg hc]

theorem dropWhile_head_not (p : Nat → Bool) (s : List Nat) (c : Nat) (r : List Nat)
    (h : s.dropWhile p = c :: r) : p c = false := by
  induction s with
  | nil => simp at h
  | cons d s ih =>
    by_cases hd : p d = true
    · rw [List.dropWhile_cons_of_pos hd] at h
      exact ih h
    · rw [List.dropWhile_cons_of_neg hd] at h
      simp only [List.cons.injEq] at h
      rw [← h.1]
      simpa using hd

theorem tokens_nonspace (c : Nat) (s : List Nat) (h : isspace c = false) :
    tokens (c :: s) = (c :: s).takeWhile (fun d => !isspace d)
      :: tokens ((c :: s).dropWhile (fun d => !isspace d)) := by
  have hne : (c :: s).takeWhile (fun d => !isspace d) ≠ [] := by
    simp [List.takeWhile, h]
  have key : tokens (c :: s) = (c :: s).takeWhile (fun d => !isspace d) ::
      (match (c :: s).dropWhile (fun d => !isspace d) with
        | [] => []
        | _ :: r => tokens r) := by
    unfold tokens
    rw [splitOnP_eq_takeWhile isspace (c :: s)]
    rw [List.filter_cons_of_pos (by simpa using hne)]
    congr 1
    split <;> simp
  rw [key]
  congr 1
  cases hd : (c :: s).dropWhile (fun d => !isspace d) with
  | nil => simp [tokens_nil]
  | cons d r =>
    have hsp := dropWhile_head_not _ _ _ _ hd
    simp only [Bool.not_eq_false_eq_eq_true, Bool.not_eq_eq_eq_not, Bool.not_false] at hsp
    rw [tokens_space d r (by simpa using hsp)]

theorem drop_length_takeWhile_eq (p : Nat → Bool) (s : List Nat) :
    s.drop (s.takeWhile p).length = s.dropWhile p := by
  induction s with
  | nil => rfl
  | cons c s ih =>
    by_cases hc : p c = true
    · simp [List.takeWhile_cons, List.dropWhile_cons, hc, ih]
    · simp [List.takeWhile_cons, List.dropWhile_cons, hc]

theorem scan_word_rest_shorter (s : List Nat) (w : Str) (rest : List Nat)
    (h : scan_word s = some (w, rest)) : rest.length < s.length := by
  unfold scan_word at h
  simp only at h
  split_ifs at h with hw
  simp only [Option.some.injEq, Prod.mk.injEq] at h
  obtain ⟨h1, h2⟩ := h
  rw [← h2, List.length_drop]
  have hlen : 0 < w.length := by
    rw [← h1]
    exact List.length_pos.2 hw
  have hle : (s.dropWhile isspace).length ≤ s.length := (List.dropWhile_sublist _).length_le
  have hwle : w.length ≤ (s.dropWhile isspace).length := by
    rw [← h1]
    exact le_trans (by rw [List.length_take]; exact Nat.min_le_right _ _)
      (List.takeWhile_sublist _).length_le
  rw [h1]
  omega

/-- The word loop is not cut short: any two amounts of fuel above the length of the input
give the same words. -/
theorem scan_words_fuel (fuel1 fuel2 : Nat) (s : List Nat)
    (h1 : s.length < fuel1) (h2 : s.length < fuel2) :
    scan_words fuel1 s = scan_words fuel2 s := by
  induction fuel1 generalizing fuel2 s with
  | zero => omega
  | succ n ih =>
    cases fuel2 with
    | zero => omega
    | succ k =>
      simp only [scan_words]
      cases hsw : scan_word s with
      | none => rfl
      | some wr =>
        obtain ⟨w, rest⟩ := wr
        have hlt := scan_word_rest_shorter s w rest hsw
        simp only
        rw [ih k rest (by omega) (by omega)]

/-- When no token is longer than 19 bytes the word loop reads exactly the tokens. -/
theorem scan_words_eq_tokens (fuel : Nat) (s : List Nat) (hfuel : s.length < fuel)
    (hshort : ∀ t ∈ tokens s, t.length ≤ 19) : scan_words fuel s = tokens s := by
  induction fuel generalizing s with
  | zero => omega
  | succ n ih =>
    simp only [scan_words]
    rw [← tokens_dropWhile_space s] at hshort ⊢
    have hle : (s.dropWhile isspace).length ≤ s.length := (List.dropWhile_sublist _).length_le
    cases hs1 : s.dropWhile isspace with
    | nil =>
      simp [scan_word, hs1, tokens_nil]
    | cons c r =>
      have hc : isspace c = false := dropWhile_head_not _ _ _ _ hs1
      rw [hs1] at hshort hle
      rw [tokens_nonspace c r hc] at hshort ⊢
      have htw : ((c :: r).takeWhile (fun d => !isspace d)).length ≤ 19 :=
        hshort _ (by simp)
      have htake : ((c :: r).takeWhile (fun d => !isspace d)).take (MAX_WORD_LENGTH - 1)
          = (c :: r).takeWhile (fun d => !isspace d) :=
        List.take_of_length_le (by unfold MAX_WORD_LENGTH; omega)
      have hne : (c :: r).takeWhile (fun d => !isspace d) ≠ [] := by
        simp [List.takeWhile, hc]
      have hsw : scan_word s = some ((c :: r).takeWhile (fun d => !isspace d),
          (c :: r).dropWhile (fun d => !isspace d)) := by
        unfold scan_word
        simp only [hs1, htake, hne, if_false, drop_length_takeWhile_eq]
      rw [hsw]
      simp only
      have hle2 : ((c :: r).dropWhile (fun d => !isspace d)).length < (c :: r).length := by
        have h1 : ((c :: r).dropWhile (fun d => !isspace d)) = r.dropWhile (fun d => !isspace d) := by
          simp [List.dropWhile_cons, hc]
        rw [h1]
        have := (List.dropWhile_sublist (fun d => !isspace d) (l := r)).length_le
        simp only [List.length_cons]
        omega
      rw [ih _ (by omega) (fun t ht => hshort t (by simp [ht]))]

/-! ## The indexer as a sequence of insertions -/

theorem index_word_eq (f : Str) (ht : HashTable) (w : Str) :
    index_word f ht w = (hashTable_insert_last ht f (get_word_index w) w).2 := by
  have h1 := get_word_index_nonneg w
  have h2 := get_word_index_le w
  have h3 : ¬ (get_word_index w < 0 ∨ get_word_index w ≥ (MAX_HASH_SIZE : Int)) := by
    unfold MAX_HASH_SIZE
    push_cast
    omega
  simp only [index_word, h3, if_false]

theorem insert_all_append (a b : List (Str × Str)) (ht : HashTable) :
    insert_all (a ++ b) ht = insert_all b (insert_all a ht) := by
  simp [insert_all, List.foldl_append]

theorem foldl_index_word (f : Str) (ws : List Str) (ht : HashTable) :
    ws.foldl (index_word f) ht = insert_all (ws.map (fun w => (f, w))) ht := by
  induction ws generalizing ht with
  | nil => rfl
  | cons w ws ih =>
    simp only [List.foldl_cons, List.map_cons, ih, index_word_eq]
    rfl

theorem foldl_index_file (fs : FS) (fl : FileList) (ht : HashTable) :
    fl.foldl (index_file fs) ht = insert_all (doc_ops fs fl) ht := by
  induction fl generalizing ht with
  | nil => rfl
  | cons f fl ih =>
    simp only [List.foldl_cons, doc_ops, List.flatMap_cons, insert_all_append]
    rw [ih]
    congr 1
    unfold index_file
    cases fs f with
    | none => rfl
    | some c => exact foldl_index_word f _ ht

theorem create_database_eq (fs : FS) (fl : FileList) (ht : HashTable) :
    (create_database fs fl ht).2 = insert_all (doc_ops fs fl) ht := by
  cases fl with
  | nil => rfl
  | cons f fl => exact foldl_index_file fs (f :: fl) ht

theorem holds_spec_table (ops : List (Str × Str)) (w f : Str) (n : Int) :
    holds (spec_table ops) w f n ↔ 1 ≤ n ∧ n = ((ops.count (f, w) : Nat) : Int) := by
  constructor
  · rintro ⟨b, hb, m, hm, hw, hs⟩
    simp only [spec_table, List.mem_map, List.mem_range] at hb
    obtain ⟨i, _, rfl⟩ := hb
    simp only [spec_bucket, List.mem_map] at hm
    obtain ⟨v, _, rfl⟩ := hm
    simp only [spec_entry] at hw
    subst hw
    simp only [spec_entry, List.mem_map, SubNode.mk.injEq] at hs
    obtain ⟨g, hg, rfl, rfl⟩ := hs
    have hmem := (mem_files_of ops g v).1 hg
    have hpos : 0 < ops.count (g, v) := List.count_pos_iff.2 hmem
    exact ⟨by exact_mod_cast hpos, rfl⟩
  · rintro ⟨hpos, hn⟩
    have hpos2 : 0 < ops.count (f, w) := by
      rw [hn] at hpos
      exact_mod_cast hpos
    have hmem : (f, w) ∈ ops := List.count_pos_iff.1 hpos2
    refine ⟨spec_bucket ops (get_word_index w).toNat, ?_, spec_entry ops w, ?_, rfl, ?_⟩
    · simp only [spec_table, List.mem_map, List.mem_range]
      exact ⟨_, get_word_index_toNat_lt w, rfl⟩
    · simp only [spec_bucket]
      exact List.mem_map_of_mem _ ((mem_words_of ops w _).2 ⟨rfl, f, hmem⟩)
    · simp only [spec_entry, List.mem_map, SubNode.mk.injEq]
      exact ⟨f, (mem_files_of ops f w).2 hmem, rfl, hn.symm⟩

theorem doc_ops_file_mem (fs : FS) (fl : FileList) (f w : Str) (h : (f, w) ∈ doc_ops fs fl) :
    f ∈ fl := by
  simp only [doc_ops, List.mem_flatMap] at h
  obtain ⟨g, hg, hmem⟩ := h
  cases hfs : fs g with
  | none => simp [hfs] at hmem
  | some c =>
    simp only [hfs, List.mem_map, Prod.mk.injEq] at hmem
    obtain ⟨_, _, rfl, _⟩ := hmem
    exact hg

theorem count_pair_map (f g w : Str) (ws : List Str) :
    (ws.map (fun v => (g, v))).count (f, w) = if g = f then ws.count w else 0 := by
  induction ws with
  | nil => simp
  | cons v ws ih =>
    rw [List.map_cons, List.count_cons, ih, List.count_cons]
    by_cases hg : g = f
    · subst hg
      by_cases hv : v = w <;> simp [hv]
    · simp [hg]

theorem count_doc_ops (fs : FS) (fl : FileList) (f w : Str) (c : List Nat)
    (hnd : fl.Nodup) (hf : f ∈ fl) (hc : fs f = some c) :
    (doc_ops fs fl).count (f, w) = (scan_words (c.length + 1) c).count w := by
  induction fl with
  | nil => simp at hf
  | cons g fl ih =>
    rw [List.nodup_cons] at hnd
    have hcons : doc_ops fs (g :: fl)
        = (match fs g with
            | none => []
            | some content => (scan_words (content.length + 1) content).map (fun v => (g, v)))
          ++ doc_ops fs fl := by
      simp [doc_ops, List.flatMap_cons]
    rw [hcons, List.count_append]
    by_cases hg : g = f
    · subst hg
      have hzero : (doc_ops fs fl).count (g, w) = 0 := by
        rw [List.count_eq_zero]
        exact fun hmem => hnd.1 (doc_ops_file_mem fs fl g w hmem)
      rw [hzero, hc]
      simp [count_pair_map]
    · have hf2 : f ∈ fl := by
        rcases List.mem_cons.1 hf with h | h
        · exact absurd h.symm hg
        · exact h
      rw [ih hnd.2 hf2]
      cases hfs : fs g with
      | none => simp
      | some d => simp [count_pair_map, hg]

/-- C1: for a duplicate-free file list whose files are all readable and hold no
white-space separated token longer than 19 bytes, after `create_database` on the empty
index the index holds an occurrence `(f, n)` under an entry for word `w`, for a file `f` of
the list, exactly when `n ≥ 1` and `n` is the number of tokens of `f` equal to `w`. -/
theorem create_database_counts (fs : FS) (fl : FileList) (hnd : fl.Nodup)
    (hread : ∀ f ∈ fl, ∃ c, fs f = some c ∧ ∀ t ∈ tokens c, t.length ≤ 19)
    (w f : Str) (c : List Nat) (n : Int) (hf : f ∈ fl) (hc : fs f = some c) :
    holds (create_database fs fl (initialize_hashTable MAX_HASH_SIZE)).2 w f n
      ↔ 1 ≤ n ∧ n = (((tokens c).count w : Nat) : Int) := by
  rw [create_database_eq, insert_all_eq_spec, holds_spec_table, count_doc_ops fs fl f w c hnd hf hc]
  obtain ⟨c2, hc2, hshort⟩ := hread f hf
  rw [hc] at hc2
  have hcc : c = c2 := Option.some.inj hc2
  subst hcc
  rw [scan_words_eq_tokens _ c (by omega) hshort]

theorem create_database_counts_witness :
    holds (create_database example_docs [str "doc1.txt", str "doc2.txt"]
      (initialize_hashTable MAX_HASH_SIZE)).2 (str "World") (str "doc2.txt") 1
      ↔ (1 : Int) ≤ 1 ∧ (1 : Int) = (((tokens (str "World")).count (str "World") : Nat) : Int) := by
  exact create_database_counts example_docs [str "doc1.txt", str "doc2.txt"] (by decide)
    (by
      intro f hf
      simp only [List.mem_cons, List.mem_singleton, List.not_mem_nil, or_false] at hf
      rcases hf with rfl | rfl
      · exact ⟨str "Hello hello World", by decide, by decide⟩
      · exact ⟨str "World", by decide, by decide⟩)
    (str "World") (str "doc2.txt") (str "World") 1 (by decide) (by decide)

/-! ## The loader: the checks made before parsing -/

theorem valid_database_failure (content : List Nat)
    (hbad : content.head? ≠ some 35 ∨ content.reverse.get? 1 ≠ some 35) :
    valid_database content = FAILURE := by
  unfold valid_database
  by_cases h1 : content.head? ≠ some 35
  · rw [if_pos h1]
  · rw [if_neg h1]
    by_cases h2 : content.length < 2
    · rw [if_pos h2]
    · rw [if_neg h2]
      have h3 : content.reverse.get? 1 ≠ some 35 := by
        rcases hbad with h | h
        · exact absurd h h1
        · exact h
      have h4 : content.get? (content.length - 2) ≠ some 35 := by
        rw [List.get?_eq_getElem?] at h3 ⊢
        rw [List.getElem?_reverse (by omega)] at h3
        have h5 : content.length - 1 - 1 = content.length - 2 := by omega
        rw [h5] at h3
        exact h3
      rw [if_pos h4]

/-- C9: when the snapshot file is empty, or its first byte is not `#`, or the byte two
positions before its end is not `#` (or does not exist), `update_database` returns with the
index and the file list exactly as they were, whatever records the file holds. -/
theorem update_database_rejects (fs : FS) (fl : FileList) (ht : HashTable) (backup : Str)
    (content : List Nat) (hfile : fs backup = some content)
    (hbad : content = [] ∨ content.head? ≠ some 35 ∨ content.reverse.get? 1 ≠ some 35) :
    update_database fs fl ht backup = .ok (fl, ht) := by
  unfold update_database
  by_cases hname : valid_file_name backup = FAILURE
  · rw [if_pos hname]
  · rw [if_neg hname, hfile]
    simp only
    by_cases hlen : content.length = 0
    · rw [if_pos hlen]
    · rw [if_neg hlen]
      have hne : content ≠ [] := fun h => hlen (by rw [h]; rfl)
      have hv : valid_database content = FAILURE := by
        apply valid_database_failure
        rcases hbad with h | h | h
        · exact absurd h hne
        · exact Or.inl h
        · exact Or.inr h
      rw [if_pos hv]

theorem update_database_rejects_witness :
    update_database (fun _ => some (str "0;x;1;a.txt;1;#\n")) [str "a.txt"]
      (initialize_hashTable MAX_HASH_SIZE) (str "db.txt")
      = .ok ([str "a.txt"], initialize_hashTable MAX_HASH_SIZE) := by
  exact update_database_rejects (fun _ => some (str "0;x;1;a.txt;1;#\n")) [str "a.txt"]
    (initialize_hashTable MAX_HASH_SIZE) (str "db.txt") (str "0;x;1;a.txt;1;#\n") rfl
    (Or.inr (Or.inl (by decide)))

/-! ## The loader loop is parse, then link and unlink -/

theorem remove_files_append (fl : FileList) (a b : List Str) :
    remove_files fl (a ++ b) = remove_files (remove_files fl a) b := by
  simp [remove_files, List.foldl_append]

theorem load_pairs_eq (n : Nat) (s : List Nat) (fl : FileList) (fn : Option Str)
    (wc : Option Int) (acc : List SubNode) :
    load_pairs n s fl fn wc acc =
      match parse_pairs n s fn wc with
      | .error e => .error e
      | .ok (s2, subs) => .ok (s2, remove_files fl (subs.map SubNode.filename), acc ++ subs) := by
  induction n generalizing s fl fn wc acc with
  | zero => simp [load_pairs, parse_pairs, remove_files]
  | succ n ih =>
    simp only [load_pairs, parse_pairs]
    rcases hsp : scan_pair s fn wc with e | ⟨_ | f, _ | c, s1⟩
    · rfl
    · rfl
    · rfl
    · rfl
    · simp only
      rw [ih]
      cases hpp : parse_pairs n s1 (some f) (some c) with
      | error e => rfl
      | ok r =>
        obtain ⟨s2, subs⟩ := r
        simp [remove_files, create_subNode]

theorem load_records_eq (fuel : Nat) (s : List Nat) (fl : FileList) (ht : HashTable) :
    load_records fuel s fl ht =
      match parse_records fuel s with
      | .error e => .error e
      | .ok recs => .ok (remove_files fl (record_files recs), append_records ht recs) := by
  induction fuel generalizing s fl ht with
  | zero => rfl
  | succ n ih =>
    simp only [load_records, parse_records]
    rcases hsr : scan_record s with e | _ | ⟨index, word, fileCount, s1⟩
    · rfl
    · rfl
    · simp only
      by_cases hidx : index < 0 ∨ index ≥ (MAX_HASH_SIZE : Int)
      · rw [if_pos hidx, if_pos hidx]
      · rw [if_neg hidx, if_neg hidx, load_pairs_eq]
        cases hpp : parse_pairs fileCount.toNat s1 none none with
        | error e => rfl
        | ok r2 =>
          obtain ⟨s2, subs⟩ := r2
          simp only
          by_cases hfc : fileCount ≤ 0
          · rw [if_pos hfc, if_pos hfc]
          · rw [if_neg hfc, if_neg hfc, ih]
            cases hpr : parse_records n (scan_end s2) with
            | error e => rfl
            | ok recs =>
              simp [record_files, append_records, remove_files_append, List.flatMap_cons]

/-! ## Unlinking names from a duplicate-free file list -/

theorem delete_duplicate_nodup (fl : FileList) (f : Str) (hnd : fl.Nodup) :
    (delete_duplicate fl f).2 = fl.filter (fun g => g ≠ f) := by
  induction fl with
  | nil => rfl
  | cons g fl ih =>
    rw [List.nodup_cons] at hnd
    by_cases hg : g = f
    · subst hg
      simp only [delete_duplicate, if_true, ne_eq, decide_not]
      rw [List.filter_cons_of_neg (by simp)]
      symm
      rw [List.filter_eq_self]
      intro x hx
      have : x ≠ g := fun h => hnd.1 (h ▸ hx)
      simpa using this
    · simp only [delete_duplicate, hg, if_false, ne_eq, decide_not]
      rw [List.filter_cons_of_pos (by simpa using hg)]
      congr 1
      simpa using ih hnd.2

theorem remove_files_nodup (fl : FileList) (names : List Str) (hnd : fl.Nodup) :
    remove_files fl names = fl.filter (fun g => g ∉ names) := by
  induction names generalizing fl with
  | nil => simp [remove_files]
  | cons a names ih =>
    have hstep : remove_files fl (a :: names) = remove_files (delete_duplicate fl a).2 names := rfl
    rw [hstep, delete_duplicate_nodup fl a hnd, ih _ (hnd.filter _), List.filter_filter]
    apply List.filter_congr
    intro x _
    by_cases hxa : x = a <;> simp [hxa]

theorem remove_files_nil (names : List Str) : remove_files [] names = [] := by
  induction names with
  | nil => rfl
  | cons a names ih => exact ih

/-! ## The file names of a table -/

theorem mem_table_files (t : HashTable) (f : Str) :
    f ∈ table_files t ↔ ∃ j, ∃ m ∈ t.link j, f ∈ m.subLink.map SubNode.filename := by
  simp only [table_files, List.mem_flatMap]
  constructor
  · rintro ⟨b, hb, m, hm, hf⟩
    obtain ⟨j, hj⟩ := List.mem_iff_getElem?.1 hb
    refine ⟨j, m, ?_, hf⟩
    simp only [HashTable.link, List.getD_eq_getElem?_getD, hj, Option.getD_some]
    exact hm
  · rintro ⟨j, m, hm, hf⟩
    have hlt := lt_length_of_mem_link t j m hm
    refine ⟨t.link j, ?_, m, hm, hf⟩
    simp only [HashTable.link, List.getD_eq_getElem?_getD, List.getElem?_eq_getElem hlt,
      Option.getD_some]
    exact List.getElem_mem hlt

theorem append_records_length (t : HashTable) (recs : List (Nat × MainNode)) :
    (append_records t recs).length = t.length := by
  induction recs generalizing t with
  | nil => rfl
  | cons r recs ih =>
    have hstep : append_records t (r :: recs)
        = append_records (t.set r.1 (t.link r.1 ++ [r.2])) recs := rfl
    rw [hstep, ih, List.length_set]

theorem append_records_link (t : HashTable) (recs : List (Nat × MainNode)) (j : Nat)
    (hrange : ∀ r ∈ recs, r.1 < t.length) :
    (append_records t recs).link j
      = t.link j ++ (recs.filter (fun r => r.1 = j)).map Prod.snd := by
  induction recs generalizing t with
  | nil => simp [append_records]
  | cons r recs ih =>
    have hstep : append_records t (r :: recs)
        = append_records (t.set r.1 (t.link r.1 ++ [r.2])) recs := rfl
    have hr : r.1 < t.length := hrange r (by simp)
    rw [hstep, ih _ (by
      intro x hx
      rw [List.length_set]
      exact hrange x (by simp [hx]))]
    by_cases hj : r.1 = j
    · subst hj
      rw [link_set_self _ _ _ hr]
      simp
    · rw [link_set_ne _ _ _ _ hj]
      simp [hj]

theorem mem_table_files_append_records (t : HashTable) (recs : List (Nat × MainNode)) (f : Str)
    (hrange : ∀ r ∈ recs, r.1 < t.length) :
    f ∈ table_files (append_records t recs) ↔ f ∈ table_files t ∨ f ∈ record_files recs := by
  rw [mem_table_files, mem_table_files]
  simp only [record_files, List.mem_flatMap]
  constructor
  · rintro ⟨j, m, hm, hf⟩
    rw [append_records_link t recs j hrange, List.mem_append] at hm
    rcases hm with hm | hm
    · exact Or.inl ⟨j, m, hm, hf⟩
    · obtain ⟨r, hr, rfl⟩ := List.mem_map.1 hm
      exact Or.inr ⟨r, (List.mem_filter.1 hr).1, hf⟩
  · rintro (⟨j, m, hm, hf⟩ | ⟨r, hr, hf⟩)
    · refine ⟨j, m, ?_, hf⟩
      rw [append_records_link t recs j hrange]
      exact List.mem_append_left _ hm
    · refine ⟨r.1, r.2, ?_, hf⟩
      rw [append_records_link t recs r.1 hrange]
      apply List.mem_append_right
      exact List.mem_map_of_mem _ (List.mem_filter.2 ⟨hr, by simp⟩)

theorem parse_records_range (fuel : Nat) (s : List Nat) (recs : List (Nat × MainNode))
    (h : parse_records fuel s = .ok recs) : ∀ r ∈ recs, r.1 < MAX_HASH_SIZE := by
  induction fuel generalizing s recs with
  | zero => simp [parse_records] at h
  | succ n ih =>
    simp only [parse_records] at h
    rcases hsr : scan_record s with e | _ | ⟨index, word, fileCount, s1⟩
    · rw [hsr] at h
      cases h
    · rw [hsr] at h
      simp only [Except.ok.injEq] at h
      subst h
      simp
    · rw [hsr] at h
      simp only at h
      by_cases hidx : index < 0 ∨ index ≥ (MAX_HASH_SIZE : Int)
      · rw [if_pos hidx] at h
        cases h
      · rw [if_neg hidx] at h
        cases hpp : parse_pairs fileCount.toNat s1 none none with
        | error e =>
          rw [hpp] at h
          cases h
        | ok r2 =>
          obtain ⟨s2, subs⟩ := r2
          rw [hpp] at h
          simp only at h
          by_cases hfc : fileCount ≤ 0
          · rw [if_pos hfc] at h
            cases h
          · rw [if_neg hfc] at h
            cases hpr : parse_records n (scan_end s2) with
            | error e =>
              rw [hpr] at h
              cases h
            | ok recs2 =>
              rw [hpr] at h
              simp only [Except.ok.injEq] at h
              subst h
              intro x hx
              rcases List.mem_cons.1 hx with rfl | hx
              · simp only
                unfold MAX_HASH_SIZE at hidx ⊢
                push_cast at hidx
                omega
              · exact ih _ _ hpr x hx

theorem table_files_empty_table (n : Nat) : table_files (initialize_hashTable n) = [] := by
  simp [table_files, initialize_hashTable]

/-! ## The three outcomes of `update_database` -/

/-- What `update_database` does is fixed by the snapshot file alone: it rejects the file,
or it faults, or it links the records read, unlinks their files from the file list and
indexes what is left. -/
theorem update_database_shape (fs : FS) (backup : Str) :
    (∀ fl ht, update_database fs fl ht backup = .ok (fl, ht)) ∨
    (∃ e, ∀ fl ht, update_database fs fl ht backup = .error e) ∨
    (∃ recs : List (Nat × MainNode), (∀ r ∈ recs, r.1 < MAX_HASH_SIZE) ∧
      ∀ fl ht, update_database fs fl ht backup
        = .ok (remove_files fl (record_files recs),
            (create_database fs (remove_files fl (record_files recs))
              (append_records ht recs)).2)) := by
  by_cases hname : valid_file_name backup = FAILURE
  · left
    intro fl ht
    simp [update_database, hname]
  · cases hfile : fs backup with
    | none =>
      right; left
      exact ⟨Fault.nullStream, fun fl ht => by simp [update_database, hname, hfile]⟩
    | some content =>
      by_cases hlen : content.length = 0
      · left
        intro fl ht
        simp [update_database, hname, hfile, hlen]
      · by_cases hv : valid_database content = FAILURE
        · left
          intro fl ht
          simp [update_database, hname, hfile, hlen, hv]
        · cases hpr : parse_records ((skip_line content).length + 1) (skip_line content) with
          | error e =>
            right; left
            refine ⟨e, fun fl ht => ?_⟩
            simp only [update_database, hname, hfile, hlen, hv, if_false, load_records_eq, hpr]
          | ok recs =>
            right; right
            refine ⟨recs, parse_records_range _ _ _ hpr, fun fl ht => ?_⟩
            simp only [update_database, hname, hfile, hlen, hv, if_false, load_records_eq, hpr]

/-- Loading with files pending, compared with loading the same snapshot with nothing
pending: the files of the loaded table are unlinked from the pending list, and when the
index was empty and the snapshot holds a record, the final table is the loaded table
indexed with the files left. -/
theorem update_database_pending (fs : FS) (fl : FileList) (ht : HashTable) (backup : Str)
    (fl' : FileList) (ht' : HashTable) (hnd : fl.Nodup)
    (hrun : update_database fs fl ht backup = .ok (fl', ht')) :
    ∃ hs, update_database fs [] (initialize_hashTable MAX_HASH_SIZE) backup = .ok ([], hs) ∧
      fl' = fl.filter (fun f => f ∉ table_files hs) ∧
      hs.length = MAX_HASH_SIZE ∧
      (table_files hs ≠ [] → ht = initialize_hashTable MAX_HASH_SIZE →
        ht' = (create_database fs fl' hs).2) := by
  have hinit : (initialize_hashTable MAX_HASH_SIZE).length = MAX_HASH_SIZE := by
    simp [initialize_hashTable]
  rcases update_database_shape fs backup with hrej | ⟨e, herr⟩ | ⟨recs, hrange, hok⟩
  · rw [hrej fl ht] at hrun
    simp only [Except.ok.injEq, Prod.mk.injEq] at hrun
    refine ⟨_, hrej _ _, ?_, hinit, ?_⟩
    · rw [← hrun.1, table_files_empty_table]
      simp
    · intro hfiles
      exact absurd (table_files_empty_table _) hfiles
  · rw [herr fl ht] at hrun
    cases hrun
  · rw [hok fl ht] at hrun
    simp only [Except.ok.injEq, Prod.mk.injEq] at hrun
    refine ⟨append_records (initialize_hashTable MAX_HASH_SIZE) recs, ?_, ?_, ?_, ?_⟩
    · rw [hok [] (initialize_hashTable MAX_HASH_SIZE), remove_files_nil]
      rfl
    · rw [← hrun.1, remove_files_nodup fl _ hnd]
      apply List.filter_congr
      intro f _
      have hmem := mem_table_files_append_records (initialize_hashTable MAX_HASH_SIZE) recs f
        (by
          intro r hr
          simpa [initialize_hashTable] using hrange r hr)
      rw [table_files_empty_table] at hmem
      simp only [List.not_mem_nil, false_or] at hmem
      simp only [hmem]
    · rw [append_records_length, hinit]
    · intro _ h
      rw [← hrun.2, ← hrun.1, h]

/-- C7: for a duplicate-free pending file list, when `update_database` returns normally
the file list it leaves is the pending list without the files that occur as a file field
of a record read from the snapshot (the files of the table obtained by loading the same
snapshot into the empty index with nothing pending): those files are absent, every other
pending file is still present, and the order is kept.  When the snapshot covers only file
`a` and the pending list is `[a, b]`, the list left is `[b]`. -/
theorem update_database_filters_pending :
    (∀ (fs : FS) (fl : FileList) (ht : HashTable) (backup : Str) (fl' : FileList) (ht' : HashTable),
      fl.Nodup → update_database fs fl ht backup = .ok (fl', ht') →
      ∃ hs, update_database fs [] (initialize_hashTable MAX_HASH_SIZE) backup = .ok ([], hs) ∧
        fl' = fl.filter (fun f => f ∉ table_files hs) ∧
        (∀ f ∈ table_files hs, f ∉ fl') ∧
        (∀ f ∈ fl, f ∉ table_files hs → f ∈ fl') ∧
        fl'.Sublist fl) ∧
    (∀ (fs : FS) (ht : HashTable) (backup a b : Str) (fl' : FileList) (ht' hs : HashTable),
      a ≠ b → update_database fs [a, b] ht backup = .ok (fl', ht') →
      update_database fs [] (initialize_hashTable MAX_HASH_SIZE) backup = .ok ([], hs) →
      a ∈ table_files hs → (∀ f ∈ table_files hs, f = a) → fl' = [b]) := by
  constructor
  · intro fs fl ht backup fl' ht' hnd hrun
    obtain ⟨hs, h1, h2, _⟩ := update_database_pending fs fl ht backup fl' ht' hnd hrun
    refine ⟨hs, h1, h2, ?_, ?_, ?_⟩
    · intro f hf hmem
      rw [h2, List.mem_filter] at hmem
      simpa [hf] using hmem.2
    · intro f hf hnot
      rw [h2, List.mem_filter]
      exact ⟨hf, by simpa using hnot⟩
    · rw [h2]
      exact List.filter_sublist _
  · intro fs ht backup a b fl' ht' hs hab hrun hload ha hall
    obtain ⟨hs2, h1, h2, _⟩ := update_database_pending fs [a, b] ht backup fl' ht'
      (by simp [hab]) hrun
    rw [hload] at h1
    simp only [Except.ok.injEq, Prod.mk.injEq, true_and] at h1
    subst h1
    rw [h2]
    have hb : b ∉ table_files hs := fun hmem => hab (hall b hmem).symm
    simp [List.filter_cons, ha, hb]

theorem update_database_filters_pending_witness :
    ∃ hs, update_database example_store [] (initialize_hashTable MAX_HASH_SIZE) (str "db.txt")
        = .ok ([], hs) ∧
      [str "b.txt"] = [str "a.txt", str "b.txt"].filter (fun f => f ∉ table_files hs) := by
  obtain ⟨hs, h1, h2, _⟩ := update_database_filters_pending.1 example_store
    [str "a.txt", str "b.txt"] (initialize_hashTable MAX_HASH_SIZE) (str "db.txt")
    [str "b.txt"] example_updated (by decide) (by decide)
  exact ⟨hs, h1, h2⟩

/-! ## Printing and scanning decimal numbers -/

theorem decimalAux_spec (fuel n : Nat) (acc : List Nat) (h : n < fuel) :
    ∃ ds : List Nat, decimalAux fuel n acc = ds ++ acc ∧ ds ≠ [] ∧
      (∀ d ∈ ds, isdigit d = true) ∧
      ∀ a0 : Nat, ds.foldl (fun a d => a * 10 + (d - 48)) a0 = a0 * 10 ^ ds.length + n := by
  induction fuel generalizing n acc with
  | zero => omega
  | succ k ih =>
    simp only [decimalAux]
    by_cases hq : n / 10 = 0
    · rw [if_pos hq]
      refine ⟨[48 + n % 10], rfl, by simp, ?_, ?_⟩
      · intro d hd
        simp only [List.mem_singleton] at hd
        subst hd
        simp only [isdigit, decide_eq_true_eq]
        omega
      · intro a0
        simp only [List.foldl_cons, List.foldl_nil, List.length_singleton, pow_one]
        omega
    · rw [if_neg hq]
      obtain ⟨ds, hds, _, hdig, hval⟩ := ih (n / 10) ((48 + n % 10) :: acc) (by omega)
      refine ⟨ds ++ [48 + n % 10], by rw [hds]; simp, by simp, ?_, ?_⟩
      · intro d hd
        rcases List.mem_append.1 hd with hd | hd
        · exact hdig d hd
        · simp only [List.mem_singleton] at hd
          subst hd
          simp only [isdigit, decide_eq_true_eq]
          omega
      · intro a0
        rw [List.foldl_append, hval a0]
        simp only [List.foldl_cons, List.foldl_nil, List.length_append, List.length_singleton,
          pow_succ]
        have h1 : 48 + n % 10 - 48 = n % 10 := by omega
        rw [h1]
        have h2 : n = 10 * (n / 10) + n % 10 := (Nat.div_add_mod n 10).symm
        nlinarith [h2]

theorem takeWhile_append_stop (p : Nat → Bool) (ds : List Nat) (c : Nat) (r : List Nat)
    (hds : ∀ d ∈ ds, p d = true) (hc : p c = false) :
    (ds ++ c :: r).takeWhile p = ds ∧ (ds ++ c :: r).dropWhile p = c :: r := by
  induction ds with
  | nil => simp [List.takeWhile, List.dropWhile, hc]
  | cons d ds ih =>
    have hd : p d = true := hds d (by simp)
    have ih2 := ih (fun x hx => hds x (by simp [hx]))
    simp [List.takeWhile, List.dropWhile, hd, ih2.1, ih2.2]

theorem scan_d_eq (s s1 s2 : List Nat) (h1 : s.dropWhile isspace = s1)
    (h2 : (if s1.head? = some 45 ∨ s1.head? = some 43 then s1.tail else s1) = s2) :
    scan_d s =
      if s2.takeWhile isdigit = [] then (none, s2)
      else if s1.head? = some 45 then
        (some (-(digits_value (s2.takeWhile isdigit) : Int)), s2.dropWhile isdigit)
      else (some (digits_value (s2.takeWhile isdigit) : Int), s2.dropWhile isdigit) := by
  subst h1 h2
  rfl

theorem scan_digits (ds : List Nat) (r : List Nat) (hne : ds ≠ [])
    (hdig : ∀ d ∈ ds, isdigit d = true) :
    scan_d (ds ++ 59 :: r) = (some (digits_value ds : Int), 59 :: r) := by
  obtain ⟨d, ds2, rfl⟩ := List.exists_cons_of_ne_nil hne
  have hd : isdigit d = true := hdig d (by simp)
  have hd2 : 48 ≤ d ∧ d ≤ 57 := by simpa [isdigit] using hd
  have hsp : isspace d = false := by
    simp only [isspace, decide_eq_false_iff_not]
    omega
  have h45 : d ≠ 45 := by omega
  have h43 : d ≠ 43 := by omega
  have htd := takeWhile_append_stop isdigit (d :: ds2) 59 r hdig (by decide)
  rw [scan_d_eq (d :: ds2 ++ 59 :: r) (d :: ds2 ++ 59 :: r) (d :: ds2 ++ 59 :: r)
    (by simp [List.dropWhile, hsp]) (by simp [h45, h43])]
  rw [htd.1, htd.2]
  simp [h45]

theorem scan_d_print_d (n : Int) (r : List Nat) :
    scan_d (print_d n ++ 59 :: r) = (some n, 59 :: r) := by
  obtain ⟨ds, hds, hne, hdig, hval⟩ := decimalAux_spec (n.natAbs + 1) n.natAbs [] (by omega)
  rw [List.append_nil] at hds
  have hvalue : digits_value ds = n.natAbs := by
    have := hval 0
    simpa [digits_value] using this
  by_cases hneg : n < 0
  · have hp : print_d n = 45 :: ds := by simp [print_d, hneg, hds]
    rw [hp]
    have htd := takeWhile_append_stop isdigit ds 59 r hdig (by decide)
    rw [scan_d_eq (45 :: ds ++ 59 :: r) (45 :: ds ++ 59 :: r) (ds ++ 59 :: r)
      (by
        have hsp : isspace 45 = false := by decide
        simp [List.dropWhile, hsp]) (by simp)]
    rw [htd.1, htd.2, hvalue, if_neg hne]
    have hcast : -((n.natAbs : Nat) : Int) = n := by omega
    rw [hcast]
    rfl
  · have hp : print_d n = ds := by simp [print_d, hneg, hds]
    rw [hp, scan_digits ds r hne hdig, hvalue]
    have : ((n.natAbs : Nat) : Int) = n := by omega
    rw [this]

theorem scan_set_field (w : Str) (r : List Nat) (hne : w ≠ []) (hsemi : 59 ∉ w) :
    scan_set (w ++ 59 :: r) = (some w, 59 :: r) := by
  have htd := takeWhile_append_stop (fun c => decide (c ≠ 59)) w 59 r
    (by
      intro d hd
      have : d ≠ 59 := fun h => hsemi (h ▸ hd)
      simpa using this)
    (by simp)
  unfold scan_set
  simp only [htd.1, htd.2, hne, if_false]

/-! ## Reading back one record -/

theorem lit_cons (c : Nat) (r : List Nat) : lit c (c :: r) = some r := by
  simp [lit]

theorem scan_pair_saved (f : Str) (c : Int) (r : List Nat) (fn : Option Str) (wc : Option Int)
    (hf : Field f) :
    scan_pair (f ++ [59] ++ print_d c ++ [59] ++ r) fn wc = .ok (some f, some c, r) := by
  have h1 : f ++ [59] ++ print_d c ++ [59] ++ r = f ++ 59 :: (print_d c ++ 59 :: r) := by simp
  have hfit : ¬ MAX_FILENAME_LENGTH ≤ f.length := by
    unfold MAX_FILENAME_LENGTH
    have := hf.2.2
    omega
  rw [h1]
  unfold scan_pair
  rw [scan_set_field f _ hf.1 hf.2.1]
  simp only [hfit, if_false, lit_cons, scan_d_print_d, Option.getD_some]

theorem parse_pairs_saved (subs : List SubNode) (tail : List Nat) (fn : Option Str)
    (wc : Option Int) (hok : ∀ s ∈ subs, Field s.filename) :
    parse_pairs subs.length (save_subs subs ++ tail) fn wc = .ok (tail, subs) := by
  induction subs generalizing fn wc with
  | nil => rfl
  | cons x subs ih =>
    have hx := hok x (by simp)
    have h1 : save_subs (x :: subs) ++ tail
        = x.filename ++ [59] ++ print_d x.wordCount ++ [59] ++ (save_subs subs ++ tail) := by
      simp [save_subs]
    rw [h1]
    simp only [List.length_cons, parse_pairs]
    rw [scan_pair_saved x.filename x.wordCount _ fn wc hx]
    simp only
    rw [ih _ _ (fun y hy => hok y (by simp [hy]))]
    rfl

theorem scan_record_saved (i : Nat) (m : MainNode) (rest : List Nat) (hw : Field m.word) :
    scan_record (record_text i m ++ rest)
      = .ok (some ((i : Int), m.word, m.fileCount, save_subs m.subLink ++ [35, 10] ++ rest)) := by
  have hfit : ¬ MAX_WORD_LENGTH ≤ m.word.length := by
    unfold MAX_WORD_LENGTH
    have := hw.2.2
    omega
  have h1 : record_text i m ++ rest
      = 35 :: (print_d i ++ 59 :: (m.word ++ 59 :: (print_d m.fileCount ++ 59 ::
          (save_subs m.subLink ++ [35, 10] ++ rest)))) := by
    simp [record_text]
  rw [h1]
  unfold scan_record
  simp only [lit_cons, scan_d_print_d, scan_set_field m.word _ hw.1 hw.2.1, hfit, if_false,
    Option.getD_some]

theorem record_text_head (i : Nat) (m : MainNode) :
    ∃ t, record_text i m = 35 :: t := by
  exact ⟨_, by simp [record_text]; rfl⟩

theorem records_text_head (recs : List (Nat × MainNode)) :
    records_text recs = [] ∨ ∃ t, records_text recs = 35 :: t := by
  cases recs with
  | nil => exact Or.inl rfl
  | cons r recs =>
    right
    obtain ⟨t, ht⟩ := record_text_head r.1 r.2
    exact ⟨t ++ records_text recs, by simp [records_text, List.flatMap_cons, ht]⟩

theorem scan_end_saved (recs : List (Nat × MainNode)) :
    scan_end ([35, 10] ++ records_text recs) = records_text recs := by
  have hsp : isspace 10 = true := by decide
  simp only [scan_end, List.cons_append, List.nil_append, lit_cons, List.dropWhile_cons, hsp,
    if_true]
  rcases records_text_head recs with h | ⟨t, h⟩
  · rw [h]
    rfl
  · rw [h]
    have h35 : isspace 35 = false := by decide
    simp [List.dropWhile, h35]

theorem record_text_length_pos (i : Nat) (m : MainNode) : 0 < (record_text i m).length := by
  obtain ⟨t, ht⟩ := record_text_head i m
  rw [ht]
  simp

theorem parse_records_saved (recs : List (Nat × MainNode)) (fuel : Nat)
    (hok : ∀ r ∈ recs, r.1 < MAX_HASH_SIZE ∧ Storable r.2)
    (hfuel : (records_text recs).length < fuel) :
    parse_records fuel (records_text recs) = .ok recs := by
  induction recs generalizing fuel with
  | nil =>
    cases fuel with
    | zero => omega
    | succ k => rfl
  | cons r recs ih =>
    cases fuel with
    | zero => omega
    | succ k =>
      obtain ⟨i, m⟩ := r
      obtain ⟨hi, hword, hfc, hsubs, hfiles⟩ := hok (i, m) (by simp)
      simp only at hi hword hfc hsubs hfiles
      have htext : records_text ((i, m) :: recs) = record_text i m ++ records_text recs := by
        simp [records_text, List.flatMap_cons]
      rw [htext] at hfuel ⊢
      simp only [parse_records]
      rw [scan_record_saved i m _ hword]
      simp only
      have hidx : ¬ ((i : Int) < 0 ∨ (i : Int) ≥ (MAX_HASH_SIZE : Int)) := by
        push_neg
        constructor
        · omega
        · exact_mod_cast hi
      rw [if_neg hidx]
      have hlen : m.fileCount.toNat = m.subLink.length := by
        rw [hfc]
        simp
      rw [hlen, List.append_assoc, parse_pairs_saved m.subLink _ none none hfiles]
      simp only
      have hpos : ¬ m.fileCount ≤ 0 := by
        rw [hfc]
        have : 0 < m.subLink.length := List.length_pos.2 hsubs
        omega
      rw [if_neg hpos, scan_end_saved]
      have hrec := record_text_length_pos i m
      rw [List.length_append] at hfuel
      rw [ih k (fun x hx => hok x (by simp [hx])) (by omega)]
      simp

/-! ## The text `save_database` writes -/

theorem storable_of_mem_link (ht : HashTable) (hser : Serializable ht) (k : Nat) (m : MainNode)
    (hm : m ∈ ht.link k) : Storable m := by
  have hlt := lt_length_of_mem_link ht k m hm
  have hb : ht.link k ∈ ht := by
    simp only [HashTable.link, List.getD_eq_getElem?_getD, List.getElem?_eq_getElem hlt,
      Option.getD_some]
    exact List.getElem_mem hlt
  exact hser.2 _ hb m hm

theorem save_main_storable (i : Nat) (m : MainNode) (h : Storable m) :
    save_main i m = .ok (record_text i m) := by
  have hlen : m.fileCount.toNat = m.subLink.length := by
    rw [h.2.1]
    simp
  simp only [save_main, hlen, walk_subs_length]
  rfl

theorem save_bucket_storable (i : Nat) (b : List MainNode) (h : ∀ m ∈ b, Storable m) :
    save_bucket i b = .ok (records_text (b.map (fun m => (i, m)))) := by
  induction b with
  | nil => rfl
  | cons m b ih =>
    simp only [save_bucket, save_main_storable i m (h m (by simp)),
      ih (fun x hx => h x (by simp [hx]))]
    simp [records_text, List.flatMap_cons]

theorem save_buckets_storable (ht : HashTable) (i n : Nat)
    (h : ∀ k, ∀ m ∈ ht.link k, Storable m) :
    save_buckets ht i n
      = .ok (records_text ((List.range' i n).flatMap (fun k => (ht.link k).map (fun m => (k, m))))) := by
  induction n generalizing i with
  | zero => rfl
  | succ n ih =>
    simp only [save_buckets, save_bucket_storable i _ (h i), ih (i + 1)]
    simp [records_text, List.range'_succ, List.flatMap_cons, List.flatMap_append]

theorem save_text_storable (ht : HashTable) (h : ∀ k, ∀ m ∈ ht.link k, Storable m) :
    save_text ht = .ok (header_line ++ records_text (records_of ht)) := by
  simp only [save_text, save_buckets_storable ht 0 MAX_HASH_SIZE h]
  rw [records_of, List.range_eq_range']

/-! ## The snapshot passes the checks and its header is skipped -/

theorem skip_line_header (body : List Nat) : skip_line (header_line ++ body) = body := by
  have h : header_line = [35, 73, 110, 100, 101, 120, 59, 87, 111, 114, 100, 59, 70, 105, 108,
      101, 67, 111, 117, 110, 116, 59, 70, 105, 108, 101, 78, 97, 109, 101, 59, 119, 111, 114,
      100, 67, 111, 117, 110, 116, 59, 35, 10] := by decide
  rw [h]
  simp [skip_line, List.dropWhile]

theorem get?_two_before_end (pre : List Nat) :
    (pre ++ [35, 10]).get? ((pre ++ [35, 10]).length - 2) = some 35 := by
  have h : (pre ++ [35, 10]).length - 2 = pre.length := by simp
  rw [h, List.get?_eq_getElem?, List.getElem?_append_right (le_refl _)]
  simp

theorem record_text_tail (i : Nat) (m : MainNode) : ∃ pre, record_text i m = pre ++ [35, 10] :=
  ⟨_, rfl⟩

theorem records_text_tail (recs : List (Nat × MainNode)) (hne : recs ≠ []) :
    ∃ pre, records_text recs = pre ++ [35, 10] := by
  induction recs with
  | nil => exact absurd rfl hne
  | cons r recs ih =>
    have htext : records_text (r :: recs) = record_text r.1 r.2 ++ records_text recs := by
      simp [records_text, List.flatMap_cons]
    by_cases hrecs : recs = []
    · subst hrecs
      obtain ⟨pre, hpre⟩ := record_text_tail r.1 r.2
      exact ⟨pre, by rw [htext, hpre]; simp [records_text]⟩
    · obtain ⟨pre, hpre⟩ := ih hrecs
      exact ⟨record_text r.1 r.2 ++ pre, by rw [htext, hpre, List.append_assoc]⟩

theorem snapshot_tail (recs : List (Nat × MainNode)) :
    ∃ pre, header_line ++ records_text recs = pre ++ [35, 10] := by
  by_cases hrecs : recs = []
  · subst hrecs
    exact ⟨str "#Index;Word;FileCount;FileName;wordCount;", by decide⟩
  · obtain ⟨pre, hpre⟩ := records_text_tail recs hrecs
    exact ⟨header_line ++ pre, by rw [hpre, List.append_assoc]⟩

theorem valid_database_snapshot (recs : List (Nat × MainNode)) :
    valid_database (header_line ++ records_text recs) = SUCCESS := by
  obtain ⟨pre, hpre⟩ := snapshot_tail recs
  have hhead : (header_line ++ records_text recs).head? = some 35 := by
    have h : header_line = 35 :: header_line.tail := by decide
    rw [h]
    rfl
  have hget := get?_two_before_end pre
  rw [← hpre] at hget
  have hlen : ¬ (header_line ++ records_text recs).length < 2 := by
    rw [hpre]
    simp
  unfold valid_database
  rw [if_neg (fun h => h hhead), if_neg hlen, if_neg (fun h => h hget)]

/-! ## Linking the records of a table rebuilds the table -/

theorem records_filter_bucket (g : Nat → List MainNode) (n j : Nat) :
    (((List.range n).flatMap (fun i => (g i).map (fun m => (i, m)))).filter
        (fun r => r.1 = j)).map Prod.snd
      = if j < n then g j else [] := by
  induction n with
  | zero => simp
  | succ n ih =>
    rw [List.range_succ, List.flatMap_append, List.filter_append, List.map_append, ih]
    simp only [List.flatMap_cons, List.flatMap_nil, List.append_nil]
    by_cases hj : j < n
    · have hne : n ≠ j := by omega
      have hfil : ((g n).map (fun m => (n, m))).filter (fun r => decide (r.1 = j)) = [] := by
        rw [List.filter_eq_nil_iff]
        intro r hr
        obtain ⟨m, _, rfl⟩ := List.mem_map.1 hr
        simpa using hne
      rw [if_pos hj, if_pos (by omega), hfil]
      simp
    · rw [if_neg hj]
      by_cases hjn : j = n
      · subst hjn
        have hfil : ((g j).map (fun m => (j, m))).filter (fun r => decide (r.1 = j))
            = (g j).map (fun m => (j, m)) := by
          rw [List.filter_eq_self]
          intro r hr
          obtain ⟨m, _, rfl⟩ := List.mem_map.1 hr
          simp
        rw [if_pos (by omega), hfil]
        simp [Function.comp_def]
      · have hne : n ≠ j := fun h => hjn h.symm
        have hfil : ((g n).map (fun m => (n, m))).filter (fun r => decide (r.1 = j)) = [] := by
          rw [List.filter_eq_nil_iff]
          intro r hr
          obtain ⟨m, _, rfl⟩ := List.mem_map.1 hr
          simpa using hne
        rw [if_neg (by omega), hfil]
        simp

theorem records_of_range (ht : HashTable) : ∀ r ∈ records_of ht, r.1 < MAX_HASH_SIZE := by
  intro r hr
  simp only [records_of, List.mem_flatMap, List.mem_range, List.mem_map] at hr
  obtain ⟨i, hi, m, _, rfl⟩ := hr
  exact hi

theorem append_records_of (ht : HashTable) (hlen : ht.length = MAX_HASH_SIZE) :
    append_records (initialize_hashTable MAX_HASH_SIZE) (records_of ht) = ht := by
  have hinit : (initialize_hashTable MAX_HASH_SIZE).length = MAX_HASH_SIZE := by
    simp [initialize_hashTable]
  apply table_ext _ _ (by rw [append_records_length, hinit]) hlen
  intro j hj
  rw [append_records_link _ _ j (by rw [hinit]; exact records_of_range ht)]
  rw [records_of, records_filter_bucket ht.link MAX_HASH_SIZE j, if_pos hj]
  have hnil : (initialize_hashTable MAX_HASH_SIZE).link j = [] := by
    simp [initialize_hashTable, HashTable.link, List.getD_eq_getElem?_getD,
      List.getElem?_replicate, hj]
  rw [hnil]
  rfl

/-! ## Round trip -/

/-- C2 as stated fails: the index built from a document holding the token "a;b" is saved
as the record `#0;a;b;1;d.txt;1;#`, whose header scan stops at the `;` inside the word;
loading the snapshot into the empty index leaves the index empty. -/
theorem roundtrip_loses_semicolon_word :
    semicolon_index
        = (initialize_hashTable MAX_HASH_SIZE).set 0
            [{ word := str "a;b", fileCount := 1,
               subLink := [{ filename := str "d.txt", wordCount := 1 }] }] ∧
    save_text semicolon_index = .ok (header_line ++ str "#0;a;b;1;d.txt;1;#\n") ∧
    save_then_load semicolon_docs semicolon_index (str "db.txt")
        = .ok ([], initialize_hashTable MAX_HASH_SIZE) ∧
    semicolon_index ≠ initialize_hashTable MAX_HASH_SIZE := by
  decide

/-- C2, amended: for every index of 28 buckets in which every word and every file name is
non-empty, shorter than 20 bytes and free of `;`, and every `fileCount` is the number of
occurrences of its word, at least one, saving it with `save_database` under a valid name and loading that file with
`update_database` into the empty index with nothing pending returns normally with an empty
file list and a table equal to the original: the same buckets, the same words in the same
order, the same `fileCount`s and the same (file, count) pairs in the same order. -/
theorem save_then_load_roundtrip (fs : FS) (ht : HashTable) (backup : Str)
    (hser : Serializable ht) (hname : valid_file_name backup = SUCCESS) :
    save_then_load fs ht backup = .ok ([], ht) := by
  have hname2 : ¬ valid_file_name backup = FAILURE := by
    rw [hname]
    decide
  have hsave := save_text_storable ht (storable_of_mem_link ht hser)
  have hrecs : ∀ r ∈ records_of ht, r.1 < MAX_HASH_SIZE ∧ Storable r.2 := by
    intro r hr
    refine ⟨records_of_range ht r hr, ?_⟩
    simp only [records_of, List.mem_flatMap, List.mem_range, List.mem_map] at hr
    obtain ⟨i, _, m, hm, rfl⟩ := hr
    exact storable_of_mem_link ht hser i m hm
  have hlen : ¬ (header_line ++ records_text (records_of ht)).length = 0 := by
    obtain ⟨pre, hpre⟩ := snapshot_tail (records_of ht)
    rw [hpre]
    simp
  have hvalid : ¬ valid_database (header_line ++ records_text (records_of ht)) = FAILURE := by
    rw [valid_database_snapshot]
    decide
  simp only [save_then_load, save_database, hname2, if_false, hsave, update_database, FS.write,
    if_true, hlen, hvalid, skip_line_header, load_records_eq]
  rw [parse_records_saved (records_of ht) _ hrecs (by omega)]
  simp only [remove_files_nil, create_database, append_records_of ht hser.1]

theorem save_then_load_roundtrip_witness :
    save_then_load example_docs example_updated (str "db.txt") = .ok ([], example_updated) := by
  exact save_then_load_roundtrip example_docs example_updated (str "db.txt") (by decide) (by decide)

/-! ## Occurrences of one file while another file is indexed -/

theorem holds_iff_link (t : HashTable) (w f : Str) (n : Int) :
    holds t w f n ↔ ∃ i, ∃ m ∈ t.link i, m.word = w ∧
      ({ filename := f, wordCount := n } : SubNode) ∈ m.subLink := by
  unfold holds
  constructor
  · rintro ⟨b, hb, m, hm, hw, hs⟩
    obtain ⟨j, hj⟩ := List.mem_iff_getElem?.1 hb
    refine ⟨j, m, ?_, hw, hs⟩
    simp only [HashTable.link, List.getD_eq_getElem?_getD, hj, Option.getD_some]
    exact hm
  · rintro ⟨j, m, hm, hw, hs⟩
    have hlt := lt_length_of_mem_link t j m hm
    refine ⟨t.link j, ?_, m, hm, hw, hs⟩
    simp only [HashTable.link, List.getD_eq_getElem?_getD, List.getElem?_eq_getElem hlt,
      Option.getD_some]
    exact List.getElem_mem hlt

theorem mem_insert_sub_other (f g : Str) (n : Int) (subs : List SubNode) (h : g ≠ f) :
    ({ filename := g, wordCount := n } : SubNode) ∈ (insert_sub f subs).1
      ↔ ({ filename := g, wordCount := n } : SubNode) ∈ subs := by
  induction subs with
  | nil =>
    simp only [insert_sub, create_subNode, List.mem_singleton, SubNode.mk.injEq, List.not_mem_nil,
      iff_false, not_and]
    intro hg
    exact absurd hg h
  | cons x subs ih =>
    by_cases hx : x.filename = f
    · simp only [insert_sub, hx, if_true, List.mem_cons]
      constructor
      · rintro (heq | hmem)
        · simp only [SubNode.mk.injEq] at heq
          exact absurd heq.1 h
        · exact Or.inr hmem
      · rintro (heq | hmem)
        · have : g = f := by
            rw [← hx, ← heq]
          exact absurd this h
        · exact Or.inr hmem
    · simp only [insert_sub, hx, if_false, List.mem_cons, ih]

theorem mem_insert_main_other (f w v g : Str) (n : Int) (b : List MainNode) (h : g ≠ f) :
    (∃ m ∈ insert_main f w b, m.word = v ∧
        ({ filename := g, wordCount := n } : SubNode) ∈ m.subLink)
      ↔ ∃ m ∈ b, m.word = v ∧ ({ filename := g, wordCount := n } : SubNode) ∈ m.subLink := by
  induction b with
  | nil =>
    simp only [insert_main, create_subNode, List.mem_singleton, exists_eq_left, List.not_mem_nil,
      false_and, exists_false, iff_false, not_and, SubNode.mk.injEq]
    intro _ hg
    exact absurd hg h
  | cons x b ih =>
    by_cases hx : x.word = w
    · simp only [insert_main, hx, if_true, List.mem_cons, exists_eq_or_imp,
        mem_insert_sub_other f g n x.subLink h]
    · simp only [insert_main, hx, if_false, List.mem_cons, exists_eq_or_imp, ih]

theorem holds_insert_other (t : HashTable) (f w v g : Str) (n : Int) (h : g ≠ f) :
    holds (hashTable_insert_last t f (get_word_index w) w).2 v g n ↔ holds t v g n := by
  rw [hashTable_insert_last_in_range, holds_iff_link, holds_iff_link]
  constructor
  · rintro ⟨i, hex⟩
    by_cases hi : (get_word_index w).toNat = i
    · subst hi
      by_cases hlt : (get_word_index w).toNat < t.length
      · rw [link_set_self _ _ _ hlt] at hex
        exact ⟨_, (mem_insert_main_other f w v g n _ h).1 hex⟩
      · rw [List.set_eq_of_length_le (by omega)] at hex
        exact ⟨_, hex⟩
    · rw [link_set_ne _ _ _ _ hi] at hex
      exact ⟨i, hex⟩
  · rintro ⟨i, hex⟩
    by_cases hi : (get_word_index w).toNat = i
    · subst hi
      obtain ⟨m, hm, hrest⟩ := hex
      have hlt := lt_length_of_mem_link t _ m hm
      refine ⟨(get_word_index w).toNat, ?_⟩
      rw [link_set_self _ _ _ hlt]
      exact (mem_insert_main_other f w v g n _ h).2 ⟨m, hm, hrest⟩
    · refine ⟨i, ?_⟩
      rw [link_set_ne _ _ _ _ hi]
      exact hex

theorem holds_insert_all_other (ops : List (Str × Str)) (t : HashTable) (v g : Str) (n : Int)
    (h : ∀ op ∈ ops, op.1 ≠ g) :
    holds (insert_all ops t) v g n ↔ holds t v g n := by
  induction ops generalizing t with
  | nil => rfl
  | cons op ops ih =>
    have hstep : insert_all (op :: ops) t
        = insert_all ops (hashTable_insert_last t op.1 (get_word_index op.2) op.2).2 := rfl
    rw [hstep, ih _ (fun x hx => h x (by simp [hx]))]
    exact holds_insert_other t op.1 op.2 v g n (fun heq => h op (by simp) heq.symm)

/-! ## The count an insertion finds, after an insertion -/

theorem sub_lookup_insert (f g : Str) (subs : List SubNode) :
    sub_lookup g (insert_sub f subs).1
      = if g = f then some ((sub_lookup f subs).getD 0 + 1) else sub_lookup g subs := by
  induction subs with
  | nil =>
    by_cases hg : g = f
    · subst hg
      simp [sub_lookup, insert_sub, create_subNode]
    · have hg2 : ¬ f = g := fun h => hg h.symm
      simp [sub_lookup, insert_sub, create_subNode, hg, hg2]
  | cons x subs ih =>
    by_cases hx : x.filename = f
    · by_cases hg : g = f
      · subst hg
        simp [sub_lookup, insert_sub, hx]
      · have hxg : ¬ x.filename = g := fun h => hg (h.symm.trans hx)
        have hfg : ¬ f = g := fun h => hg h.symm
        simp [sub_lookup, insert_sub, hx, hg, hfg]
    · by_cases hg : g = f
      · subst hg
        have ih2 := ih
        simp only [if_true] at ih2
        simp only [sub_lookup] at ih2 ⊢
        simp only [insert_sub, hx, if_false, List.find?_cons, decide_False, if_true]
        exact ih2
      · simp only [if_neg hg] at ih ⊢
        simp only [sub_lookup] at ih ⊢
        simp only [insert_sub, hx, if_false, List.find?_cons]
        by_cases hxg : x.filename = g
        · simp [hxg]
        · simp only [hxg, decide_False]
          exact ih

theorem chain_lookup_insert (f w v g : Str) (b : List MainNode) :
    chain_lookup v g (insert_main f w b)
      = if v = w ∧ g = f then some ((chain_lookup w f b).getD 0 + 1) else chain_lookup v g b := by
  induction b with
  | nil =>
    by_cases hv : v = w
    · subst hv
      by_cases hg : g = f
      · subst hg
        simp [chain_lookup, insert_main, sub_lookup, create_subNode]
      · have hfg : ¬ f = g := fun h => hg h.symm
        simp [chain_lookup, insert_main, sub_lookup, create_subNode, hg, hfg]
    · have hwv : ¬ w = v := fun h => hv h.symm
      simp [chain_lookup, insert_main, hv, hwv]
  | cons x b ih =>
    by_cases hx : x.word = w
    · by_cases hv : v = w
      · subst hv
        simp only [chain_lookup, insert_main, hx, if_true, List.find?_cons, decide_True,
          true_and]
        exact sub_lookup_insert f g x.subLink
      · have hwv : ¬ w = v := fun h => hv h.symm
        have hxv : ¬ x.word = v := fun h => hv (h.symm.trans hx)
        simp [chain_lookup, insert_main, hx, hv, hwv, hxv]
    · by_cases hxv : x.word = v
      · have hv : ¬ v = w := fun h => hx (hxv.trans h)
        simp [chain_lookup, insert_main, hx, hxv, hv]
      · have ih2 := ih
        simp only [chain_lookup] at ih2 ⊢
        simp only [insert_main, hx, if_false, List.find?_cons, hxv, decide_False]
        exact ih2

theorem lookup_insert (t : HashTable) (f w v g : Str)
    (hlen : t.length = MAX_HASH_SIZE) :
    lookup (hashTable_insert_last t f (get_word_index w) w).2 v g
      = if v = w ∧ g = f then some ((lookup t w f).getD 0 + 1) else lookup t v g := by
  rw [hashTable_insert_last_in_range]
  unfold lookup
  by_cases hi : (get_word_index w).toNat = (get_word_index v).toNat
  · rw [← hi, link_set_self _ _ _ (by rw [hlen]; exact get_word_index_toNat_lt w)]
    exact chain_lookup_insert f w v g _
  · rw [link_set_ne _ _ _ _ hi]
    have hv : ¬ (v = w ∧ g = f) := by
      rintro ⟨h, _⟩
      exact hi (by rw [h])
    rw [if_neg hv]

theorem insert_length (t : HashTable) (f w : Str) (index : Int) :
    (hashTable_insert_last t f index w).2.length = t.length := by
  unfold hashTable_insert_last
  split_ifs <;> simp

theorem insert_all_length (ops : List (Str × Str)) (t : HashTable) :
    (insert_all ops t).length = t.length := by
  induction ops generalizing t with
  | nil => rfl
  | cons op ops ih =>
    have hstep : insert_all (op :: ops) t
        = insert_all ops (hashTable_insert_last t op.1 (get_word_index op.2) op.2).2 := rfl
    rw [hstep, ih, insert_length]

theorem lookup_insert_all (ws : List Str) (t : HashTable) (f v : Str)
    (hlen : t.length = MAX_HASH_SIZE) :
    lookup (insert_all (ws.map (fun w => (f, w))) t) v f
      = if ws.count v = 0 then lookup t v f
        else some ((lookup t v f).getD 0 + ((ws.count v : Nat) : Int)) := by
  induction ws generalizing t with
  | nil => simp [insert_all]
  | cons w ws ih =>
    have hstep : insert_all ((w :: ws).map (fun w => (f, w))) t
        = insert_all (ws.map (fun w => (f, w)))
            (hashTable_insert_last t f (get_word_index w) w).2 := rfl
    rw [hstep, ih _ (by rw [insert_length]; exact hlen), lookup_insert t f w v f hlen]
    rw [List.count_cons]
    by_cases hv : v = w
    · subst hv
      simp only [true_and, if_true, beq_self_eq_true, Option.getD_some]
      by_cases hc : ws.count v = 0
      · simp [hc]
      · have h1 : ¬ (ws.count v + 1 = 0) := by omega
        rw [if_neg hc, if_neg h1]
        congr 1
        push_cast
        ring
    · have hwv : (w == v) = false := by
        simpa using fun h : w = v => hv h.symm
      simp only [hv, false_and, if_false, hwv, Bool.false_eq_true, Nat.add_zero]

/-! ## Tidy files -/

theorem insert_sub_filenames (f : Str) (subs : List SubNode) :
    (insert_sub f subs).1.map SubNode.filename
      = if f ∈ subs.map SubNode.filename then subs.map SubNode.filename
        else subs.map SubNode.filename ++ [f] := by
  induction subs with
  | nil => simp [insert_sub, create_subNode]
  | cons x subs ih =>
    by_cases hx : x.filename = f
    · simp [insert_sub, hx]
    · have hfx : ¬ f = x.filename := fun h => hx h.symm
      simp only [insert_sub, hx, if_false, List.map_cons, ih, List.mem_cons, hfx, false_or]
      split_ifs <;> simp

theorem insert_sub_count_le (f : Str) (subs : List SubNode)
    (h : f ∈ subs.map SubNode.filename → (subs.map SubNode.filename).count f ≤ 1) :
    ((insert_sub f subs).1.map SubNode.filename).count f ≤ 1 := by
  rw [insert_sub_filenames]
  by_cases hf : f ∈ subs.map SubNode.filename
  · rw [if_pos hf]
    exact h hf
  · rw [if_neg hf, List.count_append, List.count_eq_zero.2 hf]
    simp

theorem tidy_absent (f : Str) (i : Nat) (seen : List Str) (b : List MainNode)
    (h : ∀ m ∈ b, f ∉ m.subLink.map SubNode.filename) : Tidy f i seen b := by
  induction b generalizing seen with
  | nil => trivial
  | cons x b ih =>
    exact ⟨fun hf => absurd hf (h x (by simp)), ih _ (fun m hm => h m (by simp [hm]))⟩

theorem tidy_insert_main (f w : Str) (i : Nat) (seen : List Str) (b : List MainNode)
    (hi : (get_word_index w).toNat = i) (hseen : w ∉ seen) (h : Tidy f i seen b) :
    Tidy f i seen (insert_main f w b) := by
  induction b generalizing seen with
  | nil =>
    refine ⟨fun _ => ⟨hi, hseen, ?_⟩, trivial⟩
    simp [create_subNode]
  | cons x b ih =>
    obtain ⟨hx, hrest⟩ := h
    by_cases hxw : x.word = w
    · simp only [insert_main, hxw, if_true]
      refine ⟨fun _ => ⟨hi, hseen, insert_sub_count_le f x.subLink (fun hf => (hx hf).2.2)⟩, ?_⟩
      simpa [hxw] using hrest
    · simp only [insert_main, hxw, if_false]
      refine ⟨hx, ih _ ?_ hrest⟩
      intro hmem
      rcases List.mem_cons.1 hmem with h1 | h1
      · exact hxw h1.symm
      · exact hseen h1

theorem sub_lookup_of_mem (f : Str) (n : Int) (subs : List SubNode)
    (hcount : (subs.map SubNode.filename).count f ≤ 1)
    (hmem : ({ filename := f, wordCount := n } : SubNode) ∈ subs) :
    sub_lookup f subs = some n := by
  induction subs with
  | nil => simp at hmem
  | cons x subs ih =>
    by_cases hx : x.filename = f
    · have hzero : (subs.map SubNode.filename).count f = 0 := by
        rw [List.map_cons, List.count_cons] at hcount
        simp only [hx, beq_self_eq_true, if_true] at hcount
        omega
      rcases List.mem_cons.1 hmem with h1 | h1
      · subst h1
        simp [sub_lookup]
      · have : f ∈ subs.map SubNode.filename := List.mem_map.2 ⟨_, h1, rfl⟩
        exact absurd this (List.count_eq_zero.1 hzero)
    · rcases List.mem_cons.1 hmem with h1 | h1
      · subst h1
        exact absurd rfl hx
      · have hc2 : (subs.map SubNode.filename).count f ≤ 1 := by
          rw [List.map_cons, List.count_cons] at hcount
          omega
        have := ih hc2 h1
        simp only [sub_lookup] at this ⊢
        simp only [List.find?_cons, hx, decide_False]
        exact this

theorem tidy_chain_lookup (f w : Str) (n : Int) (i : Nat) (seen : List Str) (b : List MainNode)
    (h : Tidy f i seen b) (m : MainNode) (hm : m ∈ b) (hw : m.word = w)
    (hs : ({ filename := f, wordCount := n } : SubNode) ∈ m.subLink) :
    (get_word_index w).toNat = i ∧ w ∉ seen ∧ chain_lookup w f b = some n := by
  induction b generalizing seen with
  | nil => simp at hm
  | cons x b ih =>
    obtain ⟨hx, hrest⟩ := h
    rcases List.mem_cons.1 hm with h1 | h1
    · subst h1
      have hf : f ∈ m.subLink.map SubNode.filename := List.mem_map.2 ⟨_, hs, rfl⟩
      obtain ⟨hb, hnot, hcount⟩ := hx hf
      rw [hw] at hb hnot
      refine ⟨hb, hnot, ?_⟩
      simp only [chain_lookup, List.find?_cons, hw, decide_True, Option.bind_some]
      exact sub_lookup_of_mem f n _ hcount hs
    · obtain ⟨hb, hnot, hlook⟩ := ih _ hrest h1
      have hxw : x.word ≠ w := fun heq => hnot (by simp [heq])
      refine ⟨hb, fun hmem => hnot (List.mem_cons_of_mem _ hmem), ?_⟩
      simp only [chain_lookup] at hlook ⊢
      simp only [List.find?_cons, hxw, decide_False]
      exact hlook

theorem mem_of_sub_lookup (f : Str) (n : Int) (subs : List SubNode)
    (h : sub_lookup f subs = some n) :
    ({ filename := f, wordCount := n } : SubNode) ∈ subs := by
  simp only [sub_lookup, Option.map_eq_some'] at h
  obtain ⟨s, hfind, hn⟩ := h
  have hmem := List.mem_of_find?_eq_some hfind
  have hname := List.find?_some hfind
  simp only [decide_eq_true_eq] at hname
  have : s = { filename := f, wordCount := n } := by
    cases s
    simp only [SubNode.mk.injEq]
    exact ⟨hname, hn⟩
  rw [← this]
  exact hmem

theorem mem_of_chain_lookup (w f : Str) (n : Int) (b : List MainNode)
    (h : chain_lookup w f b = some n) :
    ∃ m ∈ b, m.word = w ∧ ({ filename := f, wordCount := n } : SubNode) ∈ m.subLink := by
  simp only [chain_lookup, Option.bind_eq_some] at h
  obtain ⟨m, hfind, hsub⟩ := h
  have hword := List.find?_some hfind
  simp only [decide_eq_true_eq] at hword
  exact ⟨m, List.mem_of_find?_eq_some hfind, hword, mem_of_sub_lookup f n _ hsub⟩

/-- When file `f` is tidy in every bucket, the occurrences of `f` the table holds are
the ones an insertion finds. -/
theorem holds_iff_lookup (t : HashTable) (f w : Str) (n : Int)
    (h : ∀ i, Tidy f i [] (t.link i)) :
    holds t w f n ↔ lookup t w f = some n := by
  rw [holds_iff_link]
  constructor
  · rintro ⟨i, m, hm, hw, hs⟩
    obtain ⟨hb, _, hlook⟩ := tidy_chain_lookup f w n i [] _ (h i) m hm hw hs
    unfold lookup
    rw [hb]
    exact hlook
  · intro hlook
    exact ⟨_, mem_of_chain_lookup w f n _ hlook⟩

theorem tidy_insert (t : HashTable) (f w : Str) (h : ∀ i, Tidy f i [] (t.link i)) :
    ∀ i, Tidy f i [] ((hashTable_insert_last t f (get_word_index w) w).2.link i) := by
  intro i
  rw [hashTable_insert_last_in_range]
  by_cases hi : (get_word_index w).toNat = i
  · by_cases hlt : (get_word_index w).toNat < t.length
    · rw [← hi, link_set_self _ _ _ hlt]
      exact tidy_insert_main f w _ [] _ rfl (by simp) (h _)
    · rw [List.set_eq_of_length_le (by omega)]
      exact h i
  · rw [link_set_ne _ _ _ _ hi]
    exact h i

theorem tidy_insert_all (ws : List Str) (t : HashTable) (f : Str)
    (h : ∀ i, Tidy f i [] (t.link i)) :
    ∀ i, Tidy f i [] ((insert_all (ws.map (fun w => (f, w))) t).link i) := by
  induction ws generalizing t with
  | nil => exact h
  | cons w ws ih =>
    have hstep : insert_all ((w :: ws).map (fun w => (f, w))) t
        = insert_all (ws.map (fun w => (f, w)))
            (hashTable_insert_last t f (get_word_index w) w).2 := rfl
    rw [hstep]
    exact ih _ (tidy_insert t f w h)

theorem tidy_of_not_mem_table_files (t : HashTable) (f : Str) (h : f ∉ table_files t) :
    ∀ i, Tidy f i [] (t.link i) := by
  intro i
  apply tidy_absent
  intro m hm hf
  exact h ((mem_table_files t f).2 ⟨i, m, hm, hf⟩)

theorem lookup_none_of_not_mem_table_files (t : HashTable) (f w : Str) (h : f ∉ table_files t) :
    lookup t w f = none := by
  cases hl : lookup t w f with
  | none => rfl
  | some n =>
    obtain ⟨m, hm, _, hs⟩ := mem_of_chain_lookup w f n _ hl
    exact absurd ((mem_table_files t f).2 ⟨_, m, hm, List.mem_map.2 ⟨_, hs, rfl⟩⟩) h

/-! ## Update: restored counts and fresh counts -/

/-- C8 as stated fails on a pending file with a token longer than 19 bytes: `b.txt` holds
the single 20-byte token "aaaaaaaaaaaaaaaaaaaa", in which the word "a" occurs as a token
zero times, yet after the update the index holds the occurrence ("a", b.txt, 1), because
`fscanf("%19s")` delivers the token as two words. -/
theorem update_counts_split_long_token :
    update_database long_token_store [str "a.txt", str "b.txt"]
        (initialize_hashTable MAX_HASH_SIZE) (str "db.txt")
      = .ok ([str "b.txt"], long_token_updated) ∧
    update_database long_token_store [] (initialize_hashTable MAX_HASH_SIZE) (str "db.txt")
      = .ok ([], example_loaded) ∧
    tokens (str "aaaaaaaaaaaaaaaaaaaa") = [str "aaaaaaaaaaaaaaaaaaaa"] ∧
    (tokens (str "aaaaaaaaaaaaaaaaaaaa")).count (str "a") = 0 ∧
    holds long_token_updated (str "a") (str "b.txt") 1 := by
  decide

/-- C8, amended: let the snapshot alone load as the table `hs`, let `hs` hold file `a`
and not file `b`, with `a ≠ b`, and let `b` be readable with no white-space separated
token longer than 19 bytes.  Then `update_database` on the empty index with `[a, b]`
pending leaves `[b]` pending, the index holds an occurrence `(a, n)` under a word exactly
when `hs` does, and it holds an occurrence `(b, n)` under word `w` exactly when `n ≥ 1`
and `n` is the number of tokens of `b` equal to `w`, whether or not the snapshot has `w`. -/
theorem update_no_double_count (fs : FS) (backup a b : Str) (cb : List Nat)
    (fl' : FileList) (ht' hs : HashTable)
    (hab : a ≠ b) (hcb : fs b = some cb) (hshort : ∀ t ∈ tokens cb, t.length ≤ 19)
    (hrun : update_database fs [a, b] (initialize_hashTable MAX_HASH_SIZE) backup = .ok (fl', ht'))
    (hload : update_database fs [] (initialize_hashTable MAX_HASH_SIZE) backup = .ok ([], hs))
    (ha : a ∈ table_files hs) (hb : b ∉ table_files hs) :
    fl' = [b] ∧
    (∀ w n, holds ht' w a n ↔ holds hs w a n) ∧
    (∀ w n, holds ht' w b n ↔ 1 ≤ n ∧ n = (((tokens cb).count w : Nat) : Int)) := by
  obtain ⟨hs2, h1, h2, hlen, h3⟩ := update_database_pending fs [a, b]
    (initialize_hashTable MAX_HASH_SIZE) backup fl' ht' (by simp [hab]) hrun
  rw [hload] at h1
  simp only [Except.ok.injEq, Prod.mk.injEq, true_and] at h1
  subst h1
  have hfl : fl' = [b] := by
    rw [h2]
    simp [List.filter_cons, ha, hb]
  have hne : table_files hs ≠ [] := fun h => by
    rw [h] at ha
    simp at ha
  have hht := h3 hne rfl
  rw [hfl, create_database_eq] at hht
  have hops : doc_ops fs [b] = (tokens cb).map (fun w => (b, w)) := by
    simp only [doc_ops, List.flatMap_cons, List.flatMap_nil, List.append_nil, hcb]
    rw [scan_words_eq_tokens _ cb (by omega) hshort]
  rw [hops] at hht
  refine ⟨hfl, ?_, ?_⟩
  · intro w n
    rw [hht]
    apply holds_insert_all_other
    intro op hop
    obtain ⟨v, _, rfl⟩ := List.mem_map.1 hop
    exact fun h => hab h.symm
  · intro w n
    rw [hht, holds_iff_lookup _ b w n
      (tidy_insert_all _ hs b (tidy_of_not_mem_table_files hs b hb)),
      lookup_insert_all _ hs b w hlen, lookup_none_of_not_mem_table_files hs b w hb]
    by_cases hc : (tokens cb).count w = 0
    · rw [if_pos hc, hc]
      simp only [reduceCtorEq, false_iff, not_and]
      intro h1 h2
      rw [h2] at h1
      simp at h1
    · rw [if_neg hc]
      simp only [Option.getD_none, zero_add, Option.some.injEq]
      constructor
      · intro h
        rw [← h]
        exact ⟨by exact_mod_cast Nat.one_le_iff_ne_zero.2 hc, rfl⟩
      · rintro ⟨_, h⟩
        exact h.symm

theorem update_no_double_count_witness :
    [str "b.txt"] = [str "b.txt"] ∧
    (∀ w n, holds example_updated w (str "a.txt") n ↔ holds example_loaded w (str "a.txt") n) ∧
    (∀ w n, holds example_updated w (str "b.txt") n
      ↔ 1 ≤ n ∧ n = (((tokens (str "x y")).count w : Nat) : Int)) := by
  exact update_no_double_count example_store (str "db.txt") (str "a.txt") (str "b.txt") (str "x y")
    [str "b.txt"] example_updated example_loaded (by decide) (by decide) (by decide)
    (by decide) (by decide) (by decide) (by decide)

/-! ## The worked example -/

/-- C11: indexing `doc1.txt` = "Hello hello World" and `doc2.txt` = "World", in that
order, into the empty index returns SUCCESS and produces exactly three entries: bucket 7
holds "Hello" and then "hello", each with `fileCount` 1 and the occurrence (doc1.txt, 1);
bucket 22 holds "World" with `fileCount` 2 and occurrences (doc1.txt, 1), (doc2.txt, 1);
every other bucket is empty. -/
theorem worked_example :
    create_database example_docs [str "doc1.txt", str "doc2.txt"]
        (initialize_hashTable MAX_HASH_SIZE) = (SUCCESS, example_index) ∧
    example_index.length = 28 ∧
    example_index.link 7
      = [{ word := str "Hello", fileCount := 1,
           subLink := [{ filename := str "doc1.txt", wordCount := 1 }] },
         { word := str "hello", fileCount := 1,
           subLink := [{ filename := str "doc1.txt", wordCount := 1 }] }] ∧
    example_index.link 22
      = [{ word := str "World", fileCount := 2,
           subLink := [{ filename := str "doc1.txt", wordCount := 1 },
                       { filename := str "doc2.txt", wordCount := 1 }] }] ∧
    (∀ i, i < 28 → i ≠ 7 → i ≠ 22 → example_index.link i = []) ∧
    (example_index.map List.length).sum = 3 := by
  decide

theorem worked_example_witness : example_index.link 3 = [] := by
  exact worked_example.2.2.2.2.1 3 (by decide) (by decide) (by decide)

/-! ## Unreadable documents -/

theorem create_database_snd (fs : FS) (fl : FileList) (ht : HashTable) :
    (create_database fs fl ht).2 = fl.foldl (index_file fs) ht := by
  cases fl <;> rfl

theorem index_file_unreadable (fs : FS) (ht : HashTable) (f : Str) (h : fs f = none) :
    index_file fs ht f = ht := by
  simp [index_file, h]

theorem foldl_index_file_filter (fs : FS) (fl : FileList) (ht : HashTable) :
    fl.foldl (index_file fs) ht
      = (fl.filter (fun f => (fs f).isSome)).foldl (index_file fs) ht := by
  induction fl generalizing ht with
  | nil => rfl
  | cons f fl ih =>
    cases hf : fs f with
    | none =>
      rw [List.foldl_cons, index_file_unreadable fs ht f hf, ih,
        List.filter_cons_of_neg (by simp [hf])]
    | some c =>
      rw [List.filter_cons_of_pos (by simp [hf]), List.foldl_cons, List.foldl_cons, ih]

/-- C15: `create_database` processes the files in list order (indexing `l1 ++ l2` is
indexing `l1` and then `l2`), a file that cannot be opened leaves the index as it is, and
the index produced from a file list equals the index produced from the same list with
every unreadable file removed, from any starting index. -/
theorem create_database_skips_unreadable (fs : FS) (ht : HashTable) :
    (∀ fl : FileList, (create_database fs fl ht).2
      = (create_database fs (fl.filter (fun f => (fs f).isSome)) ht).2) ∧
    (∀ l1 l2 : FileList, (create_database fs (l1 ++ l2) ht).2
      = (create_database fs l2 (create_database fs l1 ht).2).2) ∧
    (∀ (l1 l2 : FileList) (f : Str), fs f = none →
      (create_database fs (l1 ++ f :: l2) ht).2 = (create_database fs (l1 ++ l2) ht).2) := by
  refine ⟨?_, ?_, ?_⟩
  · intro fl
    rw [create_database_snd, create_database_snd]
    exact foldl_index_file_filter fs fl ht
  · intro l1 l2
    simp only [create_database_snd, List.foldl_append]
  · intro l1 l2 f hf
    simp only [create_database_snd, List.foldl_append, List.foldl_cons,
      index_file_unreadable fs _ f hf]

theorem create_database_skips_unreadable_witness :
    (create_database example_docs [str "doc1.txt", str "gone.txt", str "doc2.txt"]
        (initialize_hashTable MAX_HASH_SIZE)).2
      = (create_database example_docs [str "doc1.txt", str "doc2.txt"]
        (initialize_hashTable MAX_HASH_SIZE)).2 := by
  exact (create_database_skips_unreadable example_docs (initialize_hashTable MAX_HASH_SIZE)).2.2
    [str "doc1.txt"] [str "doc2.txt"] (str "gone.txt") (by decide)

/-! ## The file list -/

theorem fileList_insert_last_step (f g x : Str) (rest : FileList) (hf : ¬ f = x) :
    fileList_insert_last (f :: g :: rest) x
      = ((fileList_insert_last (g :: rest) x).1, f :: (fileList_insert_last (g :: rest) x).2) := by
  conv_lhs => unfold fileList_insert_last
  simp only [hf, if_false]

theorem fileList_insert_last_mem (l : FileList) (x : Str) (h : x ∈ l) :
    fileList_insert_last l x = (DUPLICATE, l) := by
  induction l with
  | nil => simp at h
  | cons f rest ih =>
    by_cases hf : f = x
    · simp [fileList_insert_last, hf]
    · have hx : x ∈ rest := by
        rcases List.mem_cons.1 h with h1 | h1
        · exact absurd h1.symm hf
        · exact h1
      cases rest with
      | nil => simp at hx
      | cons g rest2 =>
        rw [fileList_insert_last_step f g x rest2 hf, ih hx]

theorem fileList_insert_last_not_mem (l : FileList) (x : Str) (h : x ∉ l) :
    fileList_insert_last l x = (SUCCESS, l ++ [x]) := by
  induction l with
  | nil => rfl
  | cons f rest ih =>
    have hf : ¬ f = x := fun heq => h (by simp [heq])
    have hx : x ∉ rest := fun hmem => h (List.mem_cons_of_mem _ hmem)
    cases rest with
    | nil => simp [fileList_insert_last, hf]
    | cons g rest2 =>
      rw [fileList_insert_last_step f g x rest2 hf, ih hx]
      rfl

theorem build_fileList_snoc (names : List Str) (x : Str) :
    build_fileList (names ++ [x]) = (fileList_insert_last (build_fileList names) x).2 := by
  simp [build_fileList, List.foldl_append]

theorem build_fileList_eq (names : List Str) : build_fileList names = first_seen names := by
  induction names using List.reverseRecOn with
  | nil => rfl
  | append_singleton names x ih =>
    rw [build_fileList_snoc, ih, first_seen_snoc]
    by_cases hx : x ∈ names
    · rw [if_pos hx, fileList_insert_last_mem _ x ((mem_first_seen names x).2 hx)]
    · rw [if_neg hx, fileList_insert_last_not_mem _ x (fun h => hx ((mem_first_seen names x).1 h))]

/-- C16: for every file list `L` (duplicate-free or not) and name `x`,
`fileList_insert_last` returns DUPLICATE and leaves `L` unchanged when `x` is in `L`, and
otherwise returns SUCCESS with the list `L` followed by `x`; so a duplicate-free list stays
duplicate-free, and a list built from the empty list by such calls has no repeated name
and holds the names in order of first insertion. -/
theorem fileList_insert_last_ordered_unique :
    (∀ (l : FileList) (x : Str), x ∈ l → fileList_insert_last l x = (DUPLICATE, l)) ∧
    (∀ (l : FileList) (x : Str), x ∉ l → fileList_insert_last l x = (SUCCESS, l ++ [x])) ∧
    (∀ (l : FileList) (x : Str), l.Nodup → (fileList_insert_last l x).2.Nodup) ∧
    (∀ names : List Str, (build_fileList names).Nodup ∧
      build_fileList names = first_seen names) := by
  refine ⟨fileList_insert_last_mem, fileList_insert_last_not_mem, ?_, ?_⟩
  · intro l x hnd
    by_cases hx : x ∈ l
    · rw [fileList_insert_last_mem l x hx]
      exact hnd
    · rw [fileList_insert_last_not_mem l x hx]
      exact List.nodup_append.2 ⟨hnd, by simp, by simpa using hx⟩
  · intro names
    rw [build_fileList_eq]
    exact ⟨nodup_first_seen names, rfl⟩

theorem fileList_insert_last_ordered_unique_witness :
    fileList_insert_last [str "a.txt", str "b.txt"] (str "a.txt")
        = (DUPLICATE, [str "a.txt", str "b.txt"]) ∧
    fileList_insert_last [str "a.txt", str "b.txt"] (str "c.txt")
        = (SUCCESS, [str "a.txt", str "b.txt"] ++ [str "c.txt"]) ∧
    (fileList_insert_last [str "a.txt", str "b.txt"] (str "c.txt")).2.Nodup := by
  exact ⟨fileList_insert_last_ordered_unique.1 _ _ (by decide),
    fileList_insert_last_ordered_unique.2.1 _ _ (by decide),
    fileList_insert_last_ordered_unique.2.2.1 _ _ (by decide)⟩

/-! ## Invariants of the index under insertion -/

theorem link_mem_of_lt (ht : HashTable) (i : Nat) (h : i < ht.length) : ht.link i ∈ ht := by
  simp only [HashTable.link, List.getD_eq_getElem?_getD, List.getElem?_eq_getElem h,
    Option.getD_some]
  exact List.getElem_mem h

/-- A property of chains that `insert_main` preserves, and that holds of every chain of a
table, holds of every chain after `hashTable_insert_last`. -/
theorem forall_chain_insert (Q : List MainNode → Prop) (ht : HashTable) (f w : Str)
    (index : Int) (hpres : ∀ b, Q b → Q (insert_main f w b)) (h : ∀ b ∈ ht, Q b) :
    ∀ b ∈ (hashTable_insert_last ht f index w).2, Q b := by
  unfold hashTable_insert_last
  split_ifs with hidx
  · exact h
  · intro b hb
    simp only at hb
    by_cases hlt : index.toNat < ht.length
    · rcases List.mem_or_eq_of_mem_set hb with h1 | h1
      · exact h b h1
      · rw [h1]
        exact hpres _ (h _ (link_mem_of_lt ht _ hlt))
    · rw [List.set_eq_of_length_le (by omega)] at hb
      exact h b hb

theorem forall_chain_insert_calls (Q : List MainNode → Prop) (calls : List (Str × Int × Str))
    (ht : HashTable) (hpres : ∀ f w b, Q b → Q (insert_main f w b)) (h : ∀ b ∈ ht, Q b) :
    ∀ b ∈ insert_calls calls ht, Q b := by
  induction calls generalizing ht with
  | nil => exact h
  | cons c calls ih =>
    have hstep : insert_calls (c :: calls) ht
        = insert_calls calls (hashTable_insert_last ht c.1 c.2.1 c.2.2).2 := rfl
    rw [hstep]
    exact ih _ (forall_chain_insert Q ht c.1 c.2.2 c.2.1 (hpres c.1 c.2.2) h)

theorem insert_all_eq_calls (ops : List (Str × Str)) (ht : HashTable) :
    insert_all ops ht
      = insert_calls (ops.map (fun op => (op.1, get_word_index op.2, op.2))) ht := by
  induction ops generalizing ht with
  | nil => rfl
  | cons op ops ih =>
    have h1 : insert_all (op :: ops) ht
        = insert_all ops (hashTable_insert_last ht op.1 (get_word_index op.2) op.2).2 := rfl
    rw [h1, ih]
    rfl

theorem forall_chain_create_database (Q : List MainNode → Prop) (fs : FS) (fl : FileList)
    (ht : HashTable) (hpres : ∀ f w b, Q b → Q (insert_main f w b)) (h : ∀ b ∈ ht, Q b) :
    ∀ b ∈ (create_database fs fl ht).2, Q b := by
  rw [create_database_eq, insert_all_eq_calls]
  exact forall_chain_insert_calls Q _ ht hpres h

theorem mem_insert_main (f w : Str) (b : List MainNode) (m' : MainNode)
    (h : m' ∈ insert_main f w b) :
    m' ∈ b ∨
    (∃ m ∈ b, m.word = w ∧
      m' = { word := m.word,
             fileCount := if (insert_sub f m.subLink).2 then m.fileCount + 1 else m.fileCount,
             subLink := (insert_sub f m.subLink).1 }) ∨
    m' = { word := w, fileCount := 1, subLink := [create_subNode f 1] } := by
  induction b with
  | nil =>
    right; right
    simpa [insert_main] using h
  | cons x b ih =>
    by_cases hx : x.word = w
    · simp only [insert_main, hx, if_true, List.mem_cons] at h
      rcases h with h1 | h1
      · right; left
        exact ⟨x, by simp, hx, by rw [h1, hx]⟩
      · left
        exact List.mem_cons_of_mem _ h1
    · simp only [insert_main, hx, if_false, List.mem_cons] at h
      rcases h with h1 | h1
      · left
        rw [h1]
        simp
      · rcases ih h1 with h2 | ⟨m, hm, hw, h2⟩ | h2
        · left
          exact List.mem_cons_of_mem _ h2
        · right; left
          exact ⟨m, List.mem_cons_of_mem _ hm, hw, h2⟩
        · right; right
          exact h2

theorem insert_main_words (f w : Str) (b : List MainNode) :
    (insert_main f w b).map MainNode.word
      = if w ∈ b.map MainNode.word then b.map MainNode.word else b.map MainNode.word ++ [w] := by
  induction b with
  | nil => simp [insert_main]
  | cons x b ih =>
    by_cases hx : x.word = w
    · simp [insert_main, hx]
    · have hwx : ¬ w = x.word := fun h => hx h.symm
      simp only [insert_main, hx, if_false, List.map_cons, ih, List.mem_cons, hwx, false_or]
      split_ifs <;> simp

theorem insert_sub_nodup (f : Str) (subs : List SubNode)
    (h : (subs.map SubNode.filename).Nodup) :
    ((insert_sub f subs).1.map SubNode.filename).Nodup := by
  rw [insert_sub_filenames]
  by_cases hf : f ∈ subs.map SubNode.filename
  · rw [if_pos hf]
    exact h
  · rw [if_neg hf]
    exact List.nodup_append.2 ⟨h, by simp, by simpa using hf⟩

theorem insert_sub_length (f : Str) (subs : List SubNode) :
    ((insert_sub f subs).1.length : Int)
      = (subs.length : Int) + if (insert_sub f subs).2 then 1 else 0 := by
  induction subs with
  | nil => simp [insert_sub]
  | cons x subs ih =>
    by_cases hx : x.filename = f
    · simp [insert_sub, hx]
    · simp only [insert_sub, hx, if_false, List.length_cons]
      push_cast
      rw [ih]
      ring

theorem insert_sub_counts (f : Str) (subs : List SubNode) (h : ∀ s ∈ subs, 1 ≤ s.wordCount) :
    ∀ s ∈ (insert_sub f subs).1, 1 ≤ s.wordCount := by
  induction subs with
  | nil =>
    intro s hs
    simp only [insert_sub, create_subNode, List.mem_singleton] at hs
    rw [hs]
  | cons x subs ih =>
    have hx1 : 1 ≤ x.wordCount := h x (by simp)
    by_cases hx : x.filename = f
    · intro s hs
      simp only [insert_sub, hx, if_true, List.mem_cons] at hs
      rcases hs with h1 | h1
      · rw [h1]
        simp only
        omega
      · exact h s (by simp [h1])
    · intro s hs
      simp only [insert_sub, hx, if_false, List.mem_cons] at hs
      rcases hs with h1 | h1
      · rw [h1]
        exact hx1
      · exact ih (fun y hy => h y (by simp [hy])) s h1

theorem unique_insert_main (f w : Str) (b : List MainNode)
    (h : (b.map MainNode.word).Nodup ∧ ∀ m ∈ b, (m.subLink.map SubNode.filename).Nodup) :
    ((insert_main f w b).map MainNode.word).Nodup ∧
      ∀ m ∈ insert_main f w b, (m.subLink.map SubNode.filename).Nodup := by
  constructor
  · rw [insert_main_words]
    by_cases hw : w ∈ b.map MainNode.word
    · rw [if_pos hw]
      exact h.1
    · rw [if_neg hw]
      exact List.nodup_append.2 ⟨h.1, by simp, by simpa using hw⟩
  · intro m' hm'
    rcases mem_insert_main f w b m' hm' with h1 | ⟨m, hm, _, h1⟩ | h1
    · exact h.2 m' h1
    · rw [h1]
      exact insert_sub_nodup f m.subLink (h.2 m hm)
    · rw [h1]
      simp

theorem counted_insert_main (f w : Str) (b : List MainNode)
    (h : ∀ m ∈ b, m.fileCount = (m.subLink.length : Int) ∧ 1 ≤ m.subLink.length ∧
      ∀ s ∈ m.subLink, 1 ≤ s.wordCount) :
    ∀ m ∈ insert_main f w b, m.fileCount = (m.subLink.length : Int) ∧ 1 ≤ m.subLink.length ∧
      ∀ s ∈ m.subLink, 1 ≤ s.wordCount := by
  intro m' hm'
  rcases mem_insert_main f w b m' hm' with h1 | ⟨m, hm, _, h1⟩ | h1
  · exact h m' h1
  · obtain ⟨hfc, hlen, hcnt⟩ := h m hm
    rw [h1]
    have hl := insert_sub_length f m.subLink
    refine ⟨?_, ?_, insert_sub_counts f m.subLink hcnt⟩
    · simp only
      rw [hl, hfc]
      split_ifs <;> simp
    · have : (1 : Int) ≤ ((insert_sub f m.subLink).1.length : Int) := by
        rw [hl]
        split_ifs <;> omega
      exact_mod_cast this
  · rw [h1]
    simp [create_subNode]

/-- C18: if in every bucket of an index the words are pairwise distinct and in every
entry the file names are pairwise distinct, the same holds after any call of
`hashTable_insert_last` (any file, index argument and word); hence it is preserved by
`create_database` and holds for every index built from the empty index by
`create_database`. -/
theorem uniqueness_invariant :
    (∀ (ht : HashTable) (f : Str) (index : Int) (w : Str),
      Unique ht → Unique (hashTable_insert_last ht f index w).2) ∧
    (∀ (fs : FS) (fl : FileList) (ht : HashTable),
      Unique ht → Unique (create_database fs fl ht).2) ∧
    (∀ (fs : FS) (fl : FileList),
      Unique (create_database fs fl (initialize_hashTable MAX_HASH_SIZE)).2) := by
  refine ⟨?_, ?_, ?_⟩
  · intro ht f index w h
    exact forall_chain_insert _ ht f w index (unique_insert_main f w) h
  · intro fs fl ht h
    exact forall_chain_create_database _ fs fl ht (fun f w => unique_insert_main f w) h
  · intro fs fl
    apply forall_chain_create_database _ fs fl _ (fun f w => unique_insert_main f w)
    intro b hb
    simp only [initialize_hashTable, List.mem_replicate] at hb
    rw [hb.2]
    simp

theorem uniqueness_invariant_witness :
    Unique (hashTable_insert_last example_index (str "doc3.txt") 7 (str "hello")).2 := by
  exact uniqueness_invariant.1 example_index (str "doc3.txt") 7 (str "hello") (by decide)

/-- C19: in every index built from the empty index by calls of `hashTable_insert_last`
(with any file, index argument and word; a call that fails changes nothing), each entry's
`fileCount` equals the length of its occurrence list, that list is not empty, and every
occurrence has a count of at least 1; the property is preserved by every such call. -/
theorem fileCount_invariant :
    (∀ calls : List (Str × Int × Str),
      Counted (insert_calls calls (initialize_hashTable MAX_HASH_SIZE))) ∧
    (∀ (ht : HashTable) (f : Str) (index : Int) (w : Str),
      Counted ht → Counted (hashTable_insert_last ht f index w).2) := by
  refine ⟨?_, ?_⟩
  · intro calls
    apply forall_chain_insert_calls _ calls _ (fun f w => counted_insert_main f w)
    intro b hb
    simp only [initialize_hashTable, List.mem_replicate] at hb
    rw [hb.2]
    simp
  · intro ht f index w h
    exact forall_chain_insert _ ht f w index (counted_insert_main f w) h

theorem fileCount_invariant_witness :
    Counted (hashTable_insert_last example_index (str "doc3.txt") 7 (str "hello")).2 := by
  exact fileCount_invariant.2 example_index (str "doc3.txt") 7 (str "hello") (by decide)

theorem classified_insert (ht : HashTable) (f w : Str) (h : Classified ht) :
    Classified (hashTable_insert_last ht f (get_word_index w) w).2 := by
  intro i m' hm'
  rw [hashTable_insert_last_in_range] at hm'
  by_cases hi : (get_word_index w).toNat = i
  · by_cases hlt : (get_word_index w).toNat < ht.length
    · rw [← hi, link_set_self _ _ _ hlt] at hm'
      rcases mem_insert_main f w _ m' hm' with h1 | ⟨m, _, hw, h1⟩ | h1
      · rw [← hi]
        exact h _ m' h1
      · rw [h1]
        simp only
        rw [hw, ← hi]
        have := get_word_index_nonneg w
        omega
      · rw [h1]
        simp only
        rw [← hi]
        have := get_word_index_nonneg w
        omega
    · rw [List.set_eq_of_length_le (by omega)] at hm'
      exact h i m' hm'
  · rw [link_set_ne _ _ _ _ hi] at hm'
    exact h i m' hm'

theorem classified_insert_all (ops : List (Str × Str)) (ht : HashTable) (h : Classified ht) :
    Classified (insert_all ops ht) := by
  induction ops generalizing ht with
  | nil => exact h
  | cons op ops ih =>
    have h1 : insert_all (op :: ops) ht
        = insert_all ops (hashTable_insert_last ht op.1 (get_word_index op.2) op.2).2 := rfl
    rw [h1]
    exact ih _ (classified_insert ht op.1 op.2 h)

theorem classified_empty (n : Nat) : Classified (initialize_hashTable n) := by
  intro i m hm
  have : (initialize_hashTable n).link i = [] := by
    simp only [HashTable.link, initialize_hashTable, List.getD_eq_getElem?_getD,
      List.getElem?_replicate]
    split_ifs <;> rfl
  rw [this] at hm
  simp at hm

/-- C20: in every index built from the empty index by `create_database`, every entry
stored in bucket `i` has `get_word_index(word) == i`; more generally `create_database`
preserves that property of an index. -/
theorem bucket_invariant_indexing :
    (∀ (fs : FS) (fl : FileList),
      Classified (create_database fs fl (initialize_hashTable MAX_HASH_SIZE)).2) ∧
    (∀ (fs : FS) (fl : FileList) (ht : HashTable),
      Classified ht → Classified (create_database fs fl ht).2) := by
  refine ⟨?_, ?_⟩
  · intro fs fl
    rw [create_database_eq]
    exact classified_insert_all _ _ (classified_empty _)
  · intro fs fl ht h
    rw [create_database_eq]
    exact classified_insert_all _ _ h

theorem bucket_invariant_indexing_witness :
    ∀ m ∈ (create_database example_docs [str "doc1.txt"] example_index).2.link 7,
      get_word_index m.word = 7 := by
  have hcl : Classified example_index := by
    intro i m hm
    by_cases h7 : i = 7
    · subst h7
      have hm2 : m ∈ example_index.link 7 := hm
      have : example_index.link 7 = [⟨str "Hello", 1, [⟨str "doc1.txt", 1⟩]⟩,
          ⟨str "hello", 1, [⟨str "doc1.txt", 1⟩]⟩] := by decide
      rw [this] at hm2
      simp only [List.mem_cons, List.mem_singleton, List.not_mem_nil, or_false] at hm2
      rcases hm2 with rfl | rfl <;> decide
    · by_cases h22 : i = 22
      · subst h22
        have : example_index.link 22 = [⟨str "World", 2, [⟨str "doc1.txt", 1⟩,
            ⟨str "doc2.txt", 1⟩]⟩] := by decide
        rw [this] at hm
        simp only [List.mem_singleton] at hm
        rw [hm]
        decide
      · by_cases hlt : i < 28
        · have : ∀ j, j < 28 → j ≠ 7 → j ≠ 22 → example_index.link j = [] := by decide
          rw [this i hlt h7 h22] at hm
          simp at hm
        · rw [link_eq_nil_of_le _ _ (by
            have : example_index.length = 28 := by decide
            omega)] at hm
          simp at hm
  intro m hm
  exact (bucket_invariant_indexing.2 example_docs [str "doc1.txt"] example_index hcl) 7 m hm

/-! ## The layout of a snapshot -/

theorem digitChar_toNat : ∀ k, k < 10 → (Nat.digitChar k).toNat = 48 + k := by
  decide

theorem decimalAux_eq_toDigitsCore (fuel n : Nat) (acc : List Char) :
    decimalAux fuel n (acc.map Char.toNat)
      = (Nat.toDigitsCore 10 fuel n acc).map Char.toNat := by
  induction fuel generalizing n acc with
  | zero => rfl
  | succ k ih =>
    have hd := digitChar_toNat (n % 10) (Nat.mod_lt n (by decide))
    simp only [decimalAux, Nat.toDigitsCore]
    by_cases hq : n / 10 = 0
    · simp [hq, hd]
    · simp only [hq, if_false]
      rw [← ih]
      simp [hd]

/-- The conversion `%d` writes a number as Lean prints it in decimal. -/
theorem print_d_eq_toString (n : Int) : print_d n = str (toString n) := by
  cases n with
  | ofNat k =>
    have h := decimalAux_eq_toDigitsCore (k + 1) k []
    simp only [List.map_nil] at h
    have hneg : ¬ (Int.ofNat k < 0) := by
      simp
    simp only [print_d, hneg, if_false]
    have hk : (Int.ofNat k).natAbs = k := rfl
    rw [hk, h]
    rfl
  | negSucc k =>
    have h := decimalAux_eq_toDigitsCore (k + 1 + 1) (k + 1) []
    simp only [List.map_nil] at h
    have hneg : Int.negSucc k < 0 := Int.negSucc_lt_zero k
    simp only [print_d, hneg, if_true]
    have hk : (Int.negSucc k).natAbs = k + 1 := rfl
    rw [hk, h]
    rfl

theorem walk_subs_take (n : Nat) (subs : List SubNode) (h : n ≤ subs.length) :
    walk_subs n subs = .ok (subs.take n) := by
  induction n generalizing subs with
  | zero => rfl
  | succ k ih =>
    cases subs with
    | nil => simp at h
    | cons x subs =>
      simp only [walk_subs, ih subs (by simpa using h)]
      rfl

theorem save_subs_eq (subs : List SubNode) : save_subs subs = subs.flatMap pair_text := by
  induction subs with
  | nil => rfl
  | cons x subs ih => simp [save_subs, pair_text, List.flatMap_cons, ih]

theorem save_main_take (i : Nat) (m : MainNode) (h : m.fileCount.toNat ≤ m.subLink.length) :
    save_main i m
      = .ok (record_layout i { m with subLink := m.subLink.take m.fileCount.toNat }) := by
  simp only [save_main, walk_subs_take _ _ h, save_subs_eq]
  rfl

theorem save_bucket_take (i : Nat) (b : List MainNode)
    (h : ∀ m ∈ b, m.fileCount.toNat ≤ m.subLink.length) :
    save_bucket i b = .ok (b.flatMap (fun m =>
      record_layout i { m with subLink := m.subLink.take m.fileCount.toNat })) := by
  induction b with
  | nil => rfl
  | cons m b ih =>
    simp only [save_bucket, save_main_take i m (h m (by simp)),
      ih (fun x hx => h x (by simp [hx])), List.flatMap_cons]

theorem save_buckets_take (ht : HashTable) (i n : Nat)
    (h : ∀ k, ∀ m ∈ ht.link k, m.fileCount.toNat ≤ m.subLink.length) :
    save_buckets ht i n = .ok ((List.range' i n).flatMap (fun k => (ht.link k).flatMap (fun m =>
      record_layout k { m with subLink := m.subLink.take m.fileCount.toNat }))) := by
  induction n generalizing i with
  | zero => rfl
  | succ n ih =>
    simp only [save_buckets, save_bucket_take i _ (h i), ih (i + 1), List.range'_succ,
      List.flatMap_cons]

theorem save_text_take (ht : HashTable)
    (h : ∀ k, ∀ m ∈ ht.link k, m.fileCount.toNat ≤ m.subLink.length) :
    save_text ht = .ok (header_line ++ (List.range MAX_HASH_SIZE).flatMap (fun k =>
      (ht.link k).flatMap (fun m =>
        record_layout k { m with subLink := m.subLink.take m.fileCount.toNat }))) := by
  simp only [save_text, save_buckets_take ht 0 MAX_HASH_SIZE h]
  rw [List.range_eq_range']

/-- C13: for every index in which each entry's `fileCount` is the number of its
occurrences, the text `save_database` writes is the header line followed by one record
per entry, buckets in increasing order 0..27 and entries in list order within a bucket;
the record of an entry of bucket `b` with word `w`, `fileCount` `n` and occurrences
`(f_1, c_1) .. (f_n, c_n)` is `#b;w;n;f_1;c_1;...;f_n;c_n;#\n` with the pairs in stored
order, and the numbers are written in decimal. -/
theorem save_text_layout (ht : HashTable)
    (h : ∀ k, ∀ m ∈ ht.link k, m.fileCount = (m.subLink.length : Int)) :
    save_text ht = .ok (header_line ++ (List.range 28).flatMap (fun b =>
      (ht.link b).flatMap (fun m =>
        [35] ++ str (toString b) ++ [59] ++ m.word ++ [59] ++ str (toString m.fileCount) ++ [59]
          ++ m.subLink.flatMap (fun s => s.filename ++ [59] ++ str (toString s.wordCount) ++ [59])
          ++ [35, 10]))) ∧
    header_line = str "#Index;Word;FileCount;FileName;wordCount;#\n" := by
  refine ⟨?_, rfl⟩
  have hle : ∀ k, ∀ m ∈ ht.link k, m.fileCount.toNat ≤ m.subLink.length := by
    intro k m hm
    rw [h k m hm]
    simp
  rw [save_text_take ht hle]
  congr 2
  apply List.flatMap_congr
  intro k _
  apply List.flatMap_congr
  intro m hm
  have htake : m.subLink.take m.fileCount.toNat = m.subLink := by
    rw [h k m hm]
    simp
  simp only [record_layout, htake, print_d_eq_toString]
  have hk : str (toString ((k : Nat) : Int)) = str (toString k) := rfl
  rw [hk]
  congr 2
  apply List.flatMap_congr
  intro s _
  simp only [pair_text, print_d_eq_toString]

theorem save_text_layout_witness :
    save_text example_index = .ok (header_line ++
      str "#7;Hello;1;doc1.txt;1;#\n#7;hello;1;doc1.txt;1;#\n#22;World;2;doc1.txt;1;doc2.txt;1;#\n") := by
  have h := (save_text_layout example_index (by
    intro k m hm
    have hc : Counted example_index := by decide
    have hlt := lt_length_of_mem_link example_index k m hm
    exact (hc _ (link_mem_of_lt example_index k hlt) m hm).1)).1
  rw [h]
  decide

/-! ## Every snapshot written passes the checks of the loader -/

theorem save_main_tail (i : Nat) (m : MainNode) (t : List Nat) (h : save_main i m = .ok t) :
    ∃ pre, t = pre ++ [35, 10] := by
  unfold save_main at h
  cases hw : walk_subs m.fileCount.toNat m.subLink with
  | error e =>
    rw [hw] at h
    cases h
  | ok visited =>
    rw [hw] at h
    simp only [Except.ok.injEq] at h
    exact ⟨_, h.symm⟩

theorem save_bucket_tail (i : Nat) (b : List MainNode) (t : List Nat)
    (h : save_bucket i b = .ok t) : t = [] ∨ ∃ pre, t = pre ++ [35, 10] := by
  induction b generalizing t with
  | nil =>
    left
    simp only [save_bucket, Except.ok.injEq] at h
    exact h.symm
  | cons m b ih =>
    simp only [save_bucket] at h
    cases hm : save_main i m with
    | error e =>
      rw [hm] at h
      cases h
    | ok t1 =>
      rw [hm] at h
      simp only at h
      cases hb : save_bucket i b with
      | error e =>
        rw [hb] at h
        cases h
      | ok t2 =>
        rw [hb] at h
        simp only [Except.ok.injEq] at h
        right
        rcases ih t2 hb with h2 | ⟨pre, h2⟩
        · obtain ⟨pre, h1⟩ := save_main_tail i m t1 hm
          exact ⟨pre, by rw [← h, h2, h1, List.append_nil]⟩
        · exact ⟨t1 ++ pre, by rw [← h, h2, List.append_assoc]⟩

theorem save_buckets_tail (ht : HashTable) (i n : Nat) (t : List Nat)
    (h : save_buckets ht i n = .ok t) : t = [] ∨ ∃ pre, t = pre ++ [35, 10] := by
  induction n generalizing i t with
  | zero =>
    left
    simp only [save_buckets, Except.ok.injEq] at h
    exact h.symm
  | succ n ih =>
    simp only [save_buckets] at h
    cases hb : save_bucket i (ht.link i) with
    | error e =>
      rw [hb] at h
      cases h
    | ok t1 =>
      rw [hb] at h
      simp only at h
      cases hr : save_buckets ht (i + 1) n with
      | error e =>
        rw [hr] at h
        cases h
      | ok t2 =>
        rw [hr] at h
        simp only [Except.ok.injEq] at h
        rcases ih (i + 1) t2 hr with h2 | ⟨pre, h2⟩
        · rcases save_bucket_tail i _ t1 hb with h1 | ⟨pre, h1⟩
          · left
            rw [← h, h1, h2]
            rfl
          · right
            exact ⟨pre, by rw [← h, h2, h1, List.append_nil]⟩
        · right
          exact ⟨t1 ++ pre, by rw [← h, h2, List.append_assoc]⟩

theorem valid_database_of_ends (text : List Nat) (hhead : text.head? = some 35)
    (htail : ∃ pre, text = pre ++ [35, 10]) : valid_database text = SUCCESS := by
  obtain ⟨pre, hpre⟩ := htail
  have hget := get?_two_before_end pre
  rw [← hpre] at hget
  have hlen : ¬ text.length < 2 := by
    rw [hpre]
    simp
  unfold valid_database
  rw [if_neg (fun h => h hhead), if_neg hlen, if_neg (fun h => h hget)]

theorem save_text_ends (ht : HashTable) (text : List Nat) (h : save_text ht = .ok text) :
    text.head? = some 35 ∧ ∃ pre, text = pre ++ [35, 10] := by
  unfold save_text at h
  cases hb : save_buckets ht 0 MAX_HASH_SIZE with
  | error e =>
    rw [hb] at h
    cases h
  | ok t =>
    rw [hb] at h
    simp only [Except.ok.injEq] at h
    have hh : header_line = 35 :: header_line.tail := by decide
    constructor
    · rw [← h, hh]
      rfl
    · rcases save_buckets_tail ht 0 MAX_HASH_SIZE t hb with h1 | ⟨pre, h1⟩
      · refine ⟨str "#Index;Word;FileCount;FileName;wordCount;", ?_⟩
        rw [← h, h1, List.append_nil]
        decide
      · exact ⟨header_line ++ pre, by rw [← h, h1, List.append_assoc]⟩

/-- C14: for every index, the text `save_database` writes is not empty, its first byte is
`#`, its last two bytes are `#` and newline, and `valid_database` returns SUCCESS on it.
The text exists whenever no `fileCount` exceeds the length of its occurrence list; for the
empty index it is the header line alone. -/
theorem saved_snapshot_is_valid :
    (∀ (ht : HashTable) (text : List Nat), save_text ht = .ok text →
      text ≠ [] ∧ text.head? = some 35 ∧ text.drop (text.length - 2) = [35, 10] ∧
      valid_database text = SUCCESS) ∧
    (∀ ht : HashTable, (∀ k, ∀ m ∈ ht.link k, m.fileCount.toNat ≤ m.subLink.length) →
      ∃ text, save_text ht = .ok text) ∧
    save_text (initialize_hashTable MAX_HASH_SIZE) = .ok header_line := by
  refine ⟨?_, ?_, by decide⟩
  · intro ht text h
    obtain ⟨hhead, pre, hpre⟩ := save_text_ends ht text h
    refine ⟨?_, hhead, ?_, valid_database_of_ends text hhead ⟨pre, hpre⟩⟩
    · rw [hpre]
      simp
    · rw [hpre]
      have : (pre ++ [35, 10]).length - 2 = pre.length := by simp
      rw [this, List.drop_left]
  · intro ht h
    exact ⟨_, save_text_take ht h⟩

theorem saved_snapshot_is_valid_witness :
    valid_database (header_line ++
      str "#7;Hello;1;doc1.txt;1;#\n#7;hello;1;doc1.txt;1;#\n#22;World;2;doc1.txt;1;doc2.txt;1;#\n")
      = SUCCESS := by
  exact (saved_snapshot_is_valid.1 example_index _ (by decide)).2.2.2

/-! ## Tokens longer than a word -/

theorem pieces_fuel (n k1 k2 : Nat) (t : Str) (h1 : t.length ≤ k1) (h2 : t.length ≤ k2) :
    pieces (n + 1) k1 t = pieces (n + 1) k2 t := by
  induction k1 generalizing k2 t with
  | zero =>
    have : t = [] := List.length_eq_zero.1 (by omega)
    subst this
    cases k2 <;> simp [pieces]
  | succ k ih =>
    cases t with
    | nil => cases k2 <;> simp [pieces]
    | cons c t =>
      cases k2 with
      | zero => simp at h2
      | succ k2 =>
        simp only [pieces, reduceCtorEq, if_false]
        have hlen : ((c :: t).drop (n + 1)).length ≤ t.length := by
          simp [List.length_drop]
        simp only [List.length_cons] at h1 h2
        rw [ih k2 _ (by omega) (by omega)]

theorem pieces_flatten (n k : Nat) (t : Str) (h : t.length ≤ k) :
    (pieces (n + 1) k t).flatten = t := by
  induction k generalizing t with
  | zero =>
    have : t = [] := List.length_eq_zero.1 (by omega)
    subst this
    rfl
  | succ k ih =>
    by_cases hne : t = []
    · subst hne
      simp [pieces]
    · simp only [pieces, hne, if_false, List.flatten_cons]
      rw [ih _ (by
        rw [List.length_drop]
        have := List.length_pos.2 hne
        omega), List.take_append_drop]

theorem token_words_short (t : Str) (hne : t ≠ []) (h : t.length ≤ 19) : token_words t = [t] := by
  obtain ⟨c, r, rfl⟩ := List.exists_cons_of_ne_nil hne
  have htake : (c :: r).take 19 = c :: r := List.take_of_length_le h
  have hdrop : (c :: r).drop 19 = [] := List.drop_of_length_le h
  simp only [token_words, MAX_WORD_LENGTH, List.length_cons, pieces, reduceCtorEq, if_false]
  rw [htake, hdrop]
  cases r.length <;> simp [pieces]

theorem scan_word_dropWhile (s : List Nat) : scan_word (s.dropWhile isspace) = scan_word s := by
  have h : (s.dropWhile isspace).dropWhile isspace = s.dropWhile isspace := by
    induction s with
    | nil => rfl
    | cons c s ih =>
      by_cases hc : isspace c = true
      · simp only [List.dropWhile_cons_of_pos hc, ih]
      · simp only [List.dropWhile_cons_of_neg hc]
  unfold scan_word
  simp only [h]

theorem takeWhile_token (t r : List Nat) (ht : ∀ c ∈ t, isspace c = false)
    (hr : ∀ c ∈ r.head?, isspace c = true) :
    (t ++ r).takeWhile (fun c => !isspace c) = t ∧
      (t ++ r).dropWhile (fun c => !isspace c) = r := by
  cases r with
  | nil =>
    simp only [List.append_nil]
    constructor
    · rw [List.takeWhile_eq_self_iff]
      intro c hc
      simp [ht c hc]
    · rw [List.dropWhile_eq_nil_iff]
      intro c hc
      simp [ht c hc]
  | cons d r =>
    have hd : isspace d = true := hr d (by simp)
    exact takeWhile_append_stop (fun c => !isspace c) t d r
      (by
        intro c hc
        simp [ht c hc])
      (by simp [hd])

theorem scan_word_token (t r : List Nat) (hne : t ≠ []) (ht : ∀ c ∈ t, isspace c = false)
    (hr : ∀ c ∈ r.head?, isspace c = true) :
    scan_word (t ++ r) = some (t.take 19, t.drop 19 ++ r) := by
  obtain ⟨c, t2, rfl⟩ := List.exists_cons_of_ne_nil hne
  have hc : isspace c = false := ht c (by simp)
  have hdw : ((c :: t2) ++ r).dropWhile isspace = (c :: t2) ++ r := by
    simp [List.dropWhile, hc]
  have htw := takeWhile_token (c :: t2) r ht hr
  unfold scan_word
  simp only [hdw, htw.1, MAX_WORD_LENGTH]
  have hne2 : (c :: t2).take (20 - 1) ≠ [] := by simp
  rw [if_neg hne2]
  have hlen : ((c :: t2).take (20 - 1)).length = min 19 (c :: t2).length := by
    rw [List.length_take]
  have hdrop : ((c :: t2) ++ r).drop (min 19 (c :: t2).length) = (c :: t2).drop 19 ++ r := by
    rw [List.drop_append_of_le_length (Nat.min_le_right _ _)]
    congr 1
    by_cases h19 : 19 ≤ (c :: t2).length
    · rw [Nat.min_eq_left h19]
    · rw [Nat.min_eq_right (by omega), List.drop_of_length_le (le_refl _),
        List.drop_of_length_le (by omega)]
  rw [hlen, hdrop]

theorem scan_words_token (k : Nat) (t r : List Nat) (fuel : Nat) (hk : t.length ≤ k)
    (ht : ∀ c ∈ t, isspace c = false) (hr : ∀ c ∈ r.head?, isspace c = true)
    (hfuel : (t ++ r).length < fuel) :
    scan_words fuel (t ++ r) = pieces 19 k t ++ scan_words (r.length + 1) r := by
  induction k generalizing t fuel with
  | zero =>
    have : t = [] := List.length_eq_zero.1 (by omega)
    subst this
    simp only [List.nil_append, pieces] at hfuel ⊢
    exact scan_words_fuel _ _ r hfuel (by omega)
  | succ k ih =>
    by_cases hne : t = []
    · subst hne
      simp only [List.nil_append, pieces, if_true] at hfuel ⊢
      exact scan_words_fuel _ _ r hfuel (by omega)
    · cases fuel with
      | zero => omega
      | succ n =>
        simp only [scan_words, scan_word_token t r hne ht hr, pieces, hne, if_false,
          List.cons_append]
        congr 1
        have hlen : (t.drop 19).length ≤ k := by
          rw [List.length_drop]
          have := List.length_pos.2 hne
          omega
        apply ih (t.drop 19) n hlen (fun c hc => ht c (List.mem_of_mem_drop hc))
        rw [List.length_append] at hfuel ⊢
        rw [List.length_drop]
        have := List.length_pos.2 hne
        omega

/-- The word loop delivers every white-space separated token as its successive 19-byte
pieces. -/
theorem scan_words_eq_pieces (fuel : Nat) (s : List Nat) (hfuel : s.length < fuel) :
    scan_words fuel s = (tokens s).flatMap token_words := by
  induction fuel using Nat.strong_induction_on generalizing s with
  | _ fuel ih =>
    cases fuel with
    | zero => omega
    | succ n =>
      have hle : (s.dropWhile isspace).length ≤ s.length := (List.dropWhile_sublist _).length_le
      have hstart : scan_words (n + 1) s = scan_words (n + 1) (s.dropWhile isspace) := by
        simp only [scan_words, scan_word_dropWhile]
      rw [hstart, ← tokens_dropWhile_space s]
      cases hs1 : s.dropWhile isspace with
      | nil => simp [scan_words, scan_word, tokens_nil]
      | cons c r =>
        have hc : isspace c = false := dropWhile_head_not _ _ _ _ hs1
        rw [hs1] at hle
        have hsplit := List.takeWhile_append_dropWhile (fun d => !isspace d) (c :: r)
        have ht : ∀ d ∈ (c :: r).takeWhile (fun d => !isspace d), isspace d = false := by
          intro d hd
          have := List.mem_takeWhile_imp hd
          simpa using this
        have hr : ∀ d ∈ ((c :: r).dropWhile (fun d => !isspace d)).head?, isspace d = true := by
          intro d hd
          cases hdw : (c :: r).dropWhile (fun d => !isspace d) with
          | nil => simp [hdw] at hd
          | cons e r2 =>
            rw [hdw] at hd
            simp only [List.head?_cons, Option.mem_def, Option.some.injEq] at hd
            subst hd
            have := dropWhile_head_not _ _ _ _ hdw
            simpa using this
        have hne : (c :: r).takeWhile (fun d => !isspace d) ≠ [] := by
          simp [List.takeWhile, hc]
        rw [tokens_nonspace c r hc, List.flatMap_cons]
        have hmain := scan_words_token _ _ _ (n + 1) (le_refl _) ht hr
          (by rw [hsplit]; omega)
        rw [hsplit] at hmain
        rw [hmain]
        congr 1
        have hshort : ((c :: r).dropWhile (fun d => !isspace d)).length < (c :: r).length := by
          have h1 := congrArg List.length hsplit
          rw [List.length_append] at h1
          have := List.length_pos.2 hne
          omega
        exact ih _ (by omega) _ (by omega)

/-- C17 as stated fails: the document `long.txt` holds the single 20-byte token
"aaaaaaaaaaaaaaaaaaaa"; `create_database` indexes its first 19 bytes as one word and then
its 20th byte as a second word "a", with its own entry and count. -/
theorem long_token_gives_second_word :
    tokens (str "aaaaaaaaaaaaaaaaaaaa") = [str "aaaaaaaaaaaaaaaaaaaa"] ∧
    create_database long_docs [str "long.txt"] (initialize_hashTable MAX_HASH_SIZE)
      = (SUCCESS, (initialize_hashTable MAX_HASH_SIZE).set 0
          [{ word := str "aaaaaaaaaaaaaaaaaaa", fileCount := 1,
             subLink := [{ filename := str "long.txt", wordCount := 1 }] },
           { word := str "a", fileCount := 1,
             subLink := [{ filename := str "long.txt", wordCount := 1 }] }]) := by
  decide

/-- C17, amended: for every readable document, `create_database` inserts, in order, for
each white-space separated token its successive pieces of 19 bytes: a token of at most 19
bytes is inserted whole as one word, and a longer token is inserted as its first 19 bytes
followed by further words made of the bytes beyond the 19th, 19 bytes at a time. -/
theorem oversized_tokens_are_split (fs : FS) (ht : HashTable) (f : Str) (content : List Nat)
    (hread : fs f = some content) :
    index_file fs ht f
      = insert_all (((tokens content).flatMap token_words).map (fun w => (f, w))) ht ∧
    (∀ t ∈ tokens content, t ≠ [] ∧
      (t.length ≤ 19 → token_words t = [t]) ∧
      (19 < t.length → ∃ more, more ≠ [] ∧ token_words t = t.take 19 :: more ∧
        more.flatten = t.drop 19)) := by
  constructor
  · simp only [index_file, hread]
    rw [scan_words_eq_pieces _ content (by omega)]
    exact foldl_index_word f _ ht
  · intro t ht
    have hne : t ≠ [] := by
      simp only [tokens, List.mem_filter, decide_eq_true_eq] at ht
      exact ht.2
    refine ⟨hne, token_words_short t hne, ?_⟩
    intro hlong
    have hlen : t.length = (t.length - 1) + 1 := by omega
    refine ⟨pieces 19 (t.length - 1) (t.drop 19), ?_, ?_, ?_⟩
    · have hd : t.drop 19 ≠ [] := by
        intro h
        have := congrArg List.length h
        simp only [List.length_drop, List.length_nil] at this
        omega
      have hk : t.length - 1 = (t.length - 2) + 1 := by omega
      rw [hk]
      simp [pieces, hd]
    · unfold token_words MAX_WORD_LENGTH
      rw [hlen]
      simp only [pieces, hne, if_false]
      rfl
    · exact pieces_flatten 18 _ _ (by
        rw [List.length_drop]
        omega)

theorem oversized_tokens_are_split_witness :
    index_file long_docs (initialize_hashTable MAX_HASH_SIZE) (str "long.txt")
      = insert_all
          (((tokens (str "aaaaaaaaaaaaaaaaaaaa")).flatMap token_words).map
            (fun w => (str "long.txt", w)))
          (initialize_hashTable MAX_HASH_SIZE) := by
  exact (oversized_tokens_are_split long_docs (initialize_hashTable MAX_HASH_SIZE)
    (str "long.txt") (str "aaaaaaaaaaaaaaaaaaaa") (by decide)).1

/-! ## Records that do not have the announced pairs -/

/-- C12 fails on the code: the loader checks the result of the header scan only.  In
`malformed_store` the first record announces two pairs and its second pair has no count;
the loader links the entry "x" all the same, gives the second occurrence the count of the
first, and goes on to load the record that follows.  In `surplus_store` the only record
holds more pairs than it announces; its entry is linked with the first pair.  In both
cases the pending file list loses the files named in the malformed record. -/
theorem malformed_record_is_loaded :
    valid_database (header_line ++ str "#23;x;2;a.txt;1;b.txt;#\n#24;y;1;b.txt;1;#\n") = SUCCESS ∧
    update_database malformed_store [str "a.txt", str "b.txt"]
        (initialize_hashTable MAX_HASH_SIZE) (str "db.txt")
      = .ok ([], ((initialize_hashTable MAX_HASH_SIZE).set 23
          [{ word := str "x", fileCount := 2,
             subLink := [{ filename := str "a.txt", wordCount := 1 },
                         { filename := str "b.txt", wordCount := 1 }] }]).set 24
          [{ word := str "y", fileCount := 1,
             subLink := [{ filename := str "b.txt", wordCount := 1 }] }]) ∧
    update_database surplus_store [str "a.txt"]
        (initialize_hashTable MAX_HASH_SIZE) (str "db.txt")
      = .ok ([], (initialize_hashTable MAX_HASH_SIZE).set 23
          [{ word := str "x", fileCount := 1,
             subLink := [{ filename := str "a.txt", wordCount := 2 }] }]) := by
  decide

/-! ## Unlinking a name from the file list -/

theorem delete_duplicate_absent (l : FileList) (x : Str) (h : x ∉ l) :
    delete_duplicate l x = (FAILURE, l) := by
  induction l with
  | nil => rfl
  | cons f l ih =>
    have hf : ¬ f = x := fun e => h (by simp [e])
    have hl : x ∉ l := fun e => h (by simp [e])
    simp only [delete_duplicate, hf, if_false, ih hl]

theorem delete_duplicate_split (pre post : FileList) (x : Str) (h : x ∉ pre) :
    delete_duplicate (pre ++ x :: post) x = (SUCCESS, pre ++ post) := by
  induction pre with
  | nil => simp [delete_duplicate]
  | cons f pre ih =>
    have hf : ¬ f = x := fun e => h (by simp [e])
    have hl : x ∉ pre := fun e => h (by simp [e])
    show delete_duplicate (f :: (pre ++ x :: post)) x = _
    rw [delete_duplicate]
    simp only [hf, if_false, ih hl]
    rfl

theorem delete_duplicate_erase (l : FileList) (x : Str) :
    (delete_duplicate l x).2 = l.erase x := by
  induction l with
  | nil => rfl
  | cons f l ih =>
    by_cases hf : f = x
    · simp [delete_duplicate, hf]
    · have hne : (f == x) = false := by simpa using hf
      simp only [delete_duplicate, hf, if_false, ih, List.erase_cons, hne]
      rfl

/-- C23: for every file list `l` and file name `x`, `delete_duplicate` returns SUCCESS
exactly when `x` occurs in `l`.  When `x` occurs, `l` is `pre ++ x :: post` with `x` not in
`pre`, and the list afterwards is `pre ++ post`: the first occurrence is unlinked and the
other entries keep their order (it is `l.erase x`).  When `x` does not occur the call
returns FAILURE and the list is `l`. -/
theorem delete_duplicate_removes_first (l : FileList) (x : Str) :
    ((delete_duplicate l x).1 = SUCCESS ↔ x ∈ l) ∧
    (x ∈ l → ∃ pre post, l = pre ++ x :: post ∧ x ∉ pre ∧
      delete_duplicate l x = (SUCCESS, pre ++ post)) ∧
    (x ∉ l → delete_duplicate l x = (FAILURE, l)) ∧
    (delete_duplicate l x).2 = l.erase x ∧
    ((delete_duplicate l x).1 = SUCCESS ∨ (delete_duplicate l x).1 = FAILURE) := by
  have hsplit : x ∈ l → ∃ pre post, l = pre ++ x :: post ∧ x ∉ pre ∧
      delete_duplicate l x = (SUCCESS, pre ++ post) := by
    intro hx
    obtain ⟨pre, post, hl, hpre⟩ := List.eq_append_cons_of_mem hx
    exact ⟨pre, post, hl, hpre, by rw [hl]; exact delete_duplicate_split pre post x hpre⟩
  refine ⟨⟨?_, ?_⟩, hsplit, delete_duplicate_absent l x, delete_duplicate_erase l x, ?_⟩
  · intro hs
    by_contra hx
    rw [delete_duplicate_absent l x hx] at hs
    simp [FAILURE, SUCCESS] at hs
  · intro hx
    obtain ⟨pre, post, _, _, h⟩ := hsplit hx
    rw [h]
  · by_cases hx : x ∈ l
    · obtain ⟨pre, post, _, _, h⟩ := hsplit hx
      left
      rw [h]
    · right
      rw [delete_duplicate_absent l x hx]

theorem delete_duplicate_removes_first_witness :
    ∃ pre post, [str "a.txt", str "b.txt", str "a.txt"] = pre ++ str "a.txt" :: post ∧
      str "a.txt" ∉ pre ∧
      delete_duplicate [str "a.txt", str "b.txt", str "a.txt"] (str "a.txt")
        = (SUCCESS, pre ++ post) :=
  (delete_duplicate_removes_first [str "a.txt", str "b.txt", str "a.txt"] (str "a.txt")).2.1
    (by decide)

/-! ## Loops driven by `fileCount` -/

theorem walk_subs_ok_le (n : Nat) (subs visited : List SubNode)
    (h : walk_subs n subs = .ok visited) : n ≤ subs.length := by
  induction n generalizing subs visited with
  | zero => exact Nat.zero_le _
  | succ k ih =>
    cases subs with
    | nil => simp [walk_subs] at h
    | cons x subs =>
      simp only [walk_subs] at h
      cases hw : walk_subs k subs with
      | error e => simp [hw] at h
      | ok v =>
        have := ih subs v hw
        simp only [List.length_cons]
        omega

theorem walk_subs_past_end (n : Nat) (subs : List SubNode) (h : subs.length < n) :
    walk_subs n subs = .error .nullLink := by
  induction n generalizing subs with
  | zero => omega
  | succ k ih =>
    cases subs with
    | nil => rfl
    | cons x subs =>
      simp only [walk_subs, ih subs (by simpa using h)]

theorem search_bucket_full (word : Str) (b : List MainNode)
    (h : ∀ m ∈ b, m.fileCount = (m.subLink.length : Int)) :
    search_bucket word b = .ok (full_reports b word) := by
  induction b with
  | nil => rfl
  | cons m b ih =>
    have hlen : m.fileCount.toNat = m.subLink.length := by
      rw [h m (by simp)]
      simp
    have hrest := ih (fun x hx => h x (by simp [hx]))
    by_cases hw : m.word = word
    · simp only [search_bucket, hw, if_true, hlen, walk_subs_length, hrest, full_reports,
        List.filter_cons, decide_True, List.map_cons]
    · simp only [search_bucket, hw, if_false, hrest, full_reports, List.filter_cons,
        decide_False]
      rfl

/-- C26: in an index in which each entry's `fileCount` equals the length of its
occurrence list, the loop that advances `fileCount` times along the list follows no
`NULL` link and visits the whole list, each occurrence once and in order; so
`search_word` returns, for every word, one report per matching entry with all its
occurrences, and `save_database` writes, for every entry, all its (file, count) pairs.
A count larger than the length makes the loop follow a `NULL` link. -/
theorem count_driven_traversal_in_bounds (ht : HashTable)
    (h : ∀ b ∈ ht, ∀ m ∈ b, m.fileCount = (m.subLink.length : Int)) :
    (∀ b ∈ ht, ∀ m ∈ b, walk_subs m.fileCount.toNat m.subLink = .ok m.subLink) ∧
    (∀ word, search_word ht word
      = .ok (full_reports (ht.link (get_word_index word).toNat) word)) ∧
    (∀ i, ∀ m ∈ ht.link i, save_main i m = .ok (record_text i m)) ∧
    save_text ht = .ok (header_line ++ records_text (records_of ht)) ∧
    (∀ (n : Nat) (subs visited : List SubNode),
      walk_subs n subs = .ok visited → n ≤ subs.length ∧ visited = subs.take n) ∧
    (∀ (n : Nat) (subs : List SubNode),
      subs.length < n → walk_subs n subs = .error .nullLink) := by
  have hlink : ∀ i, ∀ m ∈ ht.link i, m.fileCount = (m.subLink.length : Int) := by
    intro i m hm
    exact h _ (link_mem_of_lt ht i (lt_length_of_mem_link ht i m hm)) m hm
  have hnat : ∀ i, ∀ m ∈ ht.link i, m.fileCount.toNat = m.subLink.length := by
    intro i m hm
    rw [hlink i m hm]
    simp
  have hmain : ∀ i, ∀ m ∈ ht.link i, save_main i m = .ok (record_text i m) := by
    intro i m hm
    simp only [save_main, hnat i m hm, walk_subs_length]
    rfl
  refine ⟨?_, ?_, hmain, ?_, ?_, walk_subs_past_end⟩
  · intro b hb m hm
    have hlen : m.fileCount.toNat = m.subLink.length := by
      rw [h b hb m hm]
      simp
    rw [hlen, walk_subs_length]
  · intro word
    exact search_bucket_full word _ (hlink _)
  · rw [save_text_take ht (fun k m hm => le_of_eq (hnat k m hm))]
    congr 2
    simp only [records_text, records_of, List.flatMap_assoc, List.flatMap_map]
    apply List.flatMap_congr
    intro k _
    apply List.flatMap_congr
    intro m hm
    simp only [hnat k m hm, List.take_length, record_layout, record_text, save_subs_eq]
  · intro n subs visited hw
    have hle := walk_subs_ok_le n subs visited hw
    rw [walk_subs_take n subs hle] at hw
    simp only [Except.ok.injEq] at hw
    exact ⟨hle, hw.symm⟩

theorem count_driven_traversal_in_bounds_witness :
    search_word example_index (str "World")
      = .ok [(str "World", 2, [(str "doc1.txt", 1), (str "doc2.txt", 1)])] :=
  (count_driven_traversal_in_bounds example_index (by decide)).2.1 (str "World")

/-! ## What an insertion leaves as it was -/

theorem insert_sub_frame (f : Str) (subs : List SubNode) (p : Nat) (s : SubNode)
    (h : subs[p]? = some s) :
    ∃ s', (insert_sub f subs).1[p]? = some s' ∧ s'.filename = s.filename ∧
      s.wordCount ≤ s'.wordCount ∧ (s.filename ≠ f → s' = s) := by
  induction subs generalizing p with
  | nil => simp at h
  | cons x subs ih =>
    by_cases hx : x.filename = f
    · cases p with
      | zero =>
        simp only [List.getElem?_cons_zero, Option.some.injEq] at h
        subst h
        refine ⟨{ x with wordCount := x.wordCount + 1 }, ?_, rfl, ?_, fun hne => absurd hx hne⟩
        · simp [insert_sub, hx]
        · simp
      | succ q =>
        simp only [List.getElem?_cons_succ] at h
        exact ⟨s, by simp [insert_sub, hx, h], rfl, le_refl _, fun _ => rfl⟩
    · cases p with
      | zero =>
        simp only [List.getElem?_cons_zero, Option.some.injEq] at h
        subst h
        exact ⟨x, by simp [insert_sub, hx], rfl, le_refl _, fun _ => rfl⟩
      | succ q =>
        simp only [List.getElem?_cons_succ] at h
        obtain ⟨s', h1, h2⟩ := ih q h
        exact ⟨s', by simp [insert_sub, hx, h1], h2⟩

theorem insert_main_frame (f w : Str) (b : List MainNode) (k : Nat) (m : MainNode)
    (h : b[k]? = some m) :
    ∃ m', (insert_main f w b)[k]? = some m' ∧ m'.word = m.word ∧
      m.fileCount ≤ m'.fileCount ∧ (m.word ≠ w → m' = m) ∧
      ∀ (p : Nat) (s : SubNode), m.subLink[p]? = some s →
        ∃ s', m'.subLink[p]? = some s' ∧ s'.filename = s.filename ∧
          s.wordCount ≤ s'.wordCount ∧ (s.filename ≠ f → s' = s) := by
  have hsame : ∀ (p : Nat) (s : SubNode), m.subLink[p]? = some s →
      ∃ s', m.subLink[p]? = some s' ∧ s'.filename = s.filename ∧
        s.wordCount ≤ s'.wordCount ∧ (s.filename ≠ f → s' = s) :=
    fun p s hs => ⟨s, hs, rfl, le_refl _, fun _ => rfl⟩
  induction b generalizing k with
  | nil => simp at h
  | cons x b ih =>
    by_cases hx : x.word = w
    · cases k with
      | zero =>
        simp only [List.getElem?_cons_zero, Option.some.injEq] at h
        subst h
        refine ⟨{ word := x.word,
                  fileCount := if (insert_sub f x.subLink).2 then x.fileCount + 1
                    else x.fileCount,
                  subLink := (insert_sub f x.subLink).1 }, ?_, rfl, ?_,
                fun hne => absurd hx hne, fun p s hs => insert_sub_frame f x.subLink p s hs⟩
        · simp [insert_main, hx]
        · simp only
          split_ifs <;> omega
      | succ q =>
        simp only [List.getElem?_cons_succ] at h
        exact ⟨m, by simp [insert_main, hx, h], rfl, le_refl _, fun _ => rfl, hsame⟩
    · cases k with
      | zero =>
        simp only [List.getElem?_cons_zero, Option.some.injEq] at h
        subst h
        exact ⟨x, by simp [insert_main, hx], rfl, le_refl _, fun _ => rfl, hsame⟩
      | succ q =>
        simp only [List.getElem?_cons_succ] at h
        obtain ⟨m', h1, h2⟩ := ih q h
        exact ⟨m', by simp [insert_main, hx, h1], h2⟩

/-- C22: for every index, file `f`, index argument and word `w`, after
`hashTable_insert_last` the table has the same number of buckets, every bucket other than
the one named by the index argument is identical, and every entry that was at position
`k` of bucket `j` has a successor at position `k` of bucket `j` with the same word and a
`fileCount` that is not smaller; the successor is the entry itself when its word is not
`w`; every occurrence that was at position `p` of the entry has a successor at position
`p` with the same file name and a count that is not smaller, which is the occurrence
itself when its file is not `f`. -/
theorem insertion_frame (ht : HashTable) (f : Str) (index : Int) (w : Str) :
    (hashTable_insert_last ht f index w).2.length = ht.length ∧
    (∀ j : Nat, (j : Int) ≠ index →
      (hashTable_insert_last ht f index w).2.link j = ht.link j) ∧
    (∀ (j k : Nat) (m : MainNode), (ht.link j)[k]? = some m →
      ∃ m', ((hashTable_insert_last ht f index w).2.link j)[k]? = some m' ∧
        m'.word = m.word ∧ m.fileCount ≤ m'.fileCount ∧ (m.word ≠ w → m' = m) ∧
        ∀ (p : Nat) (s : SubNode), m.subLink[p]? = some s →
          ∃ s', m'.subLink[p]? = some s' ∧ s'.filename = s.filename ∧
            s.wordCount ≤ s'.wordCount ∧ (s.filename ≠ f → s' = s)) := by
  have hsame : ∀ (j k : Nat) (m : MainNode), (ht.link j)[k]? = some m →
      ∃ m', (ht.link j)[k]? = some m' ∧
        m'.word = m.word ∧ m.fileCount ≤ m'.fileCount ∧ (m.word ≠ w → m' = m) ∧
        ∀ (p : Nat) (s : SubNode), m.subLink[p]? = some s →
          ∃ s', m'.subLink[p]? = some s' ∧ s'.filename = s.filename ∧
            s.wordCount ≤ s'.wordCount ∧ (s.filename ≠ f → s' = s) :=
    fun j k m hm => ⟨m, hm, rfl, le_refl _, fun _ => rfl,
      fun p s hs => ⟨s, hs, rfl, le_refl _, fun _ => rfl⟩⟩
  unfold hashTable_insert_last
  split_ifs with hidx
  · exact ⟨rfl, fun _ _ => rfl, hsame⟩
  · refine ⟨by simp, ?_, ?_⟩
    · intro j hj
      apply link_set_ne
      intro he
      apply hj
      rw [← he]
      omega
    · intro j k m hm
      simp only
      by_cases hj : index.toNat = j
      · have hlt := lt_length_of_mem_link ht j m (List.mem_iff_getElem?.2 ⟨k, hm⟩)
        rw [hj, link_set_self _ _ _ hlt]
        exact insert_main_frame f w _ k m hm
      · rw [link_set_ne _ _ _ _ hj]
        exact hsame j k m hm

theorem insertion_frame_witness :
    (hashTable_insert_last example_index (str "doc3.txt") 7 (str "hello")).2.link 22
      = example_index.link 22 :=
  (insertion_frame example_index (str "doc3.txt") 7 (str "hello")).2.1 22 (by decide)

/-! ## A snapshot that covers every pending file -/

/-- C25: `create_database` with an empty file list returns FAILURE and leaves the index
as it is.  When `update_database` reads a snapshot that passes its checks, the records
read are `recs`, the pending list is duplicate-free and each of its files occurs as a file
field of a record, the loader loop leaves an empty file list and the table with the
records linked; the final `create_database` then returns FAILURE without touching the
table, and `update_database` leaves exactly the given table with the records read linked
at the tails of their buckets. -/
theorem empty_pending_set (fs : FS) (fl : FileList) (ht : HashTable) (backup : Str)
    (content : List Nat) (recs : List (Nat × MainNode))
    (hname : valid_file_name backup = SUCCESS) (hfile : fs backup = some content)
    (hsize : content ≠ []) (hvalid : valid_database content = SUCCESS)
    (hrecs : parse_records ((skip_line content).length + 1) (skip_line content) = .ok recs)
    (hnd : fl.Nodup) (hcover : ∀ f ∈ fl, f ∈ record_files recs) :
    (∀ t : HashTable, create_database fs [] t = (FAILURE, t)) ∧
    load_records ((skip_line content).length + 1) (skip_line content) fl ht
      = .ok ([], append_records ht recs) ∧
    create_database fs [] (append_records ht recs) = (FAILURE, append_records ht recs) ∧
    update_database fs fl ht backup = .ok ([], append_records ht recs) ∧
    (ht.length = MAX_HASH_SIZE → ∀ j, (append_records ht recs).link j
      = ht.link j ++ (recs.filter (fun r => r.1 = j)).map Prod.snd) := by
  have hname2 : ¬ valid_file_name backup = FAILURE := by
    rw [hname]
    decide
  have hlen : ¬ content.length = 0 := by
    intro h
    exact hsize (List.length_eq_zero.1 h)
  have hvalid2 : ¬ valid_database content = FAILURE := by
    rw [hvalid]
    decide
  have hempty : remove_files fl (record_files recs) = [] := by
    rw [remove_files_nodup fl _ hnd, List.filter_eq_nil_iff]
    intro f hf
    simpa using hcover f hf
  refine ⟨fun t => rfl, ?_, rfl, ?_, ?_⟩
  · rw [load_records_eq, hrecs]
    simp only [hempty]
  · simp only [update_database, hname2, hfile, hlen, hvalid2, if_false, load_records_eq, hrecs,
      hempty]
    rfl
  · intro h28 j
    apply append_records_link
    rw [h28]
    exact parse_records_range _ _ _ hrecs

theorem empty_pending_set_witness :
    update_database example_store [str "a.txt"] (initialize_hashTable MAX_HASH_SIZE)
        (str "db.txt")
      = .ok ([], append_records (initialize_hashTable MAX_HASH_SIZE)
          [(23, { word := str "x", fileCount := 1,
                  subLink := [{ filename := str "a.txt", wordCount := 2 }] })]) :=
  (empty_pending_set example_store [str "a.txt"] (initialize_hashTable MAX_HASH_SIZE)
    (str "db.txt") (header_line ++ str "#23;x;1;a.txt;2;#\n")
    [(23, { word := str "x", fileCount := 1,
            subLink := [{ filename := str "a.txt", wordCount := 2 }] })]
    (by decide) (by decide) (by decide) (by decide) (by decide) (by decide) (by decide)).2.2.2.1

/-! ## The bucket a record states -/

theorem classified_append_records (ht : HashTable) (recs : List (Nat × MainNode))
    (h : Classified ht) (hrecs : ∀ r ∈ recs, get_word_index r.2.word = (r.1 : Int)) :
    Classified (append_records ht recs) := by
  induction recs generalizing ht with
  | nil => exact h
  | cons r recs ih =>
    have hstep : append_records ht (r :: recs)
        = append_records (ht.set r.1 (ht.link r.1 ++ [r.2])) recs := rfl
    rw [hstep]
    apply ih _ _ (fun x hx => hrecs x (by simp [hx]))
    intro i m hm
    by_cases hi : r.1 = i
    · by_cases hlt : r.1 < ht.length
      · rw [← hi, link_set_self _ _ _ hlt] at hm
        rcases List.mem_append.1 hm with h1 | h1
        · rw [← hi]
          exact h _ m h1
        · rw [List.mem_singleton.1 h1, ← hi]
          exact hrecs r (by simp)
      · rw [List.set_eq_of_length_le (by omega)] at hm
        exact h i m hm
    · rw [link_set_ne _ _ _ _ hi] at hm
      exact h i m hm

/-- C21 fails on the code: the loader uses the bucket number read from the record as it
is.  The snapshots below pass the loader's checks.  From `misfiled_store` the entry "x" is
linked into bucket 5 although `get_word_index` maps "x" to 23: the empty index satisfies
the bucket invariant and the loaded one does not, and `search_word` does not find "x".
From `out_of_range_store` and `negative_bucket_store` the loader reads
`hashTablle[99]` and `hashTablle[-1]`, outside the 28 slots of the table.  The invariant
is kept when every record read states the bucket of its word. -/
theorem loader_trusts_stated_bucket :
    valid_file_name (str "db.txt") = SUCCESS ∧
    valid_database (header_line ++ str "#5;x;1;a.txt;1;#\n") = SUCCESS ∧
    valid_database (header_line ++ str "#99;x;1;a.txt;1;#\n") = SUCCESS ∧
    valid_database (header_line ++ str "#-1;x;1;a.txt;1;#\n") = SUCCESS ∧
    update_database misfiled_store [] (initialize_hashTable MAX_HASH_SIZE) (str "db.txt")
      = .ok ([], misfiled_index) ∧
    get_word_index (str "x") = 23 ∧
    Classified (initialize_hashTable MAX_HASH_SIZE) ∧
    ¬ Classified misfiled_index ∧
    search_word misfiled_index (str "x") = .ok [] ∧
    update_database out_of_range_store [] (initialize_hashTable MAX_HASH_SIZE) (str "db.txt")
      = .error .outOfBounds ∧
    update_database negative_bucket_store [] (initialize_hashTable MAX_HASH_SIZE) (str "db.txt")
      = .error .outOfBounds ∧
    (∀ (ht : HashTable) (recs : List (Nat × MainNode)), Classified ht →
      (∀ r ∈ recs, get_word_index r.2.word = (r.1 : Int)) →
      Classified (append_records ht recs)) := by
  refine ⟨by decide, by decide, by decide, by decide, by decide, by decide,
    classified_empty _, ?_, by decide, by decide, by decide, classified_append_records⟩
  intro h
  have h5 : ∀ m ∈ misfiled_index.link 5, get_word_index m.word = ((5 : Nat) : Int) := h 5
  exact absurd h5 (by decide)

/-! ## Updating from a snapshot of the first file, compared with indexing both files -/

theorem scan_word_field (s : List Nat) (w : Str) (rest : List Nat)
    (h : scan_word s = some (w, rest)) :
    w ≠ [] ∧ w.length < 20 ∧ (∀ c ∈ w, c ∈ s) ∧ (∀ c ∈ rest, c ∈ s) := by
  unfold scan_word at h
  simp only at h
  split_ifs at h with hw
  simp only [Option.some.injEq, Prod.mk.injEq] at h
  obtain ⟨h1, h2⟩ := h
  refine ⟨by rw [← h1]; exact hw, ?_, ?_, ?_⟩
  · rw [← h1, List.length_take]
    unfold MAX_WORD_LENGTH
    omega
  · intro c hc
    rw [← h1] at hc
    exact (List.dropWhile_sublist _).subset
      ((List.takeWhile_sublist _).subset ((List.take_sublist _ _).subset hc))
  · intro c hc
    rw [← h2] at hc
    exact (List.dropWhile_sublist _).subset ((List.drop_sublist _ _).subset hc)

theorem scan_words_field (fuel : Nat) (s : List Nat) (h : 59 ∉ s) :
    ∀ w ∈ scan_words fuel s, Field w := by
  induction fuel generalizing s with
  | zero => simp [scan_words]
  | succ k ih =>
    intro w hw
    simp only [scan_words] at hw
    cases hs : scan_word s with
    | none => simp [hs] at hw
    | some r =>
      obtain ⟨v, rest⟩ := r
      obtain ⟨h1, h2, h3, h4⟩ := scan_word_field s v rest hs
      simp only [hs, List.mem_cons] at hw
      rcases hw with rfl | hw
      · exact ⟨h1, fun hc => h (h3 59 hc), h2⟩
      · exact ih rest (fun hc => h (h4 59 hc)) w hw

theorem serializable_spec_table (ops : List (Str × Str))
    (h : ∀ op ∈ ops, Field op.1 ∧ Field op.2) : Serializable (spec_table ops) := by
  refine ⟨spec_table_length ops, ?_⟩
  intro b hb m hm
  simp only [spec_table, List.mem_map, List.mem_range] at hb
  obtain ⟨i, _, rfl⟩ := hb
  simp only [spec_bucket, List.mem_map] at hm
  obtain ⟨w, hw, rfl⟩ := hm
  obtain ⟨_, f, hf⟩ := (mem_words_of ops w i).1 hw
  refine ⟨(h _ hf).2, by simp [spec_entry], ?_, ?_⟩
  · have hmem : f ∈ files_of ops w := (mem_files_of ops f w).2 hf
    intro hnil
    simp only [spec_entry, List.map_eq_nil_iff] at hnil
    rw [hnil] at hmem
    simp at hmem
  · intro s hs
    simp only [spec_entry, List.mem_map] at hs
    obtain ⟨g, hg, rfl⟩ := hs
    exact (h _ ((mem_files_of ops g w).1 hg)).1

theorem mem_table_files_spec_table (ops : List (Str × Str)) (f : Str) :
    f ∈ table_files (spec_table ops) ↔ ∃ w, (f, w) ∈ ops := by
  rw [mem_table_files]
  constructor
  · rintro ⟨j, m, hm, hf⟩
    have hj : j < MAX_HASH_SIZE := by
      have := lt_length_of_mem_link _ j m hm
      rwa [spec_table_length] at this
    rw [spec_table_link ops j hj] at hm
    simp only [spec_bucket, List.mem_map] at hm
    obtain ⟨w, _, rfl⟩ := hm
    simp only [spec_entry, List.map_map, List.mem_map, Function.comp] at hf
    obtain ⟨g, hg, rfl⟩ := hf
    exact ⟨w, (mem_files_of ops g w).1 hg⟩
  · rintro ⟨w, hw⟩
    refine ⟨(get_word_index w).toNat, spec_entry ops w, ?_, ?_⟩
    · rw [spec_table_link ops _ (get_word_index_toNat_lt w)]
      simp only [spec_bucket, List.mem_map]
      exact ⟨w, (mem_words_of ops w _).2 ⟨rfl, f, hw⟩, rfl⟩
    · simp only [spec_entry, List.map_map, List.mem_map, Function.comp]
      exact ⟨f, (mem_files_of ops f w).2 hw, rfl⟩

theorem mem_record_files_records_of (ht : HashTable) (hlen : ht.length = MAX_HASH_SIZE)
    (f : Str) : f ∈ record_files (records_of ht) ↔ f ∈ table_files ht := by
  have h := mem_table_files_append_records (initialize_hashTable MAX_HASH_SIZE) (records_of ht) f
    (by
      intro r hr
      simpa [initialize_hashTable] using records_of_range ht r hr)
  rw [append_records_of ht hlen, table_files_empty_table] at h
  simpa using h.symm

theorem index_file_write (fs : FS) (backup : Str) (text : List Nat) (ht : HashTable) (f : Str)
    (h : f ≠ backup) : index_file (fs.write backup text) ht f = index_file fs ht f := by
  simp [index_file, FS.write, h]

/-- C24 as stated fails: `a.txt` holds the tokens "a" and "a;b", both shorter than 20
bytes.  The snapshot of its index holds the records `#0;a;1;a.txt;1;#` and
`#0;a;b;1;a.txt;1;#`; the loader reads the first, unlinks `a.txt`, and stops at the second,
whose header scan fails inside the word.  The updated index has no entry "a;b", the index
built from both documents has one. -/
theorem update_differs_from_rebuild :
    save_text (create_database semicolon_pair_docs [str "a.txt"]
        (initialize_hashTable MAX_HASH_SIZE)).2
      = .ok (header_line ++ str "#0;a;1;a.txt;1;#\n#0;a;b;1;a.txt;1;#\n") ∧
    update_after_save semicolon_pair_docs (str "a.txt") (str "b.txt") (str "db.txt")
      = .ok ([str "b.txt"], ((initialize_hashTable MAX_HASH_SIZE).set 0
          [{ word := str "a", fileCount := 1,
             subLink := [{ filename := str "a.txt", wordCount := 1 }] }]).set 2
          [{ word := str "c", fileCount := 1,
             subLink := [{ filename := str "b.txt", wordCount := 1 }] }]) ∧
    (create_database semicolon_pair_docs [str "a.txt", str "b.txt"]
        (initialize_hashTable MAX_HASH_SIZE)).2
      = ((initialize_hashTable MAX_HASH_SIZE).set 0
          [{ word := str "a", fileCount := 1,
             subLink := [{ filename := str "a.txt", wordCount := 1 }] },
           { word := str "a;b", fileCount := 1,
             subLink := [{ filename := str "a.txt", wordCount := 1 }] }]).set 2
          [{ word := str "c", fileCount := 1,
             subLink := [{ filename := str "b.txt", wordCount := 1 }] }] ∧
    (update_after_save semicolon_pair_docs (str "a.txt") (str "b.txt") (str "db.txt")).map Prod.snd
      ≠ .ok (create_database semicolon_pair_docs [str "a.txt", str "b.txt"]
          (initialize_hashTable MAX_HASH_SIZE)).2 ∧
    (∀ t ∈ tokens (str "a a;b"), t.length ≤ 19) ∧
    (∀ t ∈ tokens (str "c"), t.length ≤ 19) := by
  decide

/-- C24, amended: let `a` be a readable file whose text holds no `;` and whose name is
not empty, shorter than 20 bytes and free of `;`, let `b` be another file name, and let
`backup` be a valid snapshot name other than `a` and `b`.  Saving the index built from
`[a]` under `backup` and updating the empty index from it with `[a, b]` pending returns
normally with the table that `create_database` builds from `[a, b]` on the empty index: the
same buckets, word order, `fileCount`s, occurrence order and counts.  The pending list
left by the loader is `[b]`, or `[a, b]` when `a` holds no word.  Tokens of any length are
covered. -/
theorem update_equals_rebuild (fs : FS) (a b backup : Str) (ca : List Nat)
    (ha : fs a = some ca) (hsemi : 59 ∉ ca) (hfield : Field a) (hab : a ≠ b)
    (hname : valid_file_name backup = SUCCESS) (hbka : backup ≠ a) (hbkb : backup ≠ b) :
    update_after_save fs a b backup
      = .ok (if scan_words (ca.length + 1) ca = [] then [a, b] else [b],
          (create_database fs [a, b] (initialize_hashTable MAX_HASH_SIZE)).2) := by
  have hname2 : ¬ valid_file_name backup = FAILURE := by
    rw [hname]
    decide
  have hops : doc_ops fs [a] = (scan_words (ca.length + 1) ca).map (fun w => (a, w)) := by
    simp [doc_ops, ha]
  have hT : (create_database fs [a] (initialize_hashTable MAX_HASH_SIZE)).2
      = spec_table ((scan_words (ca.length + 1) ca).map (fun w => (a, w))) := by
    rw [create_database_eq, insert_all_eq_spec, hops]
  have hfields : ∀ op ∈ (scan_words (ca.length + 1) ca).map (fun w => (a, w)),
      Field op.1 ∧ Field op.2 := by
    intro op hop
    obtain ⟨w, hw, rfl⟩ := List.mem_map.1 hop
    exact ⟨hfield, scan_words_field _ ca hsemi w hw⟩
  have hrebuild : (create_database fs [a, b] (initialize_hashTable MAX_HASH_SIZE)).2
      = index_file fs (create_database fs [a] (initialize_hashTable MAX_HASH_SIZE)).2 b := by
    simp only [create_database_snd, List.foldl_cons, List.foldl_nil]
  rw [hrebuild, hT]
  have hfiles : ∀ op ∈ (scan_words (ca.length + 1) ca).map (fun w => (a, w)), op.1 = a := by
    intro op hop
    obtain ⟨w, _, rfl⟩ := List.mem_map.1 hop
    rfl
  have hnil : scan_words (ca.length + 1) ca = []
      ↔ (scan_words (ca.length + 1) ca).map (fun w => (a, w)) = [] := by
    simp
  simp only [hnil]
  generalize (scan_words (ca.length + 1) ca).map (fun w => (a, w)) = ops at hT hfields hfiles
  have hser := serializable_spec_table ops hfields
  have hsave := save_text_storable (spec_table ops) (storable_of_mem_link _ hser)
  have hrecs : ∀ r ∈ records_of (spec_table ops), r.1 < MAX_HASH_SIZE ∧ Storable r.2 := by
    intro r hr
    refine ⟨records_of_range _ r hr, ?_⟩
    simp only [records_of, List.mem_flatMap, List.mem_range, List.mem_map] at hr
    obtain ⟨i, _, m, hm, rfl⟩ := hr
    exact storable_of_mem_link _ hser i m hm
  have hlen : ¬ (header_line ++ records_text (records_of (spec_table ops))).length = 0 := by
    obtain ⟨pre, hpre⟩ := snapshot_tail (records_of (spec_table ops))
    rw [hpre]
    simp
  have hvalid : ¬ valid_database (header_line ++ records_text (records_of (spec_table ops)))
      = FAILURE := by
    rw [valid_database_snapshot]
    decide
  simp only [update_after_save, hT, save_database, hname2, if_false, hsave, update_database,
    FS.write, if_true, hlen, hvalid, skip_line_header, load_records_eq]
  rw [parse_records_saved (records_of (spec_table ops)) _ hrecs (by omega)]
  simp only [append_records_of (spec_table ops) hser.1]
  rw [remove_files_nodup [a, b] _ (by simp [hab])]
  have hb : b ∉ record_files (records_of (spec_table ops)) := by
    rw [mem_record_files_records_of _ hser.1, mem_table_files_spec_table]
    rintro ⟨w, hw⟩
    exact hab (hfiles _ hw).symm
  by_cases hops0 : ops = []
  · subst hops0
    have ha2 : a ∉ record_files (records_of (spec_table [])) := by
      rw [mem_record_files_records_of _ hser.1, mem_table_files_spec_table]
      simp
    have hinit : spec_table [] = initialize_hashTable MAX_HASH_SIZE :=
      (insert_all_eq_spec []).symm
    have hself : index_file fs (spec_table []) a = spec_table [] := by
      have h1 : index_file fs (initialize_hashTable MAX_HASH_SIZE) a = spec_table [] := hT
      rw [hinit] at h1 ⊢
      exact h1
    rw [if_pos rfl, List.filter_cons_of_pos (by simpa using ha2),
      List.filter_cons_of_pos (by simpa using hb), List.filter_nil]
    simp only [create_database_snd, List.foldl_cons, List.foldl_nil,
      index_file_write fs backup _ _ a (Ne.symm hbka),
      index_file_write fs backup _ _ b (Ne.symm hbkb), hself]
  · obtain ⟨op, hop⟩ := List.exists_mem_of_ne_nil ops hops0
    have ha2 : a ∈ record_files (records_of (spec_table ops)) := by
      rw [mem_record_files_records_of _ hser.1, mem_table_files_spec_table]
      refine ⟨op.2, ?_⟩
      rw [← hfiles op hop]
      exact hop
    rw [if_neg hops0, List.filter_cons_of_neg (by simpa using ha2),
      List.filter_cons_of_pos (by simpa using hb), List.filter_nil]
    simp only [create_database_snd, List.foldl_cons, List.foldl_nil,
      index_file_write fs backup _ _ b (Ne.symm hbkb)]

theorem update_equals_rebuild_witness :
    update_after_save example_docs (str "doc1.txt") (str "doc2.txt") (str "db.txt")
      = .ok ([str "doc2.txt"], example_index) := by
  have h := update_equals_rebuild example_docs (str "doc1.txt") (str "doc2.txt") (str "db.txt")
    (str "Hello hello World") (by decide) (by decide) (by decide) (by decide) (by decide)
    (by decide) (by decide)
  rw [h]
  decide

end InvertedSearch
